import Mathlib

/-!
Verification of the adaptive refinement engine of inari-graph
(src/rust/src/graph.rs, src/rust/src/image.rs).

Modelling conventions:

* Machine integers (`u32`, `usize`, `i8`) are modelled as `Nat`/`Int`, with
  explicit `% 2^w` or explicit range checks exactly where the source performs
  a conversion that can fail (`u32::try_from`).
* The `f64` endpoints of the branch interval `n_theta` are modelled as extended
  rationals (`XF`).  All arithmetic the engine performs on reachable `n_theta`
  intervals (doubling, adding one, halving of even integer sums below `2^54`)
  is exact in `f64`, so the exact model agrees with the source on those inputs.
* `interval!(a, b).unwrap()` panics when `a > b`, `a = +inf` or `b = -inf`;
  this is modelled by `mkInterval : XF -> XF -> Option XInt`.
* Rust panics (failed `assert!`/`unwrap`) are modelled by `Option`/`none`.
-/

namespace InariGraph

/-- Pixel state, from image.rs (`PixelState`). -/
inductive PixelState where
  | Uncertain : PixelState
  | False : PixelState
  | True : PixelState
deriving DecidableEq, Repr

/-- Subdivision direction, from image.rs (`SubdivisionDir`). -/
inductive SubdivisionDir where
  | XY : SubdivisionDir
  | NTheta : SubdivisionDir
deriving DecidableEq, Repr

/-- Relation types.  Modelled from the spec: `relation_type() -> { Implicit,
FunctionOfX, FunctionOfY, Polar }` (relation.rs is not part of the sources). -/
inductive RelationType where
  | Implicit : RelationType
  | FunctionOfX : RelationType
  | FunctionOfY : RelationType
  | Polar : RelationType
deriving DecidableEq, Repr

/-- Error kinds, from graph.rs (`GraphingErrorKind`). -/
inductive GraphingErrorKind where
  | BlockIndexOverflow : GraphingErrorKind
  | ReachedMemLimit : GraphingErrorKind
  | ReachedSubdivisionLimit : GraphingErrorKind
deriving DecidableEq, Repr

/-- Graphing error, from graph.rs (`GraphingError`). -/
structure GraphingError where
  kind : GraphingErrorKind
deriving DecidableEq, Repr

/-- Extended rational numbers: the model of the `f64` values that can appear
as endpoints of the branch interval `n_theta` (finite values and the two
infinities; NaN never arises as an endpoint of a valid interval). -/
inductive XF where
  | negInf : XF
  | fin : ℚ → XF
  | posInf : XF
deriving DecidableEq, Repr

namespace XF

/-- Comparison `a <= b` on extended reals, as `f64` comparison. -/
def ble : XF → XF → Bool
  | negInf, _ => true
  | fin _, negInf => false
  | fin a, fin b => decide (a ≤ b)
  | fin _, posInf => true
  | posInf, posInf => true
  | posInf, _ => false

/-- Comparison `a < b` on extended reals. -/
def blt (a b : XF) : Bool := !(ble b a)

/-- Negation; `f64` negation maps the infinities to each other. -/
def neg : XF → XF
  | negInf => posInf
  | fin q => fin (-q)
  | posInf => negInf

/-- Adding `1.0`; in `f64`, `±inf + 1.0 = ±inf`, and the addition is exact
for the integer endpoints that reach this operation in the engine. -/
def add1 : XF → XF
  | negInf => negInf
  | fin q => fin (q + 1)
  | posInf => posInf

/-- Doubling (`2.0 * x`); in `f64`, `2.0 * ±inf = ±inf`, and the product is
exact whenever it does not overflow, which it cannot on the endpoints that
reach this operation (their magnitude is at most `2^53`). -/
def dbl : XF → XF
  | negInf => negInf
  | fin q => fin (2 * q)
  | posInf => posInf

/-- Whether the value is finite. -/
def isFin : XF → Bool
  | fin _ => true
  | _ => false

end XF

/-- A (nonempty) closed interval with extended-rational endpoints: the model
of an inari `Interval` as used for `n_theta`. -/
structure XInt where
  lo : XF
  hi : XF
deriving DecidableEq, Repr

/-- The checked interval constructor `interval!(a, b).unwrap()`: panics
(returns `none`) unless `a <= b`, `a < +inf` and `b > -inf`. -/
def mkInterval (lo hi : XF) : Option XInt :=
  if XF.ble lo hi ∧ lo ≠ XF.posInf ∧ hi ≠ XF.negInf then some ⟨lo, hi⟩ else none

/-- The whole real line, `Interval::ENTIRE`. -/
def XInt.entire : XInt := ⟨XF.negInf, XF.posInf⟩

/-- Interval `is_singleton`: both endpoints are equal. -/
def XInt.is_singleton (n : XInt) : Bool := n.lo == n.hi

/-- Interval `mig`: the minimum absolute value over the interval. -/
def XInt.mig (n : XInt) : XF :=
  if XF.ble n.lo (XF.fin 0) && XF.ble (XF.fin 0) n.hi then XF.fin 0
  else if XF.blt (XF.fin 0) n.lo then n.lo
  else XF.neg n.hi

/-- `MAX_DISCRETE_N_THETA = 2^53 - 1`, from image.rs. -/
def MAX_DISCRETE_N_THETA : ℚ := 9007199254740991

/-- `MIN_K = -15`, from image.rs. -/
def MIN_K : Int := -15

/-- The index of a pixel of an image, from image.rs (`PixelIndex`). -/
structure PixelIndex where
  x : Nat
  y : Nat
deriving DecidableEq, Repr

/-- An image block, from image.rs (`ImageBlock`).  Coordinates `x`, `y` are
`u32`; levels `kx`, `ky` are `i8`. -/
structure ImageBlock where
  x : Nat
  y : Nat
  kx : Int
  ky : Int
  n_theta : XInt
  next_dir : SubdivisionDir
deriving DecidableEq, Repr

namespace ImageBlock

/-- `ImageBlock::new`: `next_dir` starts as `XY`. -/
def new (x y : Nat) (kx ky : Int) (n_theta : XInt) : ImageBlock :=
  ⟨x, y, kx, ky, n_theta, SubdivisionDir.XY⟩

/-- Width of the block in pixels, `1u32 << kx`.  The source asserts
`kx >= 0`; callers only invoke this on pixel/superpixel blocks. -/
def width (b : ImageBlock) : Nat := 2 ^ b.kx.toNat

/-- Height of the block in pixels, `1u32 << ky` (asserts `ky >= 0`). -/
def height (b : ImageBlock) : Nat := 2 ^ b.ky.toNat

/-- Width of a pixel in multiples of the block width, `1u32 << -kx`
(asserts `kx <= 0`). -/
def pixel_align_x (b : ImageBlock) : Nat := 2 ^ (-b.kx).toNat

/-- Height of a pixel in multiples of the block height (asserts `ky <= 0`). -/
def pixel_align_y (b : ImageBlock) : Nat := 2 ^ (-b.ky).toNat

/-- Index of the (least) pixel containing the block. -/
def pixel_index (b : ImageBlock) : PixelIndex :=
  ⟨if 0 ≤ b.kx then b.x * 2 ^ b.kx.toNat else b.x / 2 ^ (-b.kx).toNat,
   if 0 ≤ b.ky then b.y * 2 ^ b.ky.toNat else b.y / 2 ^ (-b.ky).toNat⟩

/-- The pixel-level block containing a (non-superpixel) block. -/
def pixel_block (b : ImageBlock) : ImageBlock :=
  { b with x := b.pixel_index.x, y := b.pixel_index.y, kx := 0, ky := 0 }

/-- Whether the block is a superpixel: `kx > 0 || ky > 0`. -/
def is_superpixel (b : ImageBlock) : Bool := decide (0 < b.kx) || decide (0 < b.ky)

/-- Whether the block is a subpixel: `kx < 0 || ky < 0`. -/
def is_subpixel (b : ImageBlock) : Bool := decide (b.kx < 0) || decide (b.ky < 0)

/-- Whether the block can be subdivided on the x/y axes:
`kx > MIN_K && ky > MIN_K`. -/
def is_subdivisible_on_xy (b : ImageBlock) : Bool :=
  decide (MIN_K < b.kx) && decide (MIN_K < b.ky)

/-- Whether the block can be subdivided on the `n_theta` axis:
`!n_theta.is_singleton() && n_theta.mig() <= MAX_DISCRETE_N_THETA`. -/
def is_subdivisible_on_n_theta (b : ImageBlock) : Bool :=
  !b.n_theta.is_singleton && XF.ble b.n_theta.mig (XF.fin MAX_DISCRETE_N_THETA)

end ImageBlock

/-- The configuration of a `Graph` that the subdivision routines read:
the image dimensions and the relation type. -/
structure GraphEnv where
  im_width : Nat
  im_height : Nat
  relation_type : RelationType
deriving DecidableEq, Repr

/-- `Graph::subdivide_on_xy`.  Returns `none` when the source would panic
(the `width`/`height` assertions fail on a superpixel whose children would
have a negative level, which cannot happen for reachable blocks).
Note that in the superpixel branch every child is pushed with
`is_last_sibling = true`. -/
def subdivide_on_xy (g : GraphEnv) (b : ImageBlock) :
    Option (List (ImageBlock × Bool)) :=
  if b.is_superpixel then
    let x0 := 2 * b.x
    let y0 := 2 * b.y
    let x1 := x0 + 1
    let y1 := y0 + 1
    let kx := b.kx - 1
    let ky := b.ky - 1
    if kx < 0 ∨ ky < 0 then none
    else
      let b00 := ImageBlock.new x0 y0 kx ky b.n_theta
      some ([(b00, true)]
        ++ (if y1 * b00.height < g.im_height
            then [(ImageBlock.new x0 y1 kx ky b.n_theta, true)] else [])
        ++ (if x1 * b00.width < g.im_width
            then [(ImageBlock.new x1 y0 kx ky b.n_theta, true)] else [])
        ++ (if x1 * b00.width < g.im_width ∧ y1 * b00.height < g.im_height
            then [(ImageBlock.new x1 y1 kx ky b.n_theta, true)] else []))
  else
    match g.relation_type with
    | RelationType.FunctionOfX =>
      some [(ImageBlock.new (2 * b.x) b.y (b.kx - 1) b.ky b.n_theta, false),
            (ImageBlock.new (2 * b.x + 1) b.y (b.kx - 1) b.ky b.n_theta, true)]
    | RelationType.FunctionOfY =>
      some [(ImageBlock.new b.x (2 * b.y) b.kx (b.ky - 1) b.n_theta, false),
            (ImageBlock.new b.x (2 * b.y + 1) b.kx (b.ky - 1) b.n_theta, true)]
    | _ =>
      some [(ImageBlock.new (2 * b.x) (2 * b.y) (b.kx - 1) (b.ky - 1) b.n_theta, false),
            (ImageBlock.new (2 * b.x + 1) (2 * b.y) (b.kx - 1) (b.ky - 1) b.n_theta, false),
            (ImageBlock.new (2 * b.x) (2 * b.y + 1) (b.kx - 1) (b.ky - 1) b.n_theta, false),
            (ImageBlock.new (2 * b.x + 1) (2 * b.y + 1) (b.kx - 1) (b.ky - 1) b.n_theta, true)]

/-- The inner `bisect` of `Graph::subdivide_on_n_theta`.  Returns the list of
pieces (the source returns `[Option<Interval>; 2]` and flattens away `None`),
or `none` when an `interval!(..).unwrap()` would panic.  The midpoint
arithmetic is exact here; in `f64` it is exact on every interval reachable
from the polar seeds (integer endpoints whose sum is even and at most `2^54`
in magnitude). -/
def bisect (n : XInt) : Option (List XInt) :=
  if n.is_singleton || XF.blt (XF.fin MAX_DISCRETE_N_THETA) n.mig then
    some [n]
  else if XF.add1 n.lo == n.hi then
    match mkInterval n.lo n.lo, mkInterval n.hi n.hi with
    | some i1, some i2 => some [i1, i2]
    | _, _ => none
  else
    let mid : XF :=
      if n.lo = XF.negInf then XF.dbl n.hi
      else if n.hi = XF.posInf then XF.dbl n.lo
      else match n.lo, n.hi with
        | XF.fin a, XF.fin b => XF.fin ((a + b) / 2)
        | _, _ => XF.posInf
    match mkInterval n.lo mid, mkInterval mid n.hi with
    | some i1, some i2 => some [i1, i2]
    | _, _ => none

/-- Marks the last element of the list with `true`
(`sub_bs.last_mut()` ... `last.1 = true`). -/
def markLast : List (ImageBlock × Bool) → List (ImageBlock × Bool)
  | [] => []
  | [(a, _)] => [(a, true)]
  | x :: y :: xs => x :: markLast (y :: xs)

/-- Bisecting every interval of a list and concatenating the pieces in order
(the `flat_map(bisect).flatten()` of the source); `none` if any bisection
panics. -/
def bisect_each : List XInt → Option (List XInt)
  | [] => some []
  | n :: rest =>
    match bisect n, bisect_each rest with
    | some l, some ls => some (l ++ ls)
    | _, _ => none

/-- `Graph::subdivide_on_n_theta`: bisect the branch interval twice (at most
four pieces), emit each piece as a child with `is_last_sibling = false`, then
mark the last emitted child with `true`. -/
def subdivide_on_n_theta (b : ImageBlock) : Option (List (ImageBlock × Bool)) :=
  match bisect b.n_theta with
  | none => none
  | some ns =>
    match bisect_each ns with
    | none => none
    | some pieces =>
      some (markLast (pieces.map fun n => ({ b with n_theta := n }, false)))

/-- The direction selection for re-queued children in `Graph::refine_impl`
(the `next_dir` computation). -/
def choose_next_dir (g : GraphEnv) (b : ImageBlock) (n_incomplete n_sub : Nat) :
    Except GraphingError SubdivisionDir :=
  if g.relation_type = RelationType.Polar then
    let preferred : Option SubdivisionDir :=
      if 4 * n_incomplete ≤ n_sub then
        match b.next_dir with
        | SubdivisionDir.NTheta =>
          if b.is_subdivisible_on_n_theta then some SubdivisionDir.NTheta else none
        | SubdivisionDir.XY =>
          if b.is_subdivisible_on_xy then some SubdivisionDir.XY else none
      else
        match b.next_dir with
        | SubdivisionDir.NTheta =>
          if b.is_subdivisible_on_xy then some SubdivisionDir.XY else none
        | SubdivisionDir.XY =>
          if b.is_subdivisible_on_n_theta then some SubdivisionDir.NTheta else none
    match preferred with
    | some d => Except.ok d
    | none =>
      if b.is_subdivisible_on_n_theta then Except.ok SubdivisionDir.NTheta
      else if b.is_subdivisible_on_xy then Except.ok SubdivisionDir.XY
      else Except.error ⟨GraphingErrorKind.ReachedSubdivisionLimit⟩
  else if b.is_subdivisible_on_xy then Except.ok SubdivisionDir.XY
  else Except.error ⟨GraphingErrorKind.ReachedSubdivisionLimit⟩

/-! ### Image model (image.rs) -/

/-- The image: pixel states and last-queued-block indices, stored row-major
(`y * width + x`), from image.rs (`Image`). -/
structure Image where
  width : Nat
  height : Nat
  states : Nat → PixelState
  last_queued_blocks : Nat → Nat

namespace Image

/-- `Image::new`: all pixels `Uncertain`, all last-queued indices `0`. -/
def new (width height : Nat) : Image :=
  ⟨width, height, fun _ => PixelState.Uncertain, fun _ => 0⟩

/-- Flattened index of a pixel. -/
def index (im : Image) (p : PixelIndex) : Nat := p.y * im.width + p.x

/-- The state of a pixel. -/
def state (im : Image) (p : PixelIndex) : PixelState := im.states (im.index p)

/-- Writing the state of a pixel. -/
def set_state (im : Image) (p : PixelIndex) (s : PixelState) : Image :=
  { im with states := Function.update im.states (im.index p) s }

/-- The last-queued-block index of a pixel. -/
def last_queued_block (im : Image) (p : PixelIndex) : Nat :=
  im.last_queued_blocks (im.index p)

/-- Writing the last-queued-block index of a pixel. -/
def set_last_queued_block (im : Image) (p : PixelIndex) (i : Nat) : Image :=
  { im with last_queued_blocks := Function.update im.last_queued_blocks (im.index p) i }

/-- `Image::size_in_heap`: `W * H` states of one byte plus `W * H` indices of
four bytes (`size_of::<PixelState>() = 1`, `size_of::<QueuedBlockIndex>() = 4`;
the capacity of a `vec![x; n]` equals its length). -/
def size_in_heap (im : Image) : Nat :=
  im.width * im.height * 1 + im.width * im.height * 4

end Image

/-! ### Evaluation caches and the memory check (C5) -/

/-- An evaluation cache.  Modelled from the spec: `EvalCache` lives in
relation.rs, which is not among the sources; the spec only requires that its
memory is accounted via `size_in_heap` and that a fresh cache is empty.
We model exactly that: the abstract heap size, with a fresh cache owning no
heap memory. -/
structure EvalCache where
  size_in_heap : Nat
deriving DecidableEq, Repr

/-- `EvalCache::new`: a fresh, empty cache. -/
def EvalCache.new : EvalCache := ⟨0⟩

/-- The state the memory check of `Graph::refine_impl` operates on. -/
structure MemCheckState where
  im : Image
  queue : List (Nat × ImageBlock)
  cache1 : EvalCache
  cache2 : EvalCache

/-- The memory check at the end of each `refine_impl` iteration
(graph.rs lines 371-387).  `im_size` and `queue_size` are the heap sizes of
`s.im` and of the byte queue holding `s.queue`.  The source is a `while` loop
with a `clear_cache_and_retry` flag: the first failing check drops both
caches, and a second failing check (with the sizes unchanged, as nothing else
is mutated in the loop body) returns `ReachedMemLimit`; so the loop runs its
body at most twice and is unrolled here. -/
def check_mem_limit (s : MemCheckState) (im_size queue_size mem_limit : Nat) :
    Except GraphingError MemCheckState :=
  if im_size + queue_size + s.cache1.size_in_heap + s.cache2.size_in_heap ≤ mem_limit then
    Except.ok s
  else if im_size + queue_size + EvalCache.new.size_in_heap
      + EvalCache.new.size_in_heap ≤ mem_limit then
    Except.ok { s with cache1 := EvalCache.new, cache2 := EvalCache.new }
  else
    Except.error ⟨GraphingErrorKind.ReachedMemLimit⟩

/-- C5.  The memory check fails with `ReachedMemLimit` exactly when the total
heap size with both caches dropped (i.e. replaced by fresh ones) still exceeds
`mem_limit`; otherwise it succeeds, and the image and the queue are returned
unchanged (they are never shrunk) with the caches either untouched (first
check passed) or dropped exactly once. -/
theorem check_mem_limit_spec (s : MemCheckState) (im_size queue_size mem_limit : Nat) :
    (check_mem_limit s im_size queue_size mem_limit
        = Except.error ⟨GraphingErrorKind.ReachedMemLimit⟩ ↔
      mem_limit < im_size + queue_size + EvalCache.new.size_in_heap
        + EvalCache.new.size_in_heap) ∧
    (∀ s2, check_mem_limit s im_size queue_size mem_limit = Except.ok s2 →
      s2.im = s.im ∧ s2.queue = s.queue ∧
      ((s2.cache1 = s.cache1 ∧ s2.cache2 = s.cache2 ∧
          im_size + queue_size + s.cache1.size_in_heap + s.cache2.size_in_heap
            ≤ mem_limit) ∨
        (s2.cache1 = EvalCache.new ∧ s2.cache2 = EvalCache.new))) := by
  have hnew : EvalCache.new.size_in_heap = 0 := rfl
  unfold check_mem_limit
  constructor
  · rw [hnew]
    split_ifs with h1 h2
    · constructor
      · intro h
        simp at h
      · intro h
        omega
    · constructor
      · intro h
        simp at h
      · intro h
        omega
    · constructor
      · intro _
        omega
      · intro _
        rfl
  · intro s2 h
    split_ifs at h with h1 h2
    · cases h
      exact ⟨rfl, rfl, Or.inl ⟨rfl, rfl, h1⟩⟩
    · cases h
      exact ⟨rfl, rfl, Or.inr ⟨rfl, rfl⟩⟩

/-! ### Direction choice (C7) -/

/-- The other subdivision direction. -/
def other_dir : SubdivisionDir → SubdivisionDir
  | SubdivisionDir.XY => SubdivisionDir.NTheta
  | SubdivisionDir.NTheta => SubdivisionDir.XY

/-- Whether the block is subdivisible in the given direction. -/
def subdivisible_on (b : ImageBlock) : SubdivisionDir → Bool
  | SubdivisionDir.XY => b.is_subdivisible_on_xy
  | SubdivisionDir.NTheta => b.is_subdivisible_on_n_theta

/-- C7.  For a polar relation the next direction for a popped block's
incomplete children is: the popped block's own direction when at most 25% of
the emitted children were incomplete (`4 * incomplete <= emitted`) and that
direction is still subdivisible; otherwise the other direction when it is
subdivisible; otherwise whichever axis remains subdivisible; and
`ReachedSubdivisionLimit` when neither axis is subdivisible. -/
theorem choose_next_dir_polar_spec (g : GraphEnv) (b : ImageBlock)
    (n_incomplete n_sub : Nat) (hp : g.relation_type = RelationType.Polar) :
    choose_next_dir g b n_incomplete n_sub =
      (if 4 * n_incomplete ≤ n_sub ∧ subdivisible_on b b.next_dir = true then
        Except.ok b.next_dir
      else if subdivisible_on b (other_dir b.next_dir) = true then
        Except.ok (other_dir b.next_dir)
      else if subdivisible_on b b.next_dir = true then
        Except.ok b.next_dir
      else
        Except.error ⟨GraphingErrorKind.ReachedSubdivisionLimit⟩) := by
  unfold choose_next_dir
  rw [hp]
  simp only [if_pos rfl]
  cases hd : b.next_dir <;>
    by_cases h25 : 4 * n_incomplete ≤ n_sub <;>
    by_cases hxy : b.is_subdivisible_on_xy = true <;>
    by_cases hnt : b.is_subdivisible_on_n_theta = true <;>
    simp [h25, hxy, hnt, other_dir, subdivisible_on,
      Bool.not_eq_true] at *

/-- Witness for C7 at a concrete input: a polar block pointing at `XY`,
subdivisible on both axes, with no incomplete children keeps direction `XY`. -/
theorem choose_next_dir_polar_spec_witness :
    choose_next_dir ⟨16, 16, RelationType.Polar⟩
      ⟨0, 0, 0, 0, ⟨XF.fin 1, XF.posInf⟩, SubdivisionDir.XY⟩ 0 4
      = Except.ok SubdivisionDir.XY := by
  rw [choose_next_dir_polar_spec ⟨16, 16, RelationType.Polar⟩
    ⟨0, 0, 0, 0, ⟨XF.fin 1, XF.posInf⟩, SubdivisionDir.XY⟩ 0 4 rfl]
  rfl

/-! ### XY subdivision of a superpixel (C3) -/

/-- C3 (amended).  Subdividing a superpixel block (with positive levels, so
that the source's `width`/`height` assertions pass, and whose first pixel lies
inside the image) emits up to four children at level `(kx - 1, ky - 1)` with
the parent's branch interval; a candidate child at offset `(i, j)` is emitted
exactly when it starts inside the image; and every emitted child carries
`is_last_sibling = true` (not only the last one). -/
theorem subdivide_on_xy_superpixel_spec (g : GraphEnv) (b : ImageBlock)
    (hkx : 1 ≤ b.kx) (hky : 1 ≤ b.ky)
    (hx : b.x * 2 ^ b.kx.toNat < g.im_width)
    (hy : b.y * 2 ^ b.ky.toNat < g.im_height) :
    ∃ l, subdivide_on_xy g b = some l ∧
      l.length ≤ 4 ∧
      (∀ c ∈ l, c.2 = true ∧ c.1.kx = b.kx - 1 ∧ c.1.ky = b.ky - 1 ∧
        c.1.n_theta = b.n_theta) ∧
      (∀ i j : Nat, i ≤ 1 → j ≤ 1 →
        ((∃ f, (⟨2 * b.x + i, 2 * b.y + j, b.kx - 1, b.ky - 1, b.n_theta,
            SubdivisionDir.XY⟩, f) ∈ l) ↔
          (2 * b.x + i) * 2 ^ (b.kx.toNat - 1) < g.im_width ∧
            (2 * b.y + j) * 2 ^ (b.ky.toNat - 1) < g.im_height)) := by
  have hsup : b.is_superpixel = true := by
    simp only [ImageBlock.is_superpixel, Bool.or_eq_true, decide_eq_true_eq]
    omega
  have hkx0 : ¬(b.kx - 1 < 0 ∨ b.ky - 1 < 0) := by omega
  have hmx : b.kx.toNat = b.kx.toNat - 1 + 1 := by omega
  have hmy : b.ky.toNat = b.ky.toNat - 1 + 1 := by omega
  have hwx : 2 * b.x * 2 ^ (b.kx.toNat - 1) < g.im_width := by
    rw [hmx, pow_succ] at hx
    calc 2 * b.x * 2 ^ (b.kx.toNat - 1) = b.x * (2 ^ (b.kx.toNat - 1) * 2) := by ring
    _ < g.im_width := hx
  have hwy : 2 * b.y * 2 ^ (b.ky.toNat - 1) < g.im_height := by
    rw [hmy, pow_succ] at hy
    calc 2 * b.y * 2 ^ (b.ky.toNat - 1) = b.y * (2 ^ (b.ky.toNat - 1) * 2) := by ring
    _ < g.im_height := hy
  unfold subdivide_on_xy
  rw [hsup]
  simp only [if_true, if_neg hkx0, ImageBlock.new, ImageBlock.width, ImageBlock.height]
  have e1 : (b.kx - 1).toNat = b.kx.toNat - 1 := by omega
  have e2 : (b.ky - 1).toNat = b.ky.toNat - 1 := by omega
  simp only [e1, e2]
  by_cases hY : (2 * b.y + 1) * 2 ^ (b.ky.toNat - 1) < g.im_height <;>
    by_cases hX : (2 * b.x + 1) * 2 ^ (b.kx.toNat - 1) < g.im_width
  · rw [if_pos hY, if_pos hX, if_pos (And.intro hX hY)]
    simp only [List.singleton_append, List.cons_append, List.nil_append, List.append_nil]
    refine ⟨_, rfl, ?_, ?_, ?_⟩
    · simp
    · intro c hc
      fin_cases hc <;> exact ⟨rfl, rfl, rfl, rfl⟩
    · intro i j hi hj
      have hic : i = 0 ∨ i = 1 := by omega
      have hjc : j = 0 ∨ j = 1 := by omega
      rcases hic with rfl | rfl <;> rcases hjc with rfl | rfl <;>
        simp [ImageBlock.mk.injEq] <;> omega
  · rw [if_pos hY, if_neg hX, if_neg (fun h => hX h.1)]
    simp only [List.singleton_append, List.cons_append, List.nil_append, List.append_nil]
    refine ⟨_, rfl, ?_, ?_, ?_⟩
    · simp
    · intro c hc
      fin_cases hc <;> exact ⟨rfl, rfl, rfl, rfl⟩
    · intro i j hi hj
      have hic : i = 0 ∨ i = 1 := by omega
      have hjc : j = 0 ∨ j = 1 := by omega
      rcases hic with rfl | rfl <;> rcases hjc with rfl | rfl <;>
        simp [ImageBlock.mk.injEq] <;> omega
  · rw [if_neg hY, if_pos hX, if_neg (fun h => hY h.2)]
    simp only [List.singleton_append, List.cons_append, List.nil_append, List.append_nil]
    refine ⟨_, rfl, ?_, ?_, ?_⟩
    · simp
    · intro c hc
      fin_cases hc <;> exact ⟨rfl, rfl, rfl, rfl⟩
    · intro i j hi hj
      have hic : i = 0 ∨ i = 1 := by omega
      have hjc : j = 0 ∨ j = 1 := by omega
      rcases hic with rfl | rfl <;> rcases hjc with rfl | rfl <;>
        simp [ImageBlock.mk.injEq] <;> omega
  · rw [if_neg hY, if_neg hX, if_neg (fun h => hX h.1)]
    simp only [List.singleton_append, List.cons_append, List.nil_append, List.append_nil]
    refine ⟨_, rfl, ?_, ?_, ?_⟩
    · simp
    · intro c hc
      fin_cases hc
      exact ⟨rfl, rfl, rfl, rfl⟩
    · intro i j hi hj
      have hic : i = 0 ∨ i = 1 := by omega
      have hjc : j = 0 ∨ j = 1 := by omega
      rcases hic with rfl | rfl <;> rcases hjc with rfl | rfl <;>
        simp [ImageBlock.mk.injEq] <;> omega

/-- C3 (counterexample to the claim as stated): on a 2-by-2 image with an
implicit relation, subdividing the superpixel block at `(0, 0)` with
`kx = ky = 1` emits four children, all four carrying
`is_last_sibling = true`; the claim predicts flags `[false, false, false,
true]`. -/
theorem subdivide_on_xy_superpixel_counterexample :
    (subdivide_on_xy ⟨2, 2, RelationType.Implicit⟩
        ⟨0, 0, 1, 1, XInt.entire, SubdivisionDir.XY⟩).map
        (fun l => l.map Prod.snd) = some [true, true, true, true] ∧
      [true, true, true, true] ≠ [false, false, false, true] := by
  constructor
  · rfl
  · decide

/-- Witness for C3 at a concrete input: the theorem applied to a 4-by-4 image
and the seed superpixel block at level `(2, 2)`. -/
theorem subdivide_on_xy_superpixel_spec_witness :
    ∃ l, subdivide_on_xy ⟨4, 4, RelationType.Implicit⟩
        ⟨0, 0, 2, 2, XInt.entire, SubdivisionDir.XY⟩ = some l ∧
      l.length ≤ 4 ∧
      (∀ c ∈ l, c.2 = true ∧ c.1.kx = 1 ∧ c.1.ky = 1 ∧
        c.1.n_theta = XInt.entire) ∧
      (∀ i j : Nat, i ≤ 1 → j ≤ 1 →
        ((∃ f, (⟨i, j, 1, 1, XInt.entire, SubdivisionDir.XY⟩, f) ∈ l) ↔
          i * 2 < 4 ∧ j * 2 < 4)) := by
  have h := subdivide_on_xy_superpixel_spec ⟨4, 4, RelationType.Implicit⟩
    ⟨0, 0, 2, 2, XInt.entire, SubdivisionDir.XY⟩ (by decide) (by decide)
    (by decide) (by decide)
  simpa using h

/-! ### Bisection of the branch interval (C6) -/

/-- Helper: a valid finite interval constructor always succeeds. -/
theorem mkInterval_fin_fin {a b : ℚ} (h : a ≤ b) :
    mkInterval (XF.fin a) (XF.fin b) = some ⟨XF.fin a, XF.fin b⟩ := by
  unfold mkInterval
  rw [if_pos]
  refine ⟨?_, by simp, by simp⟩
  simpa [XF.ble] using h

/-- Helper: every successful bisection yields one or two pieces. -/
theorem bisect_len {n : XInt} {l : List XInt} (h : bisect n = some l) :
    1 ≤ l.length ∧ l.length ≤ 2 := by
  unfold bisect at h
  split_ifs at h
  · cases h
    simp
  all_goals
    try dsimp only at h
  all_goals
    split at h
  all_goals
    cases h
  all_goals
    simp

/-- Helper: `bisect_each` yields between `n` and `2 n` pieces for `n`
intervals. -/
theorem bisect_each_len :
    ∀ {ns : List XInt} {ps : List XInt}, bisect_each ns = some ps →
      ns.length ≤ ps.length ∧ ps.length ≤ 2 * ns.length := by
  intro ns
  induction ns with
  | nil =>
    intro ps h
    cases h
    simp
  | cons n rest ih =>
    intro ps h
    unfold bisect_each at h
    split at h
    · rename_i l ls hl hls
      cases h
      have h1 := bisect_len hl
      have h2 := ih hls
      simp only [List.length_append, List.length_cons]
      omega
    · cases h

/-- Helper: `markLast` preserves length. -/
theorem markLast_length : ∀ (xs : List (ImageBlock × Bool)),
    (markLast xs).length = xs.length := by
  intro xs
  induction xs with
  | nil => rfl
  | cons x ys ih =>
    cases ys with
    | nil => rfl
    | cons y zs =>
      simp only [markLast, List.length_cons] at *
      omega

/-- Helper: `markLast` preserves the first components. -/
theorem markLast_fst : ∀ (xs : List (ImageBlock × Bool)),
    (markLast xs).map Prod.fst = xs.map Prod.fst := by
  intro xs
  induction xs with
  | nil => rfl
  | cons x ys ih =>
    cases ys with
    | nil => rfl
    | cons y zs =>
      simp only [markLast, List.map_cons] at *
      rw [ih]

/-- Helper: on a nonempty all-`false` list, `markLast` sets exactly the last
flag. -/
theorem markLast_snd : ∀ (xs : List (ImageBlock × Bool)),
    (∀ p ∈ xs, p.2 = false) → xs ≠ [] →
    (markLast xs).map Prod.snd = List.replicate (xs.length - 1) false ++ [true] := by
  intro xs
  induction xs with
  | nil => intro _ h; exact absurd rfl h
  | cons x ys ih =>
    intro hall _
    cases ys with
    | nil => rfl
    | cons y zs =>
      have hx : x.2 = false := hall x (by simp)
      have := ih (fun p hp => hall p (by simp [hp])) (by simp)
      simp only [markLast, List.map_cons, this, List.length_cons]
      rw [hx]
      have : (zs.length + 1 + 1 - 1) = (zs.length + 1 - 1) + 1 := by omega
      rw [this, List.replicate_succ]
      simp

/-- Helper: members of `markLast xs` have their first component among those
of `xs`. -/
theorem markLast_mem_fst {xs : List (ImageBlock × Bool)} {c : ImageBlock × Bool}
    (h : c ∈ markLast xs) : c.1 ∈ xs.map Prod.fst := by
  have := markLast_fst xs
  rw [← this]
  exact List.mem_map_of_mem Prod.fst h

/-- C6 (amended).  The bisection rule of `subdivide_on_n_theta`, for every
interval: a singleton, or an interval whose magnitude exceeds `2^53 - 1`, is
returned unbisected; otherwise an interval `[a, a + 1]` (for any `a`, not
only integers) yields the two singletons; an interval `(-inf, c]` is split at
`2 c` when `c <= 0` and panics when `c > 0`; an interval `[a, +inf)` is split
at `2 a` when `a >= 0` and panics when `a < 0`; the interval `(-inf, +inf)`
panics; and an interval with two finite endpoints (neither a singleton nor
of width one) is split at its midpoint.  Applied twice, the subdivision
yields between one and four children that differ from the parent block only
in `n_theta`, and exactly the last emitted child has `is_last_sibling =
true`. -/
theorem bisect_and_subdivide_on_n_theta_spec :
    (∀ n : XInt,
      ((n.is_singleton = true ∨
          XF.blt (XF.fin MAX_DISCRETE_N_THETA) n.mig = true) →
        bisect n = some [n]) ∧
      (XF.blt (XF.fin MAX_DISCRETE_N_THETA) n.mig = false →
        (∀ a : ℚ, n = ⟨XF.fin a, XF.fin (a + 1)⟩ →
          bisect n = some [⟨XF.fin a, XF.fin a⟩,
            ⟨XF.fin (a + 1), XF.fin (a + 1)⟩]) ∧
        (∀ c : ℚ, n = ⟨XF.negInf, XF.fin c⟩ →
          (c ≤ 0 → bisect n = some [⟨XF.negInf, XF.fin (2 * c)⟩,
            ⟨XF.fin (2 * c), XF.fin c⟩]) ∧
          (0 < c → bisect n = none)) ∧
        (∀ a : ℚ, n = ⟨XF.fin a, XF.posInf⟩ →
          (0 ≤ a → bisect n = some [⟨XF.fin a, XF.fin (2 * a)⟩,
            ⟨XF.fin (2 * a), XF.posInf⟩]) ∧
          (a < 0 → bisect n = none)) ∧
        (n = XInt.entire → bisect n = none) ∧
        (∀ a b2 : ℚ, n = ⟨XF.fin a, XF.fin b2⟩ → a ≤ b2 → a ≠ b2 →
          a + 1 ≠ b2 →
          bisect n = some [⟨XF.fin a, XF.fin ((a + b2) / 2)⟩,
            ⟨XF.fin ((a + b2) / 2), XF.fin b2⟩]))) ∧
    (∀ (b : ImageBlock) (l : List (ImageBlock × Bool)),
      subdivide_on_n_theta b = some l →
      1 ≤ l.length ∧ l.length ≤ 4 ∧
      l.map Prod.snd = List.replicate (l.length - 1) false ++ [true] ∧
      ∀ c ∈ l, c.1.x = b.x ∧ c.1.y = b.y ∧ c.1.kx = b.kx ∧ c.1.ky = b.ky ∧
        c.1.next_dir = b.next_dir) := by
  constructor
  · intro n
    constructor
    · intro h
      unfold bisect
      rw [if_pos]
      rcases h with h | h <;> simp [h]
    · intro hmig
      refine ⟨?_, ?_, ?_, ?_, ?_⟩
      · intro a hn
        subst hn
        simp only [bisect]
        rw [hmig]
        simp [XInt.is_singleton, XF.add1, mkInterval, XF.ble]
      · intro c hn
        subst hn
        constructor
        · intro hc
          have h2c : 2 * c ≤ c := by linarith
          simp only [bisect]
          rw [hmig]
          simp [XInt.is_singleton, XF.add1, XF.dbl, mkInterval, XF.ble, h2c]
        · intro hc
          have h2c : ¬(2 * c ≤ c) := by linarith
          simp only [bisect]
          rw [hmig]
          simp [XInt.is_singleton, XF.add1, XF.dbl, mkInterval, XF.ble, h2c]
      · intro a hn
        subst hn
        constructor
        · intro ha
          have h2a : a ≤ 2 * a := by linarith
          simp only [bisect]
          rw [hmig]
          simp [XInt.is_singleton, XF.add1, XF.dbl, mkInterval, XF.ble, h2a]
        · intro ha
          have h2a : ¬(a ≤ 2 * a) := by linarith
          simp only [bisect]
          rw [hmig]
          simp [XInt.is_singleton, XF.add1, XF.dbl, mkInterval, XF.ble, h2a]
      · intro hn
        subst hn
        have hmax : (0 : ℚ) ≤ MAX_DISCRETE_N_THETA := by
          norm_num [MAX_DISCRETE_N_THETA]
        simp only [bisect, XInt.entire]
        rw [show XInt.mig ⟨XF.negInf, XF.posInf⟩ = XF.fin 0 from rfl]
        simp [XInt.is_singleton, XF.add1, XF.dbl, mkInterval, XF.ble, XF.blt, hmax]
      · intro a b2 hn hab hne hadj
        subst hn
        have h1 : a ≤ (a + b2) / 2 := by linarith
        have h2 : (a + b2) / 2 ≤ b2 := by linarith
        simp only [bisect]
        rw [hmig]
        simp [XInt.is_singleton, XF.add1, XF.dbl, mkInterval, XF.ble, hne, hadj,
          h1, h2]
  · intro b l h
    unfold subdivide_on_n_theta at h
    split at h
    · cases h
    · rename_i ns hns
      split at h
      · cases h
      · rename_i pieces hpieces
        cases h
        have h1 := bisect_len hns
        have h2 := bisect_each_len hpieces
        have hlen : (markLast (pieces.map fun n =>
            ({ b with n_theta := n }, false))).length = pieces.length := by
          rw [markLast_length, List.length_map]
        have hplen : 1 ≤ pieces.length ∧ pieces.length ≤ 4 := by omega
        refine ⟨by rw [hlen]; omega, by rw [hlen]; omega, ?_, ?_⟩
        · rw [markLast_snd _ ?hall ?hne, List.length_map, hlen]
          case hall =>
            intro p hp
            rcases List.mem_map.1 hp with ⟨q, hq, rfl⟩
            rfl
          case hne =>
            intro hcon
            have hl := congrArg List.length hcon
            simp only [List.length_map, List.length_nil] at hl
            omega
        · intro c hc
          have hmem := markLast_mem_fst hc
          rw [List.map_map] at hmem
          rcases List.mem_map.1 hmem with ⟨q, hq, hqe⟩
          rw [← hqe]
          exact ⟨rfl, rfl, rfl, rfl, rfl⟩

/-- C6 (counterexample to the claim as stated): the interval `[1/2, 3/2]` has
two finite endpoints that are not adjacent integers, so the claim predicts a
split at the midpoint `1`; the source tests `lo + 1.0 == hi`, which also
holds here, and returns the two singletons instead. -/
theorem bisect_counterexample :
    bisect ⟨XF.fin (1 / 2), XF.fin (3 / 2)⟩ =
      some [⟨XF.fin (1 / 2), XF.fin (1 / 2)⟩, ⟨XF.fin (3 / 2), XF.fin (3 / 2)⟩] ∧
    bisect ⟨XF.fin (1 / 2), XF.fin (3 / 2)⟩ ≠
      some [⟨XF.fin (1 / 2), XF.fin 1⟩, ⟨XF.fin 1, XF.fin (3 / 2)⟩] := by
  have hmig : XF.blt (XF.fin MAX_DISCRETE_N_THETA)
      (XInt.mig ⟨XF.fin (1 / 2), XF.fin (3 / 2)⟩) = false := by
    have e : XInt.mig ⟨XF.fin (1 / 2), XF.fin (3 / 2)⟩ = XF.fin (1 / 2) := by
      simp only [XInt.mig, XF.ble, XF.blt]
      norm_num
    rw [e]
    simp only [XF.blt, XF.ble, Bool.not_eq_true']
    norm_num [MAX_DISCRETE_N_THETA]
  have h1 : bisect ⟨XF.fin (1 / 2), XF.fin (3 / 2)⟩ =
      some [⟨XF.fin (1 / 2), XF.fin (1 / 2)⟩,
        ⟨XF.fin (3 / 2), XF.fin (3 / 2)⟩] := by
    simp only [bisect]
    rw [hmig]
    norm_num [XInt.is_singleton, XF.add1, mkInterval, XF.ble]
    simp
  refine ⟨h1, ?_⟩
  rw [h1]
  intro hcon
  norm_num [List.cons.injEq, XInt.mk.injEq, XF.fin.injEq] at hcon

/-- Witness for C6 at a concrete input: the interval `[0, 4]` is split at its
midpoint `2`, and subdividing a polar block carrying `[0, 4]` twice emits
four children flagged `[false, false, false, true]`. -/
theorem bisect_and_subdivide_on_n_theta_spec_witness :
    bisect ⟨XF.fin 0, XF.fin 4⟩ =
      some [⟨XF.fin 0, XF.fin ((0 + 4) / 2)⟩, ⟨XF.fin ((0 + 4) / 2), XF.fin 4⟩] ∧
    (∀ l, subdivide_on_n_theta
        ⟨3, 5, 0, 0, ⟨XF.fin 0, XF.fin 4⟩, SubdivisionDir.NTheta⟩ = some l →
      1 ≤ l.length ∧ l.length ≤ 4 ∧
      l.map Prod.snd = List.replicate (l.length - 1) false ++ [true] ∧
      ∀ c ∈ l, c.1.x = 3 ∧ c.1.y = 5 ∧ c.1.kx = 0 ∧ c.1.ky = 0 ∧
        c.1.next_dir = SubdivisionDir.NTheta) := by
  constructor
  · exact ((bisect_and_subdivide_on_n_theta_spec.1 ⟨XF.fin 0, XF.fin 4⟩).2
      (by decide)).2.2.2.2 0 4 rfl (by norm_num) (by norm_num) (by norm_num)
  · exact fun l h => bisect_and_subdivide_on_n_theta_spec.2
      ⟨3, 5, 0, 0, ⟨XF.fin 0, XF.fin 4⟩, SubdivisionDir.NTheta⟩ l h

/-! ### Pixel refinement and terminal states (C1) -/

/-- The pixels covered by a pixel/superpixel block, clamped to the image:
`pixel_begin .. pixel_end` as in `refine_pixel` / `set_last_queued_block`
(rows outer, columns inner, matching the source loops). -/
def cov_pixels (im : Image) (b : ImageBlock) : List PixelIndex :=
  let pb := b.pixel_index
  let ex := min (pb.x + b.width) im.width
  let ey := min (pb.y + b.height) im.height
  (List.range (ey - pb.y)).flatMap fun dy =>
    (List.range (ex - pb.x)).map fun dx => ⟨pb.x + dx, pb.y + dy⟩

/-- The write loop of `Graph::refine_pixel` (graph.rs lines 473-492): for each
covered pixel, assert that its state is not `False` (panic modelled by
`none`), skip pixels already `True`, and otherwise write `True` when the
relation is certainly true, or `False` when it is certainly false, the block
is the last sibling, and the pixel's last-queued block is the parent. -/
def refine_pixel_write (is_true is_false b_is_last_sibling : Bool)
    (parent_block_index : Nat) :
    List PixelIndex → Image → Option Image
  | [], im => some im
  | p :: rest, im =>
    if im.state p = PixelState.False then none
    else if im.state p = PixelState.True then
      refine_pixel_write is_true is_false b_is_last_sibling parent_block_index rest im
    else if is_true then
      refine_pixel_write is_true is_false b_is_last_sibling parent_block_index rest
        (im.set_state p PixelState.True)
    else if is_false && b_is_last_sibling
        && (im.last_queued_block p == parent_block_index) then
      refine_pixel_write is_true is_false b_is_last_sibling parent_block_index rest
        (im.set_state p PixelState.False)
    else
      refine_pixel_write is_true is_false b_is_last_sibling parent_block_index rest im

/-- `Graph::refine_pixel`.  The relation evaluation (relation.rs, external to
the sources) enters through the two booleans `is_true` / `is_false` computed
from `r_u_up`; the theorems below hold for every value of these oracles.
Returns the updated image and the completion flag; `none` models a panic. -/
def refine_pixel (im : Image) (b : ImageBlock) (b_is_last_sibling : Bool)
    (parent_block_index : Nat) (is_true is_false : Bool) :
    Option (Image × Bool) :=
  if (cov_pixels im b).all fun p => im.state p == PixelState.True then
    some (im, true)
  else if !(is_true || is_false) then
    some (im, false)
  else
    (refine_pixel_write is_true is_false b_is_last_sibling parent_block_index
      (cov_pixels im b) im).map fun im2 => (im2, true)

/-- `Graph::refine_subpixel`.  The relation evaluations enter through the
oracles: `locally_zero` (the relation certainly holds on the whole subpixel),
`inter_nonempty` (the subpixel outer region meets the pixel inner region),
`certainly_false` (no atomic formula can vanish on the subpixel), and
`sample_found` (one of the five sample points closes an existence proof).
Returns the updated image and the completion flag; `none` models the failed
`assert_ne!(state, PixelState::False)`. -/
def refine_subpixel (im : Image) (b : ImageBlock) (b_is_last_sibling : Bool)
    (parent_block_index : Nat)
    (locally_zero inter_nonempty certainly_false sample_found : Bool) :
    Option (Image × Bool) :=
  if im.state b.pixel_index = PixelState.False then none
  else if im.state b.pixel_index = PixelState.True then some (im, true)
  else if locally_zero && inter_nonempty then
    some (im.set_state b.pixel_index PixelState.True, true)
  else if certainly_false then
    if b_is_last_sibling && (im.last_queued_block b.pixel_index == parent_block_index) then
      some (im.set_state b.pixel_index PixelState.False, true)
    else
      some (im, true)
  else if !inter_nonempty then
    some (im, false)
  else if sample_found then
    some (im.set_state b.pixel_index PixelState.True, true)
  else
    some (im, false)

/-- `Graph::set_last_queued_block`: fails with `BlockIndexOverflow` when the
index does not fit in a `u32`; otherwise records the index for every covered
pixel (all covered pixels for a superpixel, the single containing pixel
otherwise). -/
def set_last_queued_block (im : Image) (b : ImageBlock) (block_index : Nat) :
    Except GraphingError Image :=
  if block_index < 2 ^ 32 then
    if b.is_superpixel then
      Except.ok ((cov_pixels im b).foldl
        (fun im2 p => im2.set_last_queued_block p block_index) im)
    else
      Except.ok (im.set_last_queued_block b.pixel_index block_index)
  else
    Except.error ⟨GraphingErrorKind.BlockIndexOverflow⟩

/-- One engine operation that can touch the image during refinement. -/
inductive EngineOp where
  | refinePixel (b : ImageBlock) (last : Bool) (parent : Nat)
      (is_true is_false : Bool) : EngineOp
  | refineSubpixel (b : ImageBlock) (last : Bool) (parent : Nat)
      (locally_zero inter_nonempty certainly_false sample_found : Bool) : EngineOp
  | setLastQueued (b : ImageBlock) (i : Nat) : EngineOp

/-- Running one engine operation on the image (discarding the completion
flag; a failed `set_last_queued_block` leaves the image untouched, as the
source returns the error before writing). -/
def run_op (im : Image) (op : EngineOp) : Option Image :=
  match op with
  | EngineOp.refinePixel b last parent t f =>
    (refine_pixel im b last parent t f).map Prod.fst
  | EngineOp.refineSubpixel b last parent lz ine cf sf =>
    (refine_subpixel im b last parent lz ine cf sf).map Prod.fst
  | EngineOp.setLastQueued b i =>
    match set_last_queued_block im b i with
    | Except.ok im2 => some im2
    | Except.error _ => some im

/-- Running a sequence of engine operations, stopping at the first panic. -/
def run_ops : Image → List EngineOp → Option Image
  | im, [] => some im
  | im, op :: rest =>
    match run_op im op with
    | none => none
    | some im2 => run_ops im2 rest

/-- Helper: `set_state` only ever changes the targeted flat index. -/
theorem state_set_state (im : Image) (p q : PixelIndex) (s : PixelState) :
    (im.set_state q s).state p = if im.index p = im.index q then s else im.state p := by
  unfold Image.set_state Image.state Image.index
  simp [Function.update]

/-- Helper: the write loop of `refine_pixel` never changes a pixel whose
state is already decided (`True` or `False`). -/
theorem refine_pixel_write_preserves (is_true is_false last : Bool) (parent : Nat) :
    ∀ (pixels : List PixelIndex) (im im2 : Image),
      refine_pixel_write is_true is_false last parent pixels im = some im2 →
      ∀ p : PixelIndex, im.state p ≠ PixelState.Uncertain →
        im2.state p = im.state p := by
  intro pixels
  induction pixels with
  | nil =>
    intro im im2 h p _
    cases h
    rfl
  | cons q rest ih =>
    intro im im2 h p hp
    unfold refine_pixel_write at h
    split_ifs at h with h1 h2 h3 h4
    · exact ih im im2 h p hp
    · -- write True to an uncertain pixel q
      have hq : im.state q = PixelState.Uncertain := by
        cases hs : im.state q <;> simp [hs] at h1 h2 ⊢
      have hpq : im.index p ≠ im.index q := by
        intro hcon
        apply hp
        unfold Image.state at *
        rw [hcon]
        exact hq
      have hkeep : (im.set_state q PixelState.True).state p = im.state p := by
        rw [state_set_state, if_neg hpq]
      have := ih (im.set_state q PixelState.True) im2 h p (by rw [hkeep]; exact hp)
      rw [this, hkeep]
    · -- write False to an uncertain pixel q
      have hq : im.state q = PixelState.Uncertain := by
        cases hs : im.state q <;> simp [hs] at h1 h2 ⊢
      have hpq : im.index p ≠ im.index q := by
        intro hcon
        apply hp
        unfold Image.state at *
        rw [hcon]
        exact hq
      have hkeep : (im.set_state q PixelState.False).state p = im.state p := by
        rw [state_set_state, if_neg hpq]
      have := ih (im.set_state q PixelState.False) im2 h p (by rw [hkeep]; exact hp)
      rw [this, hkeep]
    · exact ih im im2 h p hp

/-- Helper: `set_last_queued_block` writes never change pixel states. -/
theorem state_foldl_set_last_queued (i : Nat) :
    ∀ (pixels : List PixelIndex) (im : Image) (p : PixelIndex),
      (pixels.foldl (fun im2 q => im2.set_last_queued_block q i) im).state p
        = im.state p := by
  intro pixels
  induction pixels with
  | nil => intro im p; rfl
  | cons q rest ih =>
    intro im p
    rw [List.foldl_cons, ih]
    rfl

/-- Helper: `refine_pixel` never changes a decided pixel state. -/
theorem refine_pixel_preserves (im : Image) (b : ImageBlock) (last : Bool)
    (parent : Nat) (t f : Bool) (im2 : Image) (c : Bool)
    (h : refine_pixel im b last parent t f = some (im2, c)) (p : PixelIndex)
    (hp : im.state p ≠ PixelState.Uncertain) :
    im2.state p = im.state p := by
  unfold refine_pixel at h
  by_cases h1 : ((cov_pixels im b).all fun q => im.state q == PixelState.True) = true
  · rw [if_pos h1] at h
    cases h
    rfl
  · rw [if_neg h1] at h
    by_cases h2 : (!(t || f)) = true
    · rw [if_pos h2] at h
      cases h
      rfl
    · rw [if_neg h2] at h
      rcases Option.map_eq_some'.1 h with ⟨im3, h3, h4⟩
      cases h4
      exact refine_pixel_write_preserves t f last parent _ im im2 h3 p hp

/-- Helper: `refine_subpixel` never changes a decided pixel state. -/
theorem refine_subpixel_preserves (im : Image) (b : ImageBlock) (last : Bool)
    (parent : Nat) (lz ine cf sf : Bool) (im2 : Image) (c : Bool)
    (h : refine_subpixel im b last parent lz ine cf sf = some (im2, c))
    (p : PixelIndex) (hp : im.state p ≠ PixelState.Uncertain) :
    im2.state p = im.state p := by
  unfold refine_subpixel at h
  by_cases hF : im.state b.pixel_index = PixelState.False
  · rw [if_pos hF] at h
    cases h
  · rw [if_neg hF] at h
    by_cases hT : im.state b.pixel_index = PixelState.True
    · rw [if_pos hT] at h
      cases h
      rfl
    · rw [if_neg hT] at h
      have hU : im.state b.pixel_index = PixelState.Uncertain := by
        cases hs : im.state b.pixel_index <;> simp [hs] at hF hT ⊢
      have hpq : im.index p ≠ im.index b.pixel_index := by
        intro hcon
        apply hp
        unfold Image.state at *
        rw [hcon]
        exact hU
      have hkeepT : (im.set_state b.pixel_index PixelState.True).state p
          = im.state p := by
        rw [state_set_state, if_neg hpq]
      have hkeepF : (im.set_state b.pixel_index PixelState.False).state p
          = im.state p := by
        rw [state_set_state, if_neg hpq]
      split_ifs at h <;> cases h <;> first | rfl | exact hkeepT | exact hkeepF

/-- Helper: one engine operation never changes a decided pixel state. -/
theorem run_op_preserves (im : Image) (op : EngineOp) (im2 : Image)
    (h : run_op im op = some im2) (p : PixelIndex)
    (hp : im.state p ≠ PixelState.Uncertain) :
    im2.state p = im.state p := by
  cases op with
  | refinePixel b last parent t f =>
    simp only [run_op] at h
    rcases Option.map_eq_some'.1 h with ⟨⟨im3, c⟩, h3, h4⟩
    cases h4
    exact refine_pixel_preserves im b last parent t f im3 c h3 p hp
  | refineSubpixel b last parent lz ine cf sf =>
    simp only [run_op] at h
    rcases Option.map_eq_some'.1 h with ⟨⟨im3, c⟩, h3, h4⟩
    cases h4
    exact refine_subpixel_preserves im b last parent lz ine cf sf im3 c h3 p hp
  | setLastQueued b i =>
    simp only [run_op] at h
    unfold set_last_queued_block at h
    split_ifs at h with h1 h2 <;> cases h
    · exact state_foldl_set_last_queued i _ im p
    · rfl
    · rfl

/-- C1.  `True` and `False` pixel states are terminal: starting from any
image, running any sequence of engine operations (`refine_pixel`,
`refine_subpixel`, `set_last_queued_block`, with arbitrary relation-oracle
outcomes) that completes without a panic never changes the state of a pixel
that was already `True` or `False`; only `Uncertain` pixels are ever
overwritten. -/
theorem pixel_states_terminal (im : Image) (ops : List EngineOp) (im2 : Image)
    (h : run_ops im ops = some im2) (p : PixelIndex)
    (hp : im.state p ≠ PixelState.Uncertain) :
    im2.state p = im.state p := by
  induction ops generalizing im with
  | nil =>
    cases h
    rfl
  | cons op rest ih =>
    unfold run_ops at h
    split at h
    · cases h
    · rename_i im3 hop
      have hpres := run_op_preserves im op im3 hop p hp
      have := ih im3 h (by rw [hpres]; exact hp)
      rw [this, hpres]

/-- Witness for C1 at a concrete input: a 1-by-1 image whose only pixel is
already `True` keeps that state across a `refine_pixel` call whose oracle
reports certainly-false. -/
theorem pixel_states_terminal_witness :
    ∃ im2, run_ops ((Image.new 1 1).set_state ⟨0, 0⟩ PixelState.True)
        [EngineOp.refinePixel (ImageBlock.new 0 0 0 0 XInt.entire) true 0
          false true] = some im2 ∧
      im2.state ⟨0, 0⟩
        = ((Image.new 1 1).set_state ⟨0, 0⟩ PixelState.True).state ⟨0, 0⟩ := by
  refine ⟨_, rfl, ?_⟩
  exact pixel_states_terminal ((Image.new 1 1).set_state ⟨0, 0⟩ PixelState.True)
    [EngineOp.refinePixel (ImageBlock.new 0 0 0 0 XInt.entire) true 0 false true]
    _ rfl ⟨0, 0⟩ (by decide)

/-! ### The delta+varint block queue (C4) -/

/-- The queue\'s view of a block: `n_theta` is carried as the 16-byte native
representation of the inari `Interval` (two IEEE-754 bit patterns, modelled
as numbers below `2^64`), since `push_interval` / `pop_interval` only move
those bytes and never interpret them. -/
structure QBlock where
  x : Nat
  y : Nat
  kx : Int
  ky : Int
  nt_lo : Nat
  nt_hi : Nat
  next_dir : SubdivisionDir
deriving DecidableEq, Repr

/-- Field bounds of a `QBlock` as stored by the Rust types
(`u32`, `i8`, two `f64` bit patterns). -/
def QBlockWF (b : QBlock) : Prop :=
  b.x < 2 ^ 32 ∧ b.y < 2 ^ 32 ∧ -128 ≤ b.kx ∧ b.kx < 128 ∧
    -128 ≤ b.ky ∧ b.ky < 128 ∧ b.nt_lo < 2 ^ 64 ∧ b.nt_hi < 2 ^ 64

/-- The `f64` bit patterns of the endpoints of `Interval::ENTIRE`
(negative and positive infinity), as stored by `to_ne_bytes`. -/
def ENTIRE_LO : Nat := 0xfff0000000000000

/-- The positive-infinity endpoint pattern of `Interval::ENTIRE`. -/
def ENTIRE_HI : Nat := 0x7ff0000000000000

/-- `ImageBlockQueue`, from image.rs: the delta-compressed byte sequence and
the front/back coordinate and index counters. -/
structure ImageBlockQueue where
  seq : List Nat
  x_front : Nat
  y_front : Nat
  x_back : Nat
  y_back : Nat
  front_index : Nat
  back_index : Nat
  polar : Bool

/-- `ImageBlockQueue::new`. -/
def ImageBlockQueue.new (polar : Bool) : ImageBlockQueue :=
  ⟨[], 0, 0, 0, 0, 0, 0, polar⟩

/-- `ImageBlockQueue::is_empty`. -/
def ImageBlockQueue.is_empty (q : ImageBlockQueue) : Bool := q.seq.isEmpty

/-- Little-endian byte encoding (`to_le_bytes`, then truncated by the
caller): least significant byte first. -/
def toLEBytes : Nat → Nat → List Nat
  | _, 0 => []
  | v, n + 1 => v % 256 :: toLEBytes (v / 256) n

/-- Little-endian byte decoding (the `copy_nonoverlapping` + `u32::from_le`
of `pop_small_u32`, and the byte array of `pop_interval`). -/
def fromLEBytes : List Nat → Nat
  | [] => 0
  | b :: rest => b + 256 * fromLEBytes rest

/-- `u8::trailing_zeros` of a byte. -/
def trailingZeros8 (b : Nat) : Nat :=
  if b % 2 = 1 then 0
  else if b / 2 % 2 = 1 then 1
  else if b / 4 % 2 = 1 then 2
  else if b / 8 % 2 = 1 then 3
  else if b / 16 % 2 = 1 then 4
  else if b / 32 % 2 = 1 then 5
  else if b / 64 % 2 = 1 then 6
  else if b / 128 % 2 = 1 then 7
  else 8

/-- `ImageBlockQueue::push_small_u32`: the PrefixVarint encoding.  The head
byte is `(((x << 1) | 1) << zeros) as u8` (shifts on `u32` wrap modulo
`2^32`, which agrees with the plain product modulo `256` since `256` divides
`2^32`); the tail is the first `zeros` little-endian bytes of
`x >> (7 - zeros)`. -/
def push_small_u32 (x : Nat) : List Nat :=
  let zeros : Nat :=
    if x ≤ 0x7f then 0
    else if x ≤ 0x3fff then 1
    else if x ≤ 0x1fffff then 2
    else if x ≤ 0xfffffff then 3
    else 4
  ((x * 2 + 1) * 2 ^ zeros) % 256 :: toLEBytes (x / 2 ^ (7 - zeros)) zeros

/-- Reading `n` bytes off the front of the sequence; `none` when fewer are
available (the source would panic slicing the deque). -/
def read_bytes (n : Nat) (l : List Nat) : Option (List Nat × List Nat) :=
  if n ≤ l.length then some (l.take n, l.drop n) else none

/-- `ImageBlockQueue::pop_small_u32`: decode one PrefixVarint value.
`head >> (zeros + 1)` is division, the tail recombines little-endian and is
shifted into place on a `u32` (hence the `% 2^32`). -/
def pop_small_u32 (l : List Nat) : Option (Nat × List Nat) :=
  match l with
  | [] => none
  | head :: rest =>
    let zeros := trailingZeros8 head
    match read_bytes zeros rest with
    | none => none
    | some (tail, rest2) =>
      some (head / 2 ^ (zeros + 1) ||| fromLEBytes tail * 2 ^ (7 - zeros) % 2 ^ 32,
        rest2)

/-- `push_i8`: `x as u8` (two\'s complement byte). -/
def push_i8_byte (k : Int) : Nat := (k % 256).toNat

/-- `pop_i8`: the byte back `as i8`. -/
def pop_i8_val (b : Nat) : Int := if b < 128 then (b : Int) else (b : Int) - 256

/-- `push_subdivision_dir`: `axis as u8`. -/
def dir_byte : SubdivisionDir → Nat
  | SubdivisionDir.XY => 0
  | SubdivisionDir.NTheta => 1

/-- The bytes `push_back` appends for one block: the two coordinate XOR
deltas as PrefixVarints, the two levels as bytes, and (for polar queues) the
16 interval bytes and the direction byte. -/
def encode_record (polar : Bool) (xprev yprev : Nat) (b : QBlock) : List Nat :=
  push_small_u32 (b.x ^^^ xprev) ++ push_small_u32 (b.y ^^^ yprev)
    ++ [push_i8_byte b.kx, push_i8_byte b.ky]
    ++ (if polar then toLEBytes b.nt_lo 8 ++ toLEBytes b.nt_hi 8
          ++ [dir_byte b.next_dir]
        else [])

/-- `ImageBlockQueue::push_back`: appends the record and returns the
pre-increment back index. -/
def ImageBlockQueue.push_back (q : ImageBlockQueue) (b : QBlock) :
    ImageBlockQueue × Nat :=
  ({ q with
      seq := q.seq ++ encode_record q.polar q.x_back q.y_back b,
      x_back := b.x, y_back := b.y,
      back_index := q.back_index + 1 },
    q.back_index)

/-- `ImageBlockQueue::pop_front`: decode one record off the front (in the
source\'s read order), XOR the deltas against the front coordinates, and
return the block with its pre-increment front index.  `none` models both the
empty queue (the source returns `None`) and a truncated or malformed
sequence (the source panics); neither malformed case occurs for sequences
produced by `push_back`.  `Interval::try_from_ne_bytes` is external to the
sources and is modelled as reassembling the two bit patterns it was given by
`to_ne_bytes`. -/
def ImageBlockQueue.pop_front (q : ImageBlockQueue) :
    Option ((Nat × QBlock) × ImageBlockQueue) :=
  match pop_small_u32 q.seq with
  | none => none
  | some (dx, s1) =>
    match pop_small_u32 s1 with
    | none => none
    | some (dy, s2) =>
      match s2 with
      | [] => none
      | kxb :: s3 =>
        match s3 with
        | [] => none
        | kyb :: s4 =>
          let x := q.x_front ^^^ dx
          let y := q.y_front ^^^ dy
          if q.polar then
            match read_bytes 16 s4 with
            | none => none
            | some (ntb, s5) =>
              match s5 with
              | [] => none
              | db :: s6 =>
                if db = 0 ∨ db = 1 then
                  some ((q.front_index,
                    ⟨x, y, pop_i8_val kxb, pop_i8_val kyb,
                      fromLEBytes (ntb.take 8), fromLEBytes (ntb.drop 8),
                      if db = 1 then SubdivisionDir.NTheta else SubdivisionDir.XY⟩),
                    { q with
                        seq := s6
                        x_front := x
                        y_front := y
                        front_index := q.front_index + 1 })
                else none
          else
            some ((q.front_index,
              ⟨x, y, pop_i8_val kxb, pop_i8_val kyb, ENTIRE_LO, ENTIRE_HI,
                SubdivisionDir.XY⟩),
              { q with
                  seq := s4
                  x_front := x
                  y_front := y
                  front_index := q.front_index + 1 })

/-- Helper: a value below `2^k` ored with a multiple of `2^k` is their sum. -/
theorem lor_two_pow_add (i x y : Nat) (hx : x < 2 ^ i) :
    x ||| 2 ^ i * y = x + 2 ^ i * y := by
  apply Nat.eq_of_testBit_eq
  intro j
  rw [Nat.testBit_lor, Nat.add_comm, Nat.testBit_mul_pow_two_add y hx j,
    Nat.testBit_mul_pow_two]
  by_cases hj : j < i
  · rw [if_pos hj]
    have : ¬(j ≥ i) := by omega
    simp [this]
  · rw [if_neg hj]
    have h0 : x.testBit j = false :=
      Nat.testBit_lt_two_pow (lt_of_lt_of_le hx
        (Nat.pow_le_pow_right (by norm_num) (by omega)))
    simp [h0, ge_iff_le, (by omega : i ≤ j)]

/-- Helper: little-endian round trip. -/
theorem fromLE_toLE : ∀ (n v : Nat), v < 2 ^ (8 * n) →
    fromLEBytes (toLEBytes v n) = v := by
  intro n
  induction n with
  | zero =>
    intro v h
    interval_cases v
    rfl
  | succ n ih =>
    intro v h
    have hpow : 2 ^ (8 * (n + 1)) = 2 ^ (8 * n) * 256 := by
      rw [show 8 * (n + 1) = 8 * n + 8 from by ring, pow_add]
      norm_num
    unfold toLEBytes fromLEBytes
    rw [ih (v / 256) (by omega)]
    omega

/-- Helper: reading a known-length prefix. -/
theorem read_bytes_append (l rest : List Nat) :
    read_bytes l.length (l ++ rest) = some (l, rest) := by
  unfold read_bytes
  rw [if_pos (by simp)]
  rw [List.take_left, List.drop_left]

/-- Helper: reading one byte. -/
theorem read_bytes_one (a : Nat) (r : List Nat) :
    read_bytes 1 (a :: r) = some ([a], r) := by
  unfold read_bytes
  rw [if_pos (by simp)]
  rfl

/-- Helper: PrefixVarint round trip for any `u32` value, with any following
bytes. -/
theorem pop_push_small_u32 (x : Nat) (hx : x < 2 ^ 32) (rest : List Nat) :
    pop_small_u32 (push_small_u32 x ++ rest) = some (x, rest) := by
  unfold push_small_u32
  by_cases c0 : x ≤ 0x7f
  · rw [if_pos c0]
    simp only [pop_small_u32, List.cons_append, toLEBytes, List.nil_append]
    rw [show trailingZeros8 ((x * 2 + 1) * 2 ^ 0 % 256) = 0 from by
      unfold trailingZeros8; rw [if_pos (by omega)]]
    rw [show read_bytes 0 rest = some ([], rest) from by
      unfold read_bytes; rw [if_pos (by omega)]; rfl]
    simp only [fromLEBytes]
    rw [show (x * 2 + 1) * 2 ^ 0 % 256 / 2 ^ (0 + 1) = x from by omega]
    rw [show (0 : Nat) * 2 ^ (7 - 0) % 2 ^ 32 = 0 from by norm_num]
    simp
  · rw [if_neg c0]
    by_cases c1 : x ≤ 0x3fff
    · rw [if_pos c1]
      dsimp only
      rw [show toLEBytes (x / 2 ^ (7 - 1)) 1 = [x / 2 ^ (7 - 1) % 256] from rfl]
      simp only [pop_small_u32, List.cons_append, List.nil_append]
      rw [show trailingZeros8 ((x * 2 + 1) * 2 ^ 1 % 256) = 1 from by
        unfold trailingZeros8; rw [if_neg (by omega), if_pos (by omega)]]
      rw [show read_bytes 1 (x / 2 ^ (7 - 1) % 256 :: rest)
          = some ([x / 2 ^ (7 - 1) % 256], rest) from by
        unfold read_bytes; rw [if_pos (by simp)]; rfl]
      simp only [fromLEBytes]
      rw [show (x * 2 + 1) * 2 ^ 1 % 256 / 2 ^ (1 + 1) = x % 2 ^ (7 - 1) from by
        omega]
      rw [show (x / 2 ^ (7 - 1) % 256 + 256 * 0)
          * 2 ^ (7 - 1) % 2 ^ 32 = 2 ^ (7 - 1) * (x / 2 ^ (7 - 1)) from by omega]
      rw [lor_two_pow_add (7 - 1) (x % 2 ^ (7 - 1)) (x / 2 ^ (7 - 1)) (by omega)]
      rw [show x % 2 ^ (7 - 1) + 2 ^ (7 - 1) * (x / 2 ^ (7 - 1)) = x from by omega]
    · rw [if_neg c1]
      by_cases c2 : x ≤ 0x1fffff
      · rw [if_pos c2]
        dsimp only
        rw [show toLEBytes (x / 2 ^ (7 - 2)) 2 = [x / 2 ^ (7 - 2) % 256, x / 2 ^ (7 - 2) / 256 % 256] from rfl]
        simp only [pop_small_u32, List.cons_append, List.nil_append]
        rw [show trailingZeros8 ((x * 2 + 1) * 2 ^ 2 % 256) = 2 from by
          unfold trailingZeros8; rw [if_neg (by omega), if_neg (by omega), if_pos (by omega)]]
        rw [show read_bytes 2 (x / 2 ^ (7 - 2) % 256 :: x / 2 ^ (7 - 2) / 256 % 256 :: rest)
            = some ([x / 2 ^ (7 - 2) % 256, x / 2 ^ (7 - 2) / 256 % 256], rest) from by
          unfold read_bytes; rw [if_pos (by simp)]; rfl]
        simp only [fromLEBytes]
        rw [show (x * 2 + 1) * 2 ^ 2 % 256 / 2 ^ (2 + 1) = x % 2 ^ (7 - 2) from by
          omega]
        rw [show (x / 2 ^ (7 - 2) % 256 + 256 * (x / 2 ^ (7 - 2) / 256 % 256 + 256 * 0))
            * 2 ^ (7 - 2) % 2 ^ 32 = 2 ^ (7 - 2) * (x / 2 ^ (7 - 2)) from by omega]
        rw [lor_two_pow_add (7 - 2) (x % 2 ^ (7 - 2)) (x / 2 ^ (7 - 2)) (by omega)]
        rw [show x % 2 ^ (7 - 2) + 2 ^ (7 - 2) * (x / 2 ^ (7 - 2)) = x from by omega]
      · rw [if_neg c2]
        by_cases c3 : x ≤ 0xfffffff
        · rw [if_pos c3]
          dsimp only
          rw [show toLEBytes (x / 2 ^ (7 - 3)) 3 = [x / 2 ^ (7 - 3) % 256, x / 2 ^ (7 - 3) / 256 % 256, x / 2 ^ (7 - 3) / 256 / 256 % 256] from rfl]
          simp only [pop_small_u32, List.cons_append, List.nil_append]
          rw [show trailingZeros8 ((x * 2 + 1) * 2 ^ 3 % 256) = 3 from by
            unfold trailingZeros8; rw [if_neg (by omega), if_neg (by omega), if_neg (by omega), if_pos (by omega)]]
          rw [show read_bytes 3 (x / 2 ^ (7 - 3) % 256 :: x / 2 ^ (7 - 3) / 256 % 256 :: x / 2 ^ (7 - 3) / 256 / 256 % 256 :: rest)
              = some ([x / 2 ^ (7 - 3) % 256, x / 2 ^ (7 - 3) / 256 % 256, x / 2 ^ (7 - 3) / 256 / 256 % 256], rest) from by
            unfold read_bytes; rw [if_pos (by simp)]; rfl]
          simp only [fromLEBytes]
          rw [show (x * 2 + 1) * 2 ^ 3 % 256 / 2 ^ (3 + 1) = x % 2 ^ (7 - 3) from by
            omega]
          rw [show (x / 2 ^ (7 - 3) % 256 + 256 * (x / 2 ^ (7 - 3) / 256 % 256 + 256 * (x / 2 ^ (7 - 3) / 256 / 256 % 256 + 256 * 0)))
              * 2 ^ (7 - 3) % 2 ^ 32 = 2 ^ (7 - 3) * (x / 2 ^ (7 - 3)) from by omega]
          rw [lor_two_pow_add (7 - 3) (x % 2 ^ (7 - 3)) (x / 2 ^ (7 - 3)) (by omega)]
          rw [show x % 2 ^ (7 - 3) + 2 ^ (7 - 3) * (x / 2 ^ (7 - 3)) = x from by omega]
        · rw [if_neg c3]
          dsimp only
          rw [show toLEBytes (x / 2 ^ (7 - 4)) 4 = [x / 2 ^ (7 - 4) % 256, x / 2 ^ (7 - 4) / 256 % 256, x / 2 ^ (7 - 4) / 256 / 256 % 256, x / 2 ^ (7 - 4) / 256 / 256 / 256 % 256] from rfl]
          simp only [pop_small_u32, List.cons_append, List.nil_append]
          rw [show trailingZeros8 ((x * 2 + 1) * 2 ^ 4 % 256) = 4 from by
            unfold trailingZeros8; rw [if_neg (by omega), if_neg (by omega), if_neg (by omega), if_neg (by omega), if_pos (by omega)]]
          rw [show read_bytes 4 (x / 2 ^ (7 - 4) % 256 :: x / 2 ^ (7 - 4) / 256 % 256 :: x / 2 ^ (7 - 4) / 256 / 256 % 256 :: x / 2 ^ (7 - 4) / 256 / 256 / 256 % 256 :: rest)
              = some ([x / 2 ^ (7 - 4) % 256, x / 2 ^ (7 - 4) / 256 % 256, x / 2 ^ (7 - 4) / 256 / 256 % 256, x / 2 ^ (7 - 4) / 256 / 256 / 256 % 256], rest) from by
            unfold read_bytes; rw [if_pos (by simp)]; rfl]
          simp only [fromLEBytes]
          rw [show (x * 2 + 1) * 2 ^ 4 % 256 / 2 ^ (4 + 1) = x % 2 ^ (7 - 4) from by
            omega]
          rw [show (x / 2 ^ (7 - 4) % 256 + 256 * (x / 2 ^ (7 - 4) / 256 % 256 + 256 * (x / 2 ^ (7 - 4) / 256 / 256 % 256 + 256 * (x / 2 ^ (7 - 4) / 256 / 256 / 256 % 256 + 256 * 0))))
              * 2 ^ (7 - 4) % 2 ^ 32 = 2 ^ (7 - 4) * (x / 2 ^ (7 - 4)) from by omega]
          rw [lor_two_pow_add (7 - 4) (x % 2 ^ (7 - 4)) (x / 2 ^ (7 - 4)) (by omega)]
          rw [show x % 2 ^ (7 - 4) + 2 ^ (7 - 4) * (x / 2 ^ (7 - 4)) = x from by omega]

/-- What `push_back` requires of a block for lossless storage: the field
bounds of the Rust types, and - for a non-polar queue, which does not
serialize `n_theta` or `next_dir` at all - that the block carries the
sentinel values the spec prescribes for non-polar relations
(`n_theta = (-inf, +inf)`, `next_dir = XY`), which are exactly the values
`pop_front` reconstitutes. -/
def pushWF (polar : Bool) (b : QBlock) : Prop :=
  QBlockWF b ∧ (polar = false →
    b.nt_lo = ENTIRE_LO ∧ b.nt_hi = ENTIRE_HI ∧ b.next_dir = SubdivisionDir.XY)

/-- Helper: `toLEBytes` produces exactly `n` bytes. -/
theorem toLEBytes_length : ∀ (n v : Nat), (toLEBytes v n).length = n := by
  intro n
  induction n with
  | zero => intro v; rfl
  | succ n ih =>
    intro v
    unfold toLEBytes
    simp only [List.length_cons, ih]

/-- Helper: reading an exact-length prefix. -/
theorem read_bytes_exact (n : Nat) (l rest : List Nat) (h : l.length = n) :
    read_bytes n (l ++ rest) = some (l, rest) := by
  subst h
  unfold read_bytes
  rw [if_pos (by simp)]
  rw [List.take_left, List.drop_left]

/-- Helper: the two's-complement byte round trip for `i8` values. -/
theorem pop_push_i8 (k : Int) (h1 : -128 ≤ k) (h2 : k < 128) :
    pop_i8_val (push_i8_byte k) = k := by
  unfold pop_i8_val push_i8_byte
  split_ifs <;> omega

/-- Helper: XOR-delta cancellation. -/
theorem xor_delta_cancel (a b : Nat) : a ^^^ (b ^^^ a) = b := by
  rw [Nat.xor_comm b a, ← Nat.xor_assoc, Nat.xor_self, Nat.zero_xor]

/-- Helper: decoding one record appended in front of anything restores the
pushed block and advances the front state. -/
theorem pop_front_encoded (q : ImageBlockQueue) (b : QBlock) (rest : List Nat)
    (hseq : q.seq = encode_record q.polar q.x_front q.y_front b ++ rest)
    (hwf : pushWF q.polar b)
    (hxf : q.x_front < 2 ^ 32) (hyf : q.y_front < 2 ^ 32) :
    q.pop_front = some ((q.front_index, b),
      { q with
          seq := rest
          x_front := b.x
          y_front := b.y
          front_index := q.front_index + 1 }) := by
  obtain ⟨⟨hx, hy, hkx1, hkx2, hky1, hky2, hlo, hhi⟩, hsent⟩ := hwf
  obtain ⟨bx, byy, bkx, bky, blo, bhi, bdir⟩ := b
  simp only at hx hy hkx1 hkx2 hky1 hky2 hlo hhi hsent hseq ⊢
  unfold ImageBlockQueue.pop_front
  rw [hseq]
  unfold encode_record
  simp only [List.append_assoc]
  rw [pop_push_small_u32 (bx ^^^ q.x_front) (Nat.xor_lt_two_pow hx hxf) _]
  dsimp only
  rw [pop_push_small_u32 (byy ^^^ q.y_front) (Nat.xor_lt_two_pow hy hyf) _]
  dsimp only
  simp only [List.cons_append, List.nil_append]
  by_cases hp : q.polar = true
  · rw [if_pos hp, if_pos hp]
    rw [show toLEBytes blo 8 ++ (toLEBytes bhi 8 ++ [dir_byte bdir]) ++ rest
        = (toLEBytes blo 8 ++ toLEBytes bhi 8) ++ (dir_byte bdir :: rest) from by
      simp]
    rw [read_bytes_exact 16 _ _ (by simp [toLEBytes_length])]
    dsimp only
    have ht : (toLEBytes blo 8 ++ toLEBytes bhi 8).take 8 = toLEBytes blo 8 := by
      rw [show (8 : Nat) = (toLEBytes blo 8).length from
        (toLEBytes_length 8 blo).symm]
      exact List.take_left _ _
    have hd : (toLEBytes blo 8 ++ toLEBytes bhi 8).drop 8 = toLEBytes bhi 8 := by
      rw [show (8 : Nat) = (toLEBytes blo 8).length from
        (toLEBytes_length 8 blo).symm]
      exact List.drop_left _ _
    rw [ht, hd, fromLE_toLE 8 blo (by norm_num at hlo ⊢; omega),
      fromLE_toLE 8 bhi (by norm_num at hhi ⊢; omega)]
    cases bdir with
    | XY =>
      rw [show dir_byte SubdivisionDir.XY = 0 from rfl]
      rw [if_pos (Or.inl rfl)]
      rw [if_neg (by norm_num)]
      rw [xor_delta_cancel, xor_delta_cancel,
        pop_push_i8 bkx hkx1 hkx2, pop_push_i8 bky hky1 hky2]
    | NTheta =>
      rw [show dir_byte SubdivisionDir.NTheta = 1 from rfl]
      rw [if_pos (Or.inr rfl)]
      rw [if_pos rfl]
      rw [xor_delta_cancel, xor_delta_cancel,
        pop_push_i8 bkx hkx1 hkx2, pop_push_i8 bky hky1 hky2]
  · rw [if_neg hp, if_neg hp]
    simp only [List.nil_append]
    obtain ⟨hl, hh, hnd⟩ := hsent (Bool.not_eq_true q.polar ▸ hp)
    rw [xor_delta_cancel, xor_delta_cancel,
      pop_push_i8 bkx hkx1 hkx2, pop_push_i8 bky hky1 hky2, hl, hh, hnd]

/-- The byte sequence `s`, decoded starting from front coordinates
`(xf, yf)`, holds exactly the blocks `bs`, and the chain ends at the back
coordinates `(xb, yb)`. -/
def seq_models (polar : Bool) : Nat → Nat → List QBlock → List Nat → Nat → Nat → Prop
  | xf, yf, [], s, xb, yb => s = [] ∧ xb = xf ∧ yb = yf
  | xf, yf, b :: bs, s, xb, yb =>
    pushWF polar b ∧ ∃ rest, s = encode_record polar xf yf b ++ rest ∧
      seq_models polar b.x b.y bs rest xb yb

/-- The queue faithfully holds the blocks `bs` (front first). -/
def models (q : ImageBlockQueue) (bs : List QBlock) : Prop :=
  seq_models q.polar q.x_front q.y_front bs q.seq q.x_back q.y_back ∧
    q.back_index = q.front_index + bs.length ∧
    q.x_front < 2 ^ 32 ∧ q.y_front < 2 ^ 32

/-- Helper: the back coordinates of a modelled sequence are `u32` values. -/
theorem seq_models_back_bound (polar : Bool) :
    ∀ (bs : List QBlock) (xf yf : Nat) (s : List Nat) (xb yb : Nat),
      seq_models polar xf yf bs s xb yb → xf < 2 ^ 32 → yf < 2 ^ 32 →
      xb < 2 ^ 32 ∧ yb < 2 ^ 32 := by
  intro bs
  induction bs with
  | nil =>
    intro xf yf s xb yb h h1 h2
    obtain ⟨-, rfl, rfl⟩ := h
    exact ⟨h1, h2⟩
  | cons b bs ih =>
    intro xf yf s xb yb h h1 h2
    obtain ⟨hwf, rest, -, hrest⟩ := h
    exact ih b.x b.y rest xb yb hrest hwf.1.1 hwf.1.2.1

/-- Helper: appending one record to a modelled sequence. -/
theorem seq_models_append (polar : Bool) :
    ∀ (bs : List QBlock) (xf yf : Nat) (s : List Nat) (xb yb : Nat)
      (b : QBlock),
      seq_models polar xf yf bs s xb yb → pushWF polar b →
      seq_models polar xf yf (bs ++ [b])
        (s ++ encode_record polar xb yb b) b.x b.y := by
  intro bs
  induction bs with
  | nil =>
    intro xf yf s xb yb b h hb
    obtain ⟨rfl, rfl, rfl⟩ := h
    exact ⟨hb, [], by simp, rfl, rfl, rfl⟩
  | cons c bs ih =>
    intro xf yf s xb yb b h hb
    obtain ⟨hwf, rest, rfl, hrest⟩ := h
    exact ⟨hwf, rest ++ encode_record polar xb yb b, by simp,
      ih c.x c.y rest xb yb b hrest hb⟩

/-- Helper: `push_back` appends the block to the modelled contents and
returns the old back index. -/
theorem push_back_models (q : ImageBlockQueue) (bs : List QBlock) (b : QBlock)
    (h : models q bs) (hb : pushWF q.polar b) :
    models (q.push_back b).1 (bs ++ [b]) ∧ (q.push_back b).2 = q.back_index := by
  obtain ⟨hseq, hidx, hxf, hyf⟩ := h
  refine ⟨⟨?_, ?_, hxf, hyf⟩, rfl⟩
  · exact seq_models_append q.polar bs q.x_front q.y_front q.seq q.x_back
      q.y_back b hseq hb
  · simp only [ImageBlockQueue.push_back, List.length_append, List.length_cons,
      List.length_nil]
    omega

/-- Helper: popping an empty modelled queue yields `None`. -/
theorem pop_front_models_nil (q : ImageBlockQueue) (h : models q []) :
    q.pop_front = none := by
  obtain ⟨⟨hs, -, -⟩, -, -, -⟩ := h
  unfold ImageBlockQueue.pop_front
  rw [hs]
  rfl

/-- Helper: popping a nonempty modelled queue returns the front block with
the front index, and the rest stays modelled. -/
theorem pop_front_models_cons (q : ImageBlockQueue) (b : QBlock)
    (bs : List QBlock) (h : models q (b :: bs)) :
    ∃ q2, q.pop_front = some ((q.front_index, b), q2) ∧ models q2 bs ∧
      q2.front_index = q.front_index + 1 ∧ q2.back_index = q.back_index ∧
      q2.polar = q.polar := by
  obtain ⟨⟨hwf, rest, hs, hrest⟩, hidx, hxf, hyf⟩ := h
  refine ⟨_, pop_front_encoded q b rest hs hwf hxf hyf, ?_, rfl, rfl, rfl⟩
  refine ⟨hrest, ?_, hwf.1.1, hwf.1.2.1⟩
  simp only [List.length_cons] at hidx
  show q.back_index = q.front_index + 1 + bs.length
  omega

/-- One queue operation. -/
inductive QOp where
  | push (b : QBlock) : QOp
  | pop : QOp

/-- One observable event of a queue run: the index returned by a push, or
the result of a pop. -/
inductive QEvent where
  | pushed (i : Nat) : QEvent
  | popped (r : Option (Nat × QBlock)) : QEvent
deriving DecidableEq, Repr

/-- Running a sequence of operations against the byte queue, recording each
push\'s returned index and each pop\'s result. -/
def run_queue : ImageBlockQueue → List QOp → List QEvent
  | _, [] => []
  | q, QOp.push b :: rest =>
    QEvent.pushed (q.push_back b).2 :: run_queue (q.push_back b).1 rest
  | q, QOp.pop :: rest =>
    match q.pop_front with
    | none => QEvent.popped none :: run_queue q rest
    | some (r, q2) => QEvent.popped (some r) :: run_queue q2 rest

/-- The final queue after a run. -/
def run_queue_final : ImageBlockQueue → List QOp → ImageBlockQueue
  | q, [] => q
  | q, QOp.push b :: rest => run_queue_final (q.push_back b).1 rest
  | q, QOp.pop :: rest =>
    match q.pop_front with
    | none => run_queue_final q rest
    | some (_, q2) => run_queue_final q2 rest

/-- The blocks pushed by an operation list, in order. -/
def pushed_blocks (ops : List QOp) : List QBlock :=
  ops.filterMap fun op =>
    match op with
    | QOp.push b => some b
    | QOp.pop => none

/-- The number of pops that find the queue nonempty, when it starts with
`n` blocks. -/
def num_success_pops : List QOp → Nat → Nat
  | [], _ => 0
  | QOp.push _ :: rest, n => num_success_pops rest (n + 1)
  | QOp.pop :: rest, 0 => num_success_pops rest 0
  | QOp.pop :: rest, n + 1 => 1 + num_success_pops rest n

/-- The successful pop results of a run. -/
def pop_results (evs : List QEvent) : List (Nat × QBlock) :=
  evs.filterMap fun e =>
    match e with
    | QEvent.popped (some r) => some r
    | _ => none

/-- The push-returned indices of a run. -/
def push_results (evs : List QEvent) : List Nat :=
  evs.filterMap fun e =>
    match e with
    | QEvent.pushed i => some i
    | _ => none

/-- Helper: the generalized queue run theorem.  From any queue modelling
`bs`, the pushes return the consecutive indices starting at the back index,
the successful pops return the consecutive indices starting at the front
index paired with the queued blocks front-first, and the final queue models
exactly the blocks that were not popped. -/
theorem run_queue_spec :
    ∀ (ops : List QOp) (q : ImageBlockQueue) (bs : List QBlock),
      models q bs → (∀ b, QOp.push b ∈ ops → pushWF q.polar b) →
      push_results (run_queue q ops)
          = List.range' q.back_index (pushed_blocks ops).length ∧
        pop_results (run_queue q ops)
          = List.zip (List.range' q.front_index (num_success_pops ops bs.length))
              ((bs ++ pushed_blocks ops).take (num_success_pops ops bs.length)) ∧
        models (run_queue_final q ops)
          ((bs ++ pushed_blocks ops).drop (num_success_pops ops bs.length)) := by
  intro ops
  induction ops with
  | nil =>
    intro q bs h hwf
    simp [run_queue, run_queue_final, pushed_blocks, num_success_pops,
      pop_results, push_results, h]
  | cons op rest ih =>
    intro q bs h hwf
    cases op with
    | push b =>
      have hb : pushWF q.polar b := hwf b (by simp)
      obtain ⟨h1, h2⟩ := push_back_models q bs b h hb
      have hpolar : (q.push_back b).1.polar = q.polar := rfl
      have hback : (q.push_back b).1.back_index = q.back_index + 1 := rfl
      have hfront : (q.push_back b).1.front_index = q.front_index := rfl
      obtain ⟨ih1, ih2, ih3⟩ := ih (q.push_back b).1 (bs ++ [b]) h1
        (fun c hc => hpolar ▸ hwf c (by simp [hc]))
      rw [hback] at ih1
      rw [hfront] at ih2
      have hpb : pushed_blocks (QOp.push b :: rest) = b :: pushed_blocks rest :=
        rfl
      have hns : num_success_pops (QOp.push b :: rest) bs.length
          = num_success_pops rest (bs ++ [b]).length := by
        simp [num_success_pops]
      have hassoc : (bs ++ [b]) ++ pushed_blocks rest
          = bs ++ pushed_blocks (QOp.push b :: rest) := by
        rw [hpb]
        simp
      refine ⟨?_, ?_, ?_⟩
      · rw [show run_queue q (QOp.push b :: rest)
            = QEvent.pushed (q.push_back b).2
              :: run_queue (q.push_back b).1 rest from rfl]
        rw [show push_results (QEvent.pushed (q.push_back b).2
              :: run_queue (q.push_back b).1 rest)
            = (q.push_back b).2
              :: push_results (run_queue (q.push_back b).1 rest) from rfl]
        rw [ih1, h2, hpb, List.length_cons, List.range'_succ]
      · rw [show pop_results (run_queue q (QOp.push b :: rest))
            = pop_results (run_queue (q.push_back b).1 rest) from rfl]
        rw [ih2, hns, hassoc]
      · rw [show run_queue_final q (QOp.push b :: rest)
            = run_queue_final (q.push_back b).1 rest from rfl]
        rw [hns, ← hassoc]
        exact ih3
    | pop =>
      cases bs with
      | nil =>
        have hnone := pop_front_models_nil q h
        obtain ⟨ih1, ih2, ih3⟩ := ih q [] h (fun c hc => hwf c (by simp [hc]))
        have hrq : run_queue q (QOp.pop :: rest)
            = QEvent.popped none :: run_queue q rest := by
          rw [show run_queue q (QOp.pop :: rest)
              = (match q.pop_front with
                 | none => QEvent.popped none :: run_queue q rest
                 | some (r, q2) => QEvent.popped (some r) :: run_queue q2 rest)
            from rfl, hnone]
        have hrf : run_queue_final q (QOp.pop :: rest)
            = run_queue_final q rest := by
          rw [show run_queue_final q (QOp.pop :: rest)
              = (match q.pop_front with
                 | none => run_queue_final q rest
                 | some (r, q2) => run_queue_final q2 rest)
            from rfl, hnone]
        have hns : num_success_pops (QOp.pop :: rest) ([] : List QBlock).length
            = num_success_pops rest 0 := by
          simp [num_success_pops]
        have hpb : pushed_blocks (QOp.pop :: rest) = pushed_blocks rest := rfl
        refine ⟨?_, ?_, ?_⟩
        · rw [hrq, show push_results (QEvent.popped none :: run_queue q rest)
              = push_results (run_queue q rest) from rfl, ih1, hpb]
        · rw [hrq, show pop_results (QEvent.popped none :: run_queue q rest)
              = pop_results (run_queue q rest) from rfl, ih2, hns, hpb]
          simp only [List.length_nil]
        · rw [hrf, hns, hpb]
          exact ih3
      | cons b tl =>
        obtain ⟨q2, hpop, hm2, hf2, hb2, hp2⟩ := pop_front_models_cons q b tl h
        obtain ⟨ih1, ih2, ih3⟩ := ih q2 tl hm2
          (fun c hc => hp2 ▸ hwf c (by simp [hc]))
        have hrq : run_queue q (QOp.pop :: rest)
            = QEvent.popped (some (q.front_index, b)) :: run_queue q2 rest := by
          rw [show run_queue q (QOp.pop :: rest)
              = (match q.pop_front with
                 | none => QEvent.popped none :: run_queue q rest
                 | some (r, q3) => QEvent.popped (some r) :: run_queue q3 rest)
            from rfl, hpop]
        have hrf : run_queue_final q (QOp.pop :: rest)
            = run_queue_final q2 rest := by
          rw [show run_queue_final q (QOp.pop :: rest)
              = (match q.pop_front with
                 | none => run_queue_final q rest
                 | some (r, q3) => run_queue_final q3 rest)
            from rfl, hpop]
        have hns : num_success_pops (QOp.pop :: rest) (b :: tl).length
            = 1 + num_success_pops rest tl.length := by
          simp [num_success_pops]
        have hpb : pushed_blocks (QOp.pop :: rest) = pushed_blocks rest := rfl
        refine ⟨?_, ?_, ?_⟩
        · rw [hrq, show push_results (QEvent.popped (some (q.front_index, b))
                :: run_queue q2 rest)
              = push_results (run_queue q2 rest) from rfl, ih1, hb2, hpb]
        · rw [hrq, show pop_results (QEvent.popped (some (q.front_index, b))
                :: run_queue q2 rest)
              = (q.front_index, b) :: pop_results (run_queue q2 rest) from rfl,
            ih2, hf2, hns, hpb]
          rw [show 1 + num_success_pops rest tl.length
              = num_success_pops rest tl.length + 1 from by omega]
          rw [List.range'_succ]
          rw [show ((b :: tl) ++ pushed_blocks rest).take
                (num_success_pops rest tl.length + 1)
              = b :: (tl ++ pushed_blocks rest).take
                (num_success_pops rest tl.length) from by simp]
          rfl
        · rw [hrf, hns, hpb]
          rw [show (b :: tl) ++ pushed_blocks rest
              = b :: (tl ++ pushed_blocks rest) from by simp]
          rw [show List.drop (1 + num_success_pops rest tl.length)
                (b :: (tl ++ pushed_blocks rest))
              = List.drop (num_success_pops rest tl.length)
                (tl ++ pushed_blocks rest) from by
            rw [show 1 + num_success_pops rest tl.length
                = num_success_pops rest tl.length + 1 from by omega]
            simp]
          exact ih3

/-- C4.  For every interleaved sequence of `push_back` / `pop_front`
operations on a fresh `ImageBlockQueue` (whose pushed blocks carry valid
`u32`/`i8` fields, with the non-polar sentinel `n_theta`/`next_dir` values
on a non-polar queue), the `i`-th successful `pop_front` returns the pair
`(i - 1, b_i)`: blocks come out in FIFO order, equal to the blocks pushed
in every field (including `n_theta` and `next_dir`), paired with the index
the corresponding `push_back` returned; the pushes return the distinct,
never-reused indices `0, 1, 2, ...` in order; and the push count minus the
successful-pop count equals the number of blocks remaining in the queue
(also the difference of the index counters). -/
theorem queue_roundtrip_fifo (polar : Bool) (ops : List QOp)
    (hwf : ∀ b, QOp.push b ∈ ops → pushWF polar b) :
    pop_results (run_queue (ImageBlockQueue.new polar) ops)
        = List.zip (List.range' 0 (num_success_pops ops 0))
            ((pushed_blocks ops).take (num_success_pops ops 0)) ∧
      push_results (run_queue (ImageBlockQueue.new polar) ops)
        = List.range' 0 (pushed_blocks ops).length ∧
      models (run_queue_final (ImageBlockQueue.new polar) ops)
        ((pushed_blocks ops).drop (num_success_pops ops 0)) ∧
      (run_queue_final (ImageBlockQueue.new polar) ops).back_index
          - (run_queue_final (ImageBlockQueue.new polar) ops).front_index
        = (pushed_blocks ops).length - num_success_pops ops 0 := by
  have hinit : models (ImageBlockQueue.new polar) [] := by
    refine ⟨⟨rfl, rfl, rfl⟩, rfl, ?_, ?_⟩
    · show (0 : Nat) < 2 ^ 32
      norm_num
    · show (0 : Nat) < 2 ^ 32
      norm_num
  obtain ⟨h1, h2, h3⟩ := run_queue_spec ops (ImageBlockQueue.new polar) [] hinit
    (fun b hb => hwf b hb)
  simp only [List.nil_append, List.length_nil] at h1 h2 h3
  refine ⟨h2, h1, h3, ?_⟩
  obtain ⟨-, hidx, -, -⟩ := h3
  rw [hidx, List.length_drop]
  omega

/-- Witness for C4 at a concrete input: pushing one block into a fresh
non-polar queue and popping it returns index `0` with the block intact. -/
theorem queue_roundtrip_fifo_witness :
    pop_results (run_queue (ImageBlockQueue.new false)
        [QOp.push ⟨5, 7, -3, 2, ENTIRE_LO, ENTIRE_HI, SubdivisionDir.XY⟩,
          QOp.pop])
      = [(0, ⟨5, 7, -3, 2, ENTIRE_LO, ENTIRE_HI, SubdivisionDir.XY⟩)] ∧
    push_results (run_queue (ImageBlockQueue.new false)
        [QOp.push ⟨5, 7, -3, 2, ENTIRE_LO, ENTIRE_HI, SubdivisionDir.XY⟩,
          QOp.pop])
      = [0] := by
  have h := queue_roundtrip_fifo false
    [QOp.push ⟨5, 7, -3, 2, ENTIRE_LO, ENTIRE_HI, SubdivisionDir.XY⟩, QOp.pop]
    (by
      intro b hb
      simp only [List.mem_cons, List.not_mem_nil, or_false] at hb
      rcases hb with hb | hb
      · cases hb
        refine ⟨⟨by norm_num, by norm_num, by norm_num, by norm_num,
          by norm_num, by norm_num, by norm_num [ENTIRE_LO],
          by norm_num [ENTIRE_HI]⟩, fun _ => ⟨rfl, rfl, rfl⟩⟩
      · cases hb)
  refine ⟨h.1.trans (by rfl), h.2.1.trans (by rfl)⟩

/-! ### The main refinement loop, `Graph::refine_impl` (C2) -/

/-- The well-formed shapes of the branch interval `n_theta` reachable from
the polar seeds `(-inf, -1]`, `[0, 0]` and `[1, inf)`: integer singletons,
integer-endpoint intervals of power-of-two width, and half-lines ending at a
(negated) power of two.  On these shapes every `f64` operation performed by
`bisect` is exact (even integer sums of magnitude at most `2^54`), so the
rational model is faithful. -/
def NThetaWF (n : XInt) : Prop :=
  (∃ a : ℤ, n = ⟨XF.fin (a : ℚ), XF.fin (a : ℚ)⟩) ∨
  (∃ (a : ℤ) (j : ℕ), n = ⟨XF.fin (a : ℚ), XF.fin ((a : ℚ) + 2 ^ j)⟩) ∨
  (∃ j : ℕ, n = ⟨XF.negInf, XF.fin (-(2 ^ j : ℚ))⟩) ∨
  (∃ j : ℕ, n = ⟨XF.fin ((2 ^ j : ℚ)), XF.posInf⟩)

/-- The exponent of a rational that is a power of two (`expOf (2 ^ j) = j`);
used only to define the termination weight of an `n_theta` interval. -/
def expOf (q : ℚ) : Nat := Nat.log 2 q.num.toNat

/-- Termination weight of an `n_theta` interval: singletons weigh `0`, an
interval of width `2 ^ j` weighs `j + 1`, and a half-line ending at
`±(2 ^ j)` weighs `109 - j` (every bisection of a well-formed interval
lowers the weight of each piece). -/
def nW : XInt → Nat
  | ⟨XF.negInf, XF.fin q⟩ => 109 - expOf (-q)
  | ⟨XF.fin q, XF.posInf⟩ => 109 - expOf q
  | ⟨XF.fin a, XF.fin b⟩ => if a = b then 0 else expOf (b - a) + 1
  | _ => 0

/-- Horizontal level weight: distance of `kx` from one below the floor. -/
def wx (b : ImageBlock) : Nat := (b.kx - MIN_K + 1).toNat

/-- Vertical level weight. -/
def wy (b : ImageBlock) : Nat := (b.ky - MIN_K + 1).toNat

/-- Penalty for a queued block whose `next_dir` is not actually subdivisible
(such blocks are re-queued once in the other direction before the level or
width weights resume decreasing). -/
def pen (b : ImageBlock) : Nat :=
  if b.next_dir = SubdivisionDir.XY ∧ b.is_subdivisible_on_xy = false then 2
  else if b.next_dir = SubdivisionDir.NTheta ∧
      b.is_subdivisible_on_n_theta = false then 1
  else 0

/-- The termination rank of a queued block. -/
def kappa (b : ImageBlock) : Nat := 4 * (wx b + wy b + nW b.n_theta) + pen b

/-- The data-model invariant of a queued block: blocks queued for XY
subdivision sit at or above the level floor, superpixels are square, a polar
queue holds well-formed `n_theta` intervals, and a non-polar queue only ever
subdivides on XY. -/
def BWF (g : GraphEnv) (b : ImageBlock) : Prop :=
  (b.next_dir = SubdivisionDir.XY → MIN_K ≤ b.kx ∧ MIN_K ≤ b.ky) ∧
  (b.is_superpixel = true → b.kx = b.ky) ∧
  (g.relation_type = RelationType.Polar → NThetaWF b.n_theta) ∧
  (g.relation_type ≠ RelationType.Polar → b.next_dir = SubdivisionDir.XY)

/-- The state of `refine_impl` between loop iterations: the queued blocks
with their indices (front first), the next back index of the queue, and the
number of `refine_pixel` / `refine_subpixel` calls made so far (which indexes
the completeness oracle). -/
structure LoopState where
  queue : List (Nat × ImageBlock)
  next_back : Nat
  ec : Nat

/-- The loop invariant: every queued index fits in a `QueuedBlockIndex`
(`u32`) and every queued block satisfies the data-model invariant. -/
def LoopWF (g : GraphEnv) (s : LoopState) : Prop :=
  ∀ p ∈ s.queue, p.1 < 2 ^ 32 ∧ BWF g p.2

/-- The inner `for` loop over the freshly subdivided children: each child is
refined (the oracle `om` abstracts the interval evaluation of the relation,
indexed by the running call counter `ec`), and each incomplete child is
recorded after `set_last_queued_block` succeeds, which requires its future
queue index `nb + acc` to fit in a `u32` (`acc` counts the incomplete
children found so far); otherwise `BlockIndexOverflow` aborts the call. -/
def collect_incomplete (om : Nat → Bool) :
    Nat → Nat → Nat → List (ImageBlock × Bool) →
    Except GraphingError (List ImageBlock)
  | _, _, _, [] => Except.ok []
  | ec, nb, acc, (c, _) :: rest =>
    if om ec then collect_incomplete om (ec + 1) nb acc rest
    else if nb + acc < 2 ^ 32 then
      match collect_incomplete om (ec + 1) nb (acc + 1) rest with
      | Except.ok l => Except.ok (c :: l)
      | Except.error e => Except.error e
    else Except.error ⟨GraphingErrorKind.BlockIndexOverflow⟩

/-- Re-queueing the incomplete children with the chosen direction and
consecutive indices starting at `nb`. -/
def enqueue (nb : Nat) (d : SubdivisionDir) :
    List ImageBlock → List (Nat × ImageBlock)
  | [] => []
  | c :: rest => (nb, { c with next_dir := d }) :: enqueue (nb + 1) d rest

/-- The outcome of one loop iteration: the function returns, or the loop
continues in a new state. -/
inductive StepOut where
  | done (r : Except GraphingError Bool) : StepOut
  | next (s : LoopState) : StepOut

/-- One iteration of the `while let` loop of `refine_impl`, with the memory
check and the timeout elided (the claim assumes both limits are large
enough).  `none` models a panic: a failed assertion inside the subdivision
routines, or the `QueuedBlockIndex::try_from(bi).unwrap()` on a popped index
that does not fit in a `u32` (evaluated once a child block is refined). -/
def step (g : GraphEnv) (om : Nat → Bool) (s : LoopState) : Option StepOut :=
  match s.queue with
  | [] => some (StepOut.done (Except.ok true))
  | (bi, b) :: rest =>
    match (match b.next_dir with
      | SubdivisionDir.NTheta => subdivide_on_n_theta b
      | SubdivisionDir.XY => subdivide_on_xy g b) with
    | none => none
    | some cs =>
      if cs.length ≠ 0 ∧ 2 ^ 32 ≤ bi then none
      else
        match collect_incomplete om s.ec s.next_back 0 cs with
        | Except.error e => some (StepOut.done (Except.error e))
        | Except.ok l =>
          match choose_next_dir g b l.length cs.length with
          | Except.error e => some (StepOut.done (Except.error e))
          | Except.ok d =>
            some (StepOut.next
              ⟨rest ++ enqueue s.next_back d l,
               s.next_back + l.length, s.ec + cs.length⟩)

/-- The observable outcome of running the loop with a given amount of fuel. -/
inductive RunResult where
  | res (r : Except GraphingError Bool) : RunResult
  | fuelOut : RunResult
  | panic : RunResult

/-- Running the loop of `refine_impl` for at most `fuel` iterations. -/
def run_loop (g : GraphEnv) (om : Nat → Bool) :
    Nat → LoopState → RunResult
  | 0, _ => RunResult.fuelOut
  | fuel + 1, s =>
    match step g om s with
    | none => RunResult.panic
    | some (StepOut.done r) => RunResult.res r
    | some (StepOut.next s2) => run_loop g om fuel s2

/-- The termination measure of a loop state. -/
def mu (s : LoopState) : Nat :=
  (s.queue.map fun p => 5 ^ kappa p.2).sum

/-- `expOf` recovers the exponent of a power of two. -/
theorem expOf_pow (j : Nat) : expOf ((2 : ℚ) ^ j) = j := by
  have hnum : ((2 : ℚ) ^ j).num = (2 : ℤ) ^ j := by
    rw [show ((2 : ℚ) ^ j) = ((2 ^ j : ℤ) : ℚ) from by push_cast; ring]
    rw [Rat.intCast_num]
  have htn : ((2 : ℤ) ^ j).toNat = 2 ^ j := by
    rw [show (2 : ℤ) ^ j = ((2 ^ j : ℕ) : ℤ) from by push_cast; ring]
    exact Int.toNat_natCast _
  rw [expOf, hnum, htn]
  exact Nat.log_pow (by norm_num) j


/-- `is_subdivisible_on_n_theta` as a predicate of the interval alone. -/
def subN (n : XInt) : Bool :=
  !n.is_singleton && XF.ble n.mig (XF.fin MAX_DISCRETE_N_THETA)

/-- `is_subdivisible_on_n_theta` only reads the interval. -/
theorem subN_eq (b : ImageBlock) :
    b.is_subdivisible_on_n_theta = subN b.n_theta := rfl

/-- The guard of `bisect` is the negation of subdivisibility. -/
theorem bisect_guard (n : XInt) :
    (n.is_singleton || XF.blt (XF.fin MAX_DISCRETE_N_THETA) n.mig)
      = !subN n := by
  cases h1 : n.is_singleton <;>
    cases h2 : XF.ble n.mig (XF.fin MAX_DISCRETE_N_THETA) <;>
      simp [subN, XF.blt, h1, h2]

/-- A half-line `(-inf, q]` is a valid interval. -/
theorem mkInterval_neginf (q : ℚ) :
    mkInterval XF.negInf (XF.fin q) = some ⟨XF.negInf, XF.fin q⟩ := by
  simp [mkInterval, XF.ble]

/-- A half-line `[q, inf)` is a valid interval. -/
theorem mkInterval_posinf (q : ℚ) :
    mkInterval (XF.fin q) XF.posInf = some ⟨XF.fin q, XF.posInf⟩ := by
  simp [mkInterval, XF.ble]

/-- Weight of a singleton. -/
theorem nW_sing (a : ℚ) : nW ⟨XF.fin a, XF.fin a⟩ = 0 := by
  simp [nW]

/-- Weight of a proper finite interval. -/
theorem nW_fin {a b : ℚ} (h : a ≠ b) :
    nW ⟨XF.fin a, XF.fin b⟩ = expOf (b - a) + 1 := by
  simp [nW, h]

/-- Weight of a lower half-line. -/
theorem nW_low (q : ℚ) : nW ⟨XF.negInf, XF.fin q⟩ = 109 - expOf (-q) := rfl

/-- Weight of an upper half-line. -/
theorem nW_high (q : ℚ) : nW ⟨XF.fin q, XF.posInf⟩ = 109 - expOf q := rfl

/-- The penalty is at most `2`. -/
theorem pen_le (b : ImageBlock) : pen b ≤ 2 := by
  unfold pen
  split_ifs <;> omega

/-- A block with strictly smaller total weight has strictly smaller rank,
whatever the penalties. -/
theorem kappa_lt_of_W_lt {c b : ImageBlock}
    (h : wx c + wy c + nW c.n_theta < wx b + wy b + nW b.n_theta) :
    kappa c < kappa b := by
  have h1 := pen_le c
  unfold kappa
  omega

/-- `bisect` leaves a non-subdivisible interval alone. -/
theorem bisect_unb {n : XInt} (h : subN n = false) : bisect n = some [n] := by
  unfold bisect
  rw [if_pos]
  rw [bisect_guard, h]
  rfl

/-- `subN` is false when the magnitude check fires. -/
theorem subN_false_of_blt {n : XInt}
    (hm : XF.blt (XF.fin MAX_DISCRETE_N_THETA) n.mig = true) :
    subN n = false := by
  simp only [XF.blt, Bool.not_eq_true'] at hm
  simp [subN, hm]

/-- `subN` is true for a non-singleton passing the magnitude check. -/
theorem subN_true_of {n : XInt} (hsing : n.is_singleton = false)
    (hm : XF.blt (XF.fin MAX_DISCRETE_N_THETA) n.mig = false) :
    subN n = true := by
  have hb : XF.ble n.mig (XF.fin MAX_DISCRETE_N_THETA) = true := by
    cases hb2 : XF.ble n.mig (XF.fin MAX_DISCRETE_N_THETA)
    · rw [XF.blt, hb2] at hm
      simp at hm
    · rfl
  simp [subN, hsing, hb]

/-- `mig` of a lower half-line with a negative endpoint. -/
theorem mig_low (q : ℚ) (hq : q < 0) :
    XInt.mig ⟨XF.negInf, XF.fin q⟩ = XF.fin (-q) := by
  simp [XInt.mig, XF.ble, XF.blt, XF.neg, not_le.mpr hq]

/-- `mig` of an upper half-line with a positive endpoint. -/
theorem mig_high (q : ℚ) (hq : 0 < q) :
    XInt.mig ⟨XF.fin q, XF.posInf⟩ = XF.fin q := by
  simp [XInt.mig, XF.ble, XF.blt, XF.neg, not_le.mpr hq]

/-- `bisect` on an interval of width one yields the two singletons. -/
theorem bisect_adj (a : ℚ)
    (hmig : XF.blt (XF.fin MAX_DISCRETE_N_THETA)
      (XInt.mig ⟨XF.fin a, XF.fin (a + 1)⟩) = false) :
    bisect ⟨XF.fin a, XF.fin (a + 1)⟩
      = some [⟨XF.fin a, XF.fin a⟩, ⟨XF.fin (a + 1), XF.fin (a + 1)⟩] := by
  simp only [bisect]
  rw [hmig]
  simp [XInt.is_singleton, XF.add1, mkInterval, XF.ble]

/-- `bisect` on a lower half-line with a non-positive endpoint splits at
twice the endpoint. -/
theorem bisect_neg (c : ℚ) (hc : c ≤ 0)
    (hmig : XF.blt (XF.fin MAX_DISCRETE_N_THETA)
      (XInt.mig ⟨XF.negInf, XF.fin c⟩) = false) :
    bisect ⟨XF.negInf, XF.fin c⟩
      = some [⟨XF.negInf, XF.fin (2 * c)⟩, ⟨XF.fin (2 * c), XF.fin c⟩] := by
  have h2c : 2 * c ≤ c := by linarith
  simp only [bisect]
  rw [hmig]
  simp [XInt.is_singleton, XF.add1, XF.dbl, mkInterval, XF.ble, h2c]

/-- `bisect` on an upper half-line with a non-negative endpoint splits at
twice the endpoint. -/
theorem bisect_pos (a : ℚ) (ha : 0 ≤ a)
    (hmig : XF.blt (XF.fin MAX_DISCRETE_N_THETA)
      (XInt.mig ⟨XF.fin a, XF.posInf⟩) = false) :
    bisect ⟨XF.fin a, XF.posInf⟩
      = some [⟨XF.fin a, XF.fin (2 * a)⟩, ⟨XF.fin (2 * a), XF.posInf⟩] := by
  have h2a : a ≤ 2 * a := by linarith
  simp only [bisect]
  rw [hmig]
  simp [XInt.is_singleton, XF.add1, XF.dbl, mkInterval, XF.ble, h2a]

/-- `bisect` on a proper bounded interval that is not of width one splits at
the midpoint. -/
theorem bisect_mid (a b2 : ℚ) (hab : a ≤ b2) (hne : a ≠ b2)
    (hadj : a + 1 ≠ b2)
    (hmig : XF.blt (XF.fin MAX_DISCRETE_N_THETA)
      (XInt.mig ⟨XF.fin a, XF.fin b2⟩) = false) :
    bisect ⟨XF.fin a, XF.fin b2⟩
      = some [⟨XF.fin a, XF.fin ((a + b2) / 2)⟩,
          ⟨XF.fin ((a + b2) / 2), XF.fin b2⟩] := by
  have h1 : a ≤ (a + b2) / 2 := by linarith
  have h2 : (a + b2) / 2 ≤ b2 := by linarith
  simp only [bisect]
  rw [hmig]
  simp [XInt.is_singleton, XF.add1, XF.dbl, mkInterval, XF.ble, hne, hadj,
    h1, h2]

/-- Bisection of a well-formed interval never panics, yields one or two
well-formed pieces of no larger weight (strictly smaller when the interval
was subdivisible), and leaves a non-subdivisible interval alone. -/
theorem bisect_wf {n : XInt} (h : NThetaWF n) :
    ∃ l, bisect n = some l ∧ l ≠ [] ∧ l.length ≤ 2 ∧
      (∀ m ∈ l, NThetaWF m ∧ nW m ≤ nW n ∧ (subN n = true → nW m < nW n)) ∧
      (subN n = false → l = [n]) := by
  by_cases hs : subN n = true
  case neg =>
    have hs2 : subN n = false := by
      cases hsb : subN n
      · rfl
      · exact absurd hsb hs
    refine ⟨[n], bisect_unb hs2, by simp, by simp, ?_, fun _ => rfl⟩
    intro m hm
    rw [List.mem_singleton] at hm
    subst hm
    exact ⟨h, le_refl _, fun hts => absurd hts hs⟩
  case pos =>
    have hand : n.is_singleton = false ∧
        XF.ble n.mig (XF.fin MAX_DISCRETE_N_THETA) = true := by
      have h2 := hs
      simp only [subN, Bool.and_eq_true, Bool.not_eq_true'] at h2
      exact h2
    have hm : XF.blt (XF.fin MAX_DISCRETE_N_THETA) n.mig = false := by
      rw [XF.blt, hand.2]
      rfl
    rcases h with ⟨a, rfl⟩ | ⟨a, j, rfl⟩ | ⟨j, rfl⟩ | ⟨j, rfl⟩
    · exfalso
      simp [subN, XInt.is_singleton] at hs
    · have h2pos : (0 : ℚ) < 2 ^ j := pow_pos (by norm_num) j
      by_cases hj : j = 0
      · subst hj
        rw [show ((a : ℚ) + 2 ^ 0) = (a : ℚ) + 1 from by norm_num] at hm hs ⊢
        have hWn : nW ⟨XF.fin (a : ℚ), XF.fin ((a : ℚ) + 1)⟩ = 1 := by
          rw [nW_fin (by intro hc; linarith)]
          rw [show ((a : ℚ) + 1 - a) = 2 ^ 0 from by norm_num, expOf_pow]
        refine ⟨_, bisect_adj (a : ℚ) hm, by simp, by simp, ?_,
          fun hf => absurd hs (by rw [hf]; simp)⟩
        intro m hm2
        simp only [List.mem_cons, List.not_mem_nil, or_false] at hm2
        rcases hm2 with rfl | rfl
        · exact ⟨Or.inl ⟨a, rfl⟩, by rw [nW_sing, hWn]; omega,
            fun _ => by rw [nW_sing, hWn]; omega⟩
        · refine ⟨Or.inl ⟨a + 1, ?_⟩, by rw [nW_sing, hWn]; omega,
            fun _ => by rw [nW_sing, hWn]; omega⟩
          have hc : ((a + 1 : ℤ) : ℚ) = (a : ℚ) + 1 := by push_cast; ring
          rw [hc]
      · obtain ⟨jj, rfl⟩ := Nat.exists_eq_succ_of_ne_zero hj
        have hjpos : (0 : ℚ) < 2 ^ jj := pow_pos (by norm_num) jj
        have hmid : ((a : ℚ) + ((a : ℚ) + 2 ^ (jj + 1))) / 2
            = (a : ℚ) + 2 ^ jj := by
          rw [pow_succ]
          ring
        have hadj : (a : ℚ) + 1 ≠ (a : ℚ) + 2 ^ (jj + 1) := by
          have h2 : (2 : ℚ) ≤ 2 ^ (jj + 1) := by
            calc (2 : ℚ) = 2 ^ 1 := by norm_num
            _ ≤ 2 ^ (jj + 1) := by
              apply pow_le_pow_right₀ (by norm_num)
              omega
          intro hc
          linarith
        have hb := bisect_mid (a : ℚ) ((a : ℚ) + 2 ^ (jj + 1))
          (by linarith) (by intro hc; linarith) hadj hm
        rw [hmid] at hb
        have hWn : nW ⟨XF.fin (a : ℚ), XF.fin ((a : ℚ) + 2 ^ (jj + 1))⟩
            = jj + 2 := by
          rw [nW_fin (by intro hc; linarith)]
          rw [show ((a : ℚ) + 2 ^ (jj + 1) - a) = 2 ^ (jj + 1) from by ring,
            expOf_pow]
        have hW1 : nW ⟨XF.fin (a : ℚ), XF.fin ((a : ℚ) + 2 ^ jj)⟩
            = jj + 1 := by
          rw [nW_fin (by intro hc; linarith)]
          rw [show ((a : ℚ) + 2 ^ jj - a) = 2 ^ jj from by ring, expOf_pow]
        have hW2 : nW ⟨XF.fin ((a : ℚ) + 2 ^ jj),
            XF.fin ((a : ℚ) + 2 ^ (jj + 1))⟩ = jj + 1 := by
          have hlt : (2 : ℚ) ^ jj < 2 ^ (jj + 1) := by
            rw [pow_succ]
            linarith
          rw [nW_fin (by intro hc; linarith)]
          rw [show ((a : ℚ) + 2 ^ (jj + 1) - ((a : ℚ) + 2 ^ jj)) = 2 ^ jj
            from by rw [pow_succ]; ring, expOf_pow]
        refine ⟨_, hb, by simp, by simp, ?_,
          fun hf => absurd hs (by rw [hf]; simp)⟩
        intro m hm2
        simp only [List.mem_cons, List.not_mem_nil, or_false] at hm2
        rcases hm2 with rfl | rfl
        · exact ⟨Or.inr (Or.inl ⟨a, jj, rfl⟩),
            by rw [hW1, hWn]; omega, fun _ => by rw [hW1, hWn]; omega⟩
        · refine ⟨Or.inr (Or.inl ⟨a + 2 ^ jj, jj, ?_⟩),
            by rw [hW2, hWn]; omega, fun _ => by rw [hW2, hWn]; omega⟩
          have hc1 : ((a + 2 ^ jj : ℤ) : ℚ) = (a : ℚ) + 2 ^ jj := by
            push_cast
            ring
          have hc2 : ((a + 2 ^ jj : ℤ) : ℚ) + 2 ^ jj
              = (a : ℚ) + 2 ^ (jj + 1) := by
            push_cast
            rw [pow_succ]
            ring
          rw [hc2, hc1]
    · have h2pos : (0 : ℚ) < 2 ^ j := pow_pos (by norm_num) j
      have hmigv : XInt.mig ⟨XF.negInf, XF.fin (-(2 ^ j : ℚ))⟩
          = XF.fin ((2 : ℚ) ^ j) := by
        rw [mig_low _ (by linarith), neg_neg]
      have hle : (2 : ℚ) ^ j ≤ MAX_DISCRETE_N_THETA := by
        have h2 := hand.2
        rw [hmigv] at h2
        simpa [XF.ble] using h2
      have hj53 : j < 53 := by
        by_contra hcon
        push_neg at hcon
        have h2 : (2 : ℚ) ^ 53 ≤ 2 ^ j := pow_le_pow_right₀ (by norm_num) hcon
        have h3 : (2 : ℚ) ^ 53 ≤ MAX_DISCRETE_N_THETA := le_trans h2 hle
        norm_num [MAX_DISCRETE_N_THETA] at h3
      have hb := bisect_neg (-(2 ^ j : ℚ)) (by linarith) hm
      rw [show (2 * -((2 : ℚ) ^ j)) = -(2 ^ (j + 1) : ℚ) from by
        rw [pow_succ]; ring] at hb
      have hWn : nW ⟨XF.negInf, XF.fin (-(2 ^ j : ℚ))⟩ = 109 - j := by
        rw [nW_low, neg_neg, expOf_pow]
      have hW1 : nW ⟨XF.negInf, XF.fin (-(2 ^ (j + 1) : ℚ))⟩
          = 109 - (j + 1) := by
        rw [nW_low, neg_neg, expOf_pow]
      have hW2 : nW ⟨XF.fin (-(2 ^ (j + 1) : ℚ)), XF.fin (-(2 ^ j : ℚ))⟩
          = j + 1 := by
        have hlt : (2 : ℚ) ^ j < 2 ^ (j + 1) := by
          rw [pow_succ]
          linarith
        rw [nW_fin (by intro hc; linarith)]
        rw [show (-(2 ^ j : ℚ) - -(2 ^ (j + 1) : ℚ)) = 2 ^ j from by
          rw [pow_succ]; ring, expOf_pow]
      refine ⟨_, hb, by simp, by simp, ?_,
        fun hf => absurd hs (by rw [hf]; simp)⟩
      intro m hm2
      simp only [List.mem_cons, List.not_mem_nil, or_false] at hm2
      rcases hm2 with rfl | rfl
      · exact ⟨Or.inr (Or.inr (Or.inl ⟨j + 1, rfl⟩)),
          by rw [hW1, hWn]; omega, fun _ => by rw [hW1, hWn]; omega⟩
      · refine ⟨Or.inr (Or.inl ⟨-(2 ^ (j + 1)), j, ?_⟩),
          by rw [hW2, hWn]; omega, fun _ => by rw [hW2, hWn]; omega⟩
        have hc1 : ((-(2 ^ (j + 1)) : ℤ) : ℚ) = -(2 ^ (j + 1) : ℚ) := by
          push_cast
          ring
        have hc2 : ((-(2 ^ (j + 1)) : ℤ) : ℚ) + 2 ^ j = -(2 ^ j : ℚ) := by
          push_cast
          rw [pow_succ]
          ring
        rw [hc2, hc1]
    · have h2pos : (0 : ℚ) < 2 ^ j := pow_pos (by norm_num) j
      have hmigv : XInt.mig ⟨XF.fin ((2 : ℚ) ^ j), XF.posInf⟩
          = XF.fin ((2 : ℚ) ^ j) := mig_high _ h2pos
      have hle : (2 : ℚ) ^ j ≤ MAX_DISCRETE_N_THETA := by
        have h2 := hand.2
        rw [hmigv] at h2
        simpa [XF.ble] using h2
      have hj53 : j < 53 := by
        by_contra hcon
        push_neg at hcon
        have h2 : (2 : ℚ) ^ 53 ≤ 2 ^ j := pow_le_pow_right₀ (by norm_num) hcon
        have h3 : (2 : ℚ) ^ 53 ≤ MAX_DISCRETE_N_THETA := le_trans h2 hle
        norm_num [MAX_DISCRETE_N_THETA] at h3
      have hb := bisect_pos ((2 : ℚ) ^ j) (by linarith) hm
      rw [show (2 * ((2 : ℚ) ^ j)) = (2 ^ (j + 1) : ℚ) from by
        rw [pow_succ]; ring] at hb
      have hWn : nW ⟨XF.fin ((2 : ℚ) ^ j), XF.posInf⟩ = 109 - j := by
        rw [nW_high, expOf_pow]
      have hW1 : nW ⟨XF.fin ((2 : ℚ) ^ j), XF.fin ((2 : ℚ) ^ (j + 1))⟩
          = j + 1 := by
        have hlt : (2 : ℚ) ^ j < 2 ^ (j + 1) := by
          rw [pow_succ]
          linarith
        rw [nW_fin (by intro hc; linarith)]
        rw [show ((2 : ℚ) ^ (j + 1) - 2 ^ j) = 2 ^ j from by
          rw [pow_succ]; ring, expOf_pow]
      have hW2 : nW ⟨XF.fin ((2 : ℚ) ^ (j + 1)), XF.posInf⟩
          = 109 - (j + 1) := by
        rw [nW_high, expOf_pow]
      refine ⟨_, hb, by simp, by simp, ?_,
        fun hf => absurd hs (by rw [hf]; simp)⟩
      intro m hm2
      simp only [List.mem_cons, List.not_mem_nil, or_false] at hm2
      rcases hm2 with rfl | rfl
      · refine ⟨Or.inr (Or.inl ⟨2 ^ j, j, ?_⟩),
          by rw [hW1, hWn]; omega, fun _ => by rw [hW1, hWn]; omega⟩
        have hc1 : (((2 ^ j) : ℤ) : ℚ) = (2 : ℚ) ^ j := by push_cast; ring
        have hc2 : (((2 ^ j) : ℤ) : ℚ) + 2 ^ j = (2 : ℚ) ^ (j + 1) := by
          push_cast
          rw [pow_succ]
          ring
        rw [hc2, hc1]
      · exact ⟨Or.inr (Or.inr (Or.inr ⟨j + 1, rfl⟩)),
          by rw [hW2, hWn]; omega, fun _ => by rw [hW2, hWn]; omega⟩

/-- `bisect_each` on a list of well-formed intervals never panics and
yields well-formed pieces of no larger weight than some origin interval. -/
theorem bisect_each_wf :
    ∀ ns : List XInt, (∀ n ∈ ns, NThetaWF n) →
      ∃ l, bisect_each ns = some l ∧ l.length ≤ 2 * ns.length ∧
        (ns ≠ [] → l ≠ []) ∧
        ∀ m ∈ l, ∃ n ∈ ns, NThetaWF m ∧ nW m ≤ nW n := by
  intro ns
  induction ns with
  | nil =>
    intro _
    exact ⟨[], rfl, by simp, by simp, by simp⟩
  | cons n rest ih =>
    intro hwf
    obtain ⟨l1, hb, hne1, hlen1, hall1, -⟩ := bisect_wf (hwf n (by simp))
    obtain ⟨l2, hbe, hlen2, -, hall2⟩ := ih (fun x hx => hwf x (by simp [hx]))
    refine ⟨l1 ++ l2, ?_, ?_, ?_, ?_⟩
    · unfold bisect_each
      rw [hb, hbe]
    · simp only [List.length_append, List.length_cons]
      omega
    · intro _ hcon
      rcases List.append_eq_nil.mp hcon with ⟨h1, -⟩
      exact hne1 h1
    · intro m hm
      rcases List.mem_append.mp hm with hm1 | hm2
      · obtain ⟨hWFm, hle, -⟩ := hall1 m hm1
        exact ⟨n, by simp, hWFm, hle⟩
      · obtain ⟨n2, hn2, hx⟩ := hall2 m hm2
        exact ⟨n2, by simp [hn2], hx⟩

/-- `subdivide_on_n_theta` on a block with a well-formed branch interval
never panics, yields one to four children differing from the block only in
`n_theta`, with well-formed intervals of strictly smaller weight when the
interval was subdivisible; a non-subdivisible interval returns the block
itself as the single (last-sibling) child. -/
theorem subdivide_on_n_theta_wf (b : ImageBlock) (h : NThetaWF b.n_theta) :
    ∃ cs, subdivide_on_n_theta b = some cs ∧ cs ≠ [] ∧ cs.length ≤ 4 ∧
      (∀ c ∈ cs, ∃ nn, c.1 = { b with n_theta := nn } ∧ NThetaWF nn ∧
        nW nn ≤ nW b.n_theta ∧
        (subN b.n_theta = true → nW nn < nW b.n_theta)) ∧
      (subN b.n_theta = false → cs = [(b, true)]) := by
  by_cases hs : subN b.n_theta = true
  · obtain ⟨l1, hb1, hne1, hlen1, hall1, -⟩ := bisect_wf h
    obtain ⟨l2, hb2, hlen2, hne2, hall2⟩ :=
      bisect_each_wf l1 (fun x hx => (hall1 x hx).1)
    refine ⟨markLast (l2.map fun n => ({ b with n_theta := n }, false)),
      ?_, ?_, ?_, ?_, fun hf => absurd hs (by rw [hf]; simp)⟩
    · unfold subdivide_on_n_theta
      rw [hb1]
      show (match bisect_each l1 with
        | none => none
        | some pieces => some (markLast (pieces.map fun n =>
            ({ b with n_theta := n }, false)))) = _
      rw [hb2]
    · intro hcon
      have hlc := congrArg List.length hcon
      rw [markLast_length, List.length_map] at hlc
      simp only [List.length_nil] at hlc
      exact (hne2 hne1) (List.length_eq_zero.mp hlc)
    · rw [markLast_length, List.length_map]
      omega
    · intro c hc
      have hmem := markLast_mem_fst hc
      rw [List.map_map] at hmem
      rcases List.mem_map.1 hmem with ⟨nn, hnn, hEq⟩
      obtain ⟨n1, hn1, hWFm, hle⟩ := hall2 nn hnn
      obtain ⟨-, hle1, hstrict⟩ := hall1 n1 hn1
      exact ⟨nn, hEq.symm, hWFm, le_trans hle hle1,
        fun _ => lt_of_le_of_lt hle (hstrict hs)⟩
  · have hs2 : subN b.n_theta = false := by
      cases hsb : subN b.n_theta
      · rfl
      · exact absurd hsb hs
    have hb1 := bisect_unb hs2
    have hbe : bisect_each [b.n_theta] = some [b.n_theta] := by
      unfold bisect_each
      rw [hb1]
      rfl
    have hcs : subdivide_on_n_theta b = some [(b, true)] := by
      unfold subdivide_on_n_theta
      rw [hb1]
      show (match bisect_each [b.n_theta] with
        | none => none
        | some pieces => some (markLast (pieces.map fun n =>
            ({ b with n_theta := n }, false)))) = _
      rw [hbe]
      rfl
    refine ⟨[(b, true)], hcs, by simp, by simp, ?_, fun _ => rfl⟩
    intro c hc
    simp only [List.mem_singleton] at hc
    subst hc
    exact ⟨b.n_theta, rfl, h, le_refl _, fun hts => absurd hts hs⟩

/-- `subdivide_on_xy` on a block at or above the level floor (with square
superpixels) never panics and yields one to four children, each with the
same branch interval, levels lowered by at most one (at least one axis
strictly), strictly smaller combined level weight, and square when still a
superpixel. -/
theorem subdivide_on_xy_wf (g : GraphEnv) (b : ImageBlock)
    (hsq : b.is_superpixel = true → b.kx = b.ky)
    (hkx : MIN_K ≤ b.kx) (hky : MIN_K ≤ b.ky) :
    ∃ cs, subdivide_on_xy g b = some cs ∧ cs ≠ [] ∧ cs.length ≤ 4 ∧
      ∀ c ∈ cs, c.1.n_theta = b.n_theta ∧
        b.kx - 1 ≤ c.1.kx ∧ c.1.kx ≤ b.kx ∧ b.ky - 1 ≤ c.1.ky ∧
        c.1.ky ≤ b.ky ∧ wx c.1 + wy c.1 < wx b + wy b ∧
        (c.1.is_superpixel = true → c.1.kx = c.1.ky) := by
  have hmk : MIN_K = -15 := rfl
  by_cases hsup : b.is_superpixel = true
  · have hxy := hsq hsup
    have hk0 : 0 < b.kx ∧ 0 < b.ky := by
      simp only [ImageBlock.is_superpixel, Bool.or_eq_true,
        decide_eq_true_eq] at hsup
      omega
    have hguard : ¬(b.kx - 1 < 0 ∨ b.ky - 1 < 0) := by omega
    have hP : ∀ x2 y2 : Nat,
        (ImageBlock.new x2 y2 (b.kx - 1) (b.ky - 1) b.n_theta).n_theta
            = b.n_theta ∧
          b.kx - 1 ≤ b.kx - 1 ∧ b.kx - 1 ≤ b.kx ∧ b.ky - 1 ≤ b.ky - 1 ∧
          b.ky - 1 ≤ b.ky ∧
          wx (ImageBlock.new x2 y2 (b.kx - 1) (b.ky - 1) b.n_theta)
              + wy (ImageBlock.new x2 y2 (b.kx - 1) (b.ky - 1) b.n_theta)
            < wx b + wy b ∧
          ((ImageBlock.new x2 y2 (b.kx - 1) (b.ky - 1) b.n_theta).is_superpixel
              = true →
            (ImageBlock.new x2 y2 (b.kx - 1) (b.ky - 1) b.n_theta).kx
              = (ImageBlock.new x2 y2 (b.kx - 1) (b.ky - 1) b.n_theta).ky) := by
      intro x2 y2
      refine ⟨rfl, le_refl _, by omega, le_refl _, by omega, ?_, fun _ => ?_⟩
      · simp only [wx, wy, ImageBlock.new, hmk] at *
        omega
      · simp only [ImageBlock.new]
        omega
    refine ⟨[(ImageBlock.new (2 * b.x) (2 * b.y) (b.kx - 1) (b.ky - 1)
          b.n_theta, true)]
        ++ (if (2 * b.y + 1) * (ImageBlock.new (2 * b.x) (2 * b.y)
              (b.kx - 1) (b.ky - 1) b.n_theta).height < g.im_height
            then [(ImageBlock.new (2 * b.x) (2 * b.y + 1) (b.kx - 1)
              (b.ky - 1) b.n_theta, true)] else [])
        ++ (if (2 * b.x + 1) * (ImageBlock.new (2 * b.x) (2 * b.y)
              (b.kx - 1) (b.ky - 1) b.n_theta).width < g.im_width
            then [(ImageBlock.new (2 * b.x + 1) (2 * b.y) (b.kx - 1)
              (b.ky - 1) b.n_theta, true)] else [])
        ++ (if (2 * b.x + 1) * (ImageBlock.new (2 * b.x) (2 * b.y)
              (b.kx - 1) (b.ky - 1) b.n_theta).width < g.im_width ∧
              (2 * b.y + 1) * (ImageBlock.new (2 * b.x) (2 * b.y)
              (b.kx - 1) (b.ky - 1) b.n_theta).height < g.im_height
            then [(ImageBlock.new (2 * b.x + 1) (2 * b.y + 1) (b.kx - 1)
              (b.ky - 1) b.n_theta, true)] else []),
      ?_, ?_, ?_, ?_⟩
    · simp only [subdivide_on_xy]
      rw [if_pos hsup, if_neg hguard]
    · simp
    · simp only [List.length_append, List.length_singleton]
      split_ifs <;> simp
    · intro c hc
      rcases List.mem_append.mp hc with hc | hc4
      · rcases List.mem_append.mp hc with hc | hc3
        · rcases List.mem_append.mp hc with hc1 | hc2
          · rw [List.mem_singleton] at hc1
            subst hc1
            exact hP _ _
          · split at hc2
            · rw [List.mem_singleton] at hc2
              subst hc2
              exact hP _ _
            · simp at hc2
        · split at hc3
          · rw [List.mem_singleton] at hc3
            subst hc3
            exact hP _ _
          · simp at hc3
      · split at hc4
        · rw [List.mem_singleton] at hc4
          subst hc4
          exact hP _ _
        · simp at hc4
  · have hsup2 : b.is_superpixel = false := by
      cases hsb : b.is_superpixel
      · rfl
      · exact absurd hsb hsup
    have hk0 : b.kx ≤ 0 ∧ b.ky ≤ 0 := by
      simp only [ImageBlock.is_superpixel, Bool.or_eq_true,
        decide_eq_true_eq] at hsup
      omega
    have hPx : ∀ x2 y2 : Nat,
        (ImageBlock.new x2 y2 (b.kx - 1) b.ky b.n_theta).n_theta
            = b.n_theta ∧
          b.kx - 1 ≤ b.kx - 1 ∧ b.kx - 1 ≤ b.kx ∧ b.ky - 1 ≤ b.ky ∧
          b.ky ≤ b.ky ∧
          wx (ImageBlock.new x2 y2 (b.kx - 1) b.ky b.n_theta)
              + wy (ImageBlock.new x2 y2 (b.kx - 1) b.ky b.n_theta)
            < wx b + wy b ∧
          ((ImageBlock.new x2 y2 (b.kx - 1) b.ky b.n_theta).is_superpixel
              = true →
            (ImageBlock.new x2 y2 (b.kx - 1) b.ky b.n_theta).kx
              = (ImageBlock.new x2 y2 (b.kx - 1) b.ky b.n_theta).ky) := by
      intro x2 y2
      refine ⟨rfl, le_refl _, by omega, by omega, le_refl _, ?_, fun hcon => ?_⟩
      · simp only [wx, wy, ImageBlock.new, hmk] at *
        omega
      · simp only [ImageBlock.is_superpixel, ImageBlock.new, Bool.or_eq_true,
          decide_eq_true_eq] at hcon
        omega
    have hPy : ∀ x2 y2 : Nat,
        (ImageBlock.new x2 y2 b.kx (b.ky - 1) b.n_theta).n_theta
            = b.n_theta ∧
          b.kx - 1 ≤ b.kx ∧ b.kx ≤ b.kx ∧ b.ky - 1 ≤ b.ky - 1 ∧
          b.ky - 1 ≤ b.ky ∧
          wx (ImageBlock.new x2 y2 b.kx (b.ky - 1) b.n_theta)
              + wy (ImageBlock.new x2 y2 b.kx (b.ky - 1) b.n_theta)
            < wx b + wy b ∧
          ((ImageBlock.new x2 y2 b.kx (b.ky - 1) b.n_theta).is_superpixel
              = true →
            (ImageBlock.new x2 y2 b.kx (b.ky - 1) b.n_theta).kx
              = (ImageBlock.new x2 y2 b.kx (b.ky - 1) b.n_theta).ky) := by
      intro x2 y2
      refine ⟨rfl, by omega, le_refl _, le_refl _, by omega, ?_, fun hcon => ?_⟩
      · simp only [wx, wy, ImageBlock.new, hmk] at *
        omega
      · simp only [ImageBlock.is_superpixel, ImageBlock.new, Bool.or_eq_true,
          decide_eq_true_eq] at hcon
        omega
    have hPxy : ∀ x2 y2 : Nat,
        (ImageBlock.new x2 y2 (b.kx - 1) (b.ky - 1) b.n_theta).n_theta
            = b.n_theta ∧
          b.kx - 1 ≤ b.kx - 1 ∧ b.kx - 1 ≤ b.kx ∧ b.ky - 1 ≤ b.ky - 1 ∧
          b.ky - 1 ≤ b.ky ∧
          wx (ImageBlock.new x2 y2 (b.kx - 1) (b.ky - 1) b.n_theta)
              + wy (ImageBlock.new x2 y2 (b.kx - 1) (b.ky - 1) b.n_theta)
            < wx b + wy b ∧
          ((ImageBlock.new x2 y2 (b.kx - 1) (b.ky - 1)
                b.n_theta).is_superpixel = true →
            (ImageBlock.new x2 y2 (b.kx - 1) (b.ky - 1) b.n_theta).kx
              = (ImageBlock.new x2 y2 (b.kx - 1) (b.ky - 1) b.n_theta).ky) := by
      intro x2 y2
      refine ⟨rfl, le_refl _, by omega, le_refl _, by omega, ?_,
        fun hcon => ?_⟩
      · simp only [wx, wy, ImageBlock.new, hmk] at *
        omega
      · simp only [ImageBlock.is_superpixel, ImageBlock.new, Bool.or_eq_true,
          decide_eq_true_eq] at hcon
        omega
    cases hrel : g.relation_type
    · refine ⟨[(ImageBlock.new (2 * b.x) (2 * b.y) (b.kx - 1) (b.ky - 1)
            b.n_theta, false),
          (ImageBlock.new (2 * b.x + 1) (2 * b.y) (b.kx - 1) (b.ky - 1)
            b.n_theta, false),
          (ImageBlock.new (2 * b.x) (2 * b.y + 1) (b.kx - 1) (b.ky - 1)
            b.n_theta, false),
          (ImageBlock.new (2 * b.x + 1) (2 * b.y + 1) (b.kx - 1) (b.ky - 1)
            b.n_theta, true)], ?_, by simp, by simp, ?_⟩
      · simp only [subdivide_on_xy]
        rw [if_neg (by simp [hsup2]), hrel]
      · intro c hc
        simp only [List.mem_cons, List.not_mem_nil, or_false] at hc
        rcases hc with rfl | rfl | rfl | rfl
        · exact hPxy _ _
        · exact hPxy _ _
        · exact hPxy _ _
        · exact hPxy _ _
    · refine ⟨[(ImageBlock.new (2 * b.x) b.y (b.kx - 1) b.ky
            b.n_theta, false),
          (ImageBlock.new (2 * b.x + 1) b.y (b.kx - 1) b.ky
            b.n_theta, true)], ?_, by simp, by simp, ?_⟩
      · simp only [subdivide_on_xy]
        rw [if_neg (by simp [hsup2]), hrel]
      · intro c hc
        simp only [List.mem_cons, List.not_mem_nil, or_false] at hc
        rcases hc with rfl | rfl
        · exact hPx _ _
        · exact hPx _ _
    · refine ⟨[(ImageBlock.new b.x (2 * b.y) b.kx (b.ky - 1)
            b.n_theta, false),
          (ImageBlock.new b.x (2 * b.y + 1) b.kx (b.ky - 1)
            b.n_theta, true)], ?_, by simp, by simp, ?_⟩
      · simp only [subdivide_on_xy]
        rw [if_neg (by simp [hsup2]), hrel]
      · intro c hc
        simp only [List.mem_cons, List.not_mem_nil, or_false] at hc
        rcases hc with rfl | rfl
        · exact hPy _ _
        · exact hPy _ _
    · refine ⟨[(ImageBlock.new (2 * b.x) (2 * b.y) (b.kx - 1) (b.ky - 1)
            b.n_theta, false),
          (ImageBlock.new (2 * b.x + 1) (2 * b.y) (b.kx - 1) (b.ky - 1)
            b.n_theta, false),
          (ImageBlock.new (2 * b.x) (2 * b.y + 1) (b.kx - 1) (b.ky - 1)
            b.n_theta, false),
          (ImageBlock.new (2 * b.x + 1) (2 * b.y + 1) (b.kx - 1) (b.ky - 1)
            b.n_theta, true)], ?_, by simp, by simp, ?_⟩
      · simp only [subdivide_on_xy]
        rw [if_neg (by simp [hsup2]), hrel]
      · intro c hc
        simp only [List.mem_cons, List.not_mem_nil, or_false] at hc
        rcases hc with rfl | rfl | rfl | rfl
        · exact hPxy _ _
        · exact hPxy _ _
        · exact hPxy _ _
        · exact hPxy _ _
/-- A direction returned by `choose_next_dir` is subdivisible for the popped
block, and a non-polar relation is only ever subdivided on XY. -/
theorem choose_next_dir_ok {g : GraphEnv} {b : ImageBlock} {ni ns : Nat}
    {d : SubdivisionDir} (h : choose_next_dir g b ni ns = Except.ok d) :
    (d = SubdivisionDir.XY → b.is_subdivisible_on_xy = true) ∧
    (d = SubdivisionDir.NTheta → b.is_subdivisible_on_n_theta = true) ∧
    (g.relation_type ≠ RelationType.Polar → d = SubdivisionDir.XY) := by
  obtain ⟨w, ht, rt⟩ := g
  cases rt <;> cases hnd : b.next_dir <;>
    cases hxy : b.is_subdivisible_on_xy <;>
    cases hnt : b.is_subdivisible_on_n_theta <;>
    by_cases hq : 4 * ni ≤ ns <;>
    simp_all [choose_next_dir] <;>
    (try cases h) <;> simp_all

/-- An error from `choose_next_dir` is always the subdivision limit. -/
theorem choose_next_dir_err {g : GraphEnv} {b : ImageBlock} {ni ns : Nat}
    {e : GraphingError} (h : choose_next_dir g b ni ns = Except.error e) :
    e = ⟨GraphingErrorKind.ReachedSubdivisionLimit⟩ := by
  obtain ⟨w, ht, rt⟩ := g
  cases rt <;> cases hnd : b.next_dir <;>
    cases hxy : b.is_subdivisible_on_xy <;>
    cases hnt : b.is_subdivisible_on_n_theta <;>
    by_cases hq : 4 * ni ≤ ns <;>
    simp_all [choose_next_dir]

/-- The child-refinement loop either returns the incomplete children (a
selection of the input children whose future queue indices all fit in a
`u32`) or aborts with `BlockIndexOverflow`. -/
theorem collect_incomplete_spec (om : Nat → Bool) :
    ∀ (cs : List (ImageBlock × Bool)) (ec nb acc : Nat),
      (∃ l, collect_incomplete om ec nb acc cs = Except.ok l ∧
        l.length ≤ cs.length ∧
        (∀ c ∈ l, ∃ fl, (c, fl) ∈ cs) ∧
        (∀ i, i < l.length → nb + acc + i < 2 ^ 32)) ∨
      collect_incomplete om ec nb acc cs
        = Except.error ⟨GraphingErrorKind.BlockIndexOverflow⟩ := by
  intro cs
  induction cs with
  | nil =>
    intro ec nb acc
    exact Or.inl ⟨[], rfl, by simp, by simp, by simp⟩
  | cons c rest ih =>
    intro ec nb acc
    obtain ⟨cb, cf⟩ := c
    simp only [collect_incomplete]
    by_cases hom : om ec = true
    · rw [if_pos hom]
      rcases ih (ec + 1) nb acc with ⟨l, hl, hlen, hmem, hidx⟩ | herr
      · refine Or.inl ⟨l, hl, ?_, ?_, hidx⟩
        · simp only [List.length_cons]
          omega
        · intro x hx
          obtain ⟨fl, hfl⟩ := hmem x hx
          exact ⟨fl, by simp [hfl]⟩
      · exact Or.inr herr
    · rw [if_neg hom]
      by_cases hnb : nb + acc < 2 ^ 32
      · rw [if_pos hnb]
        rcases ih (ec + 1) nb (acc + 1) with ⟨l, hl, hlen, hmem, hidx⟩ | herr
        · rw [hl]
          refine Or.inl ⟨cb :: l, rfl, ?_, ?_, ?_⟩
          · simp only [List.length_cons]
            omega
          · intro x hx
            rcases List.mem_cons.mp hx with rfl | hx2
            · exact ⟨cf, by simp⟩
            · obtain ⟨fl, hfl⟩ := hmem x hx2
              exact ⟨fl, by simp [hfl]⟩
          · intro i hi
            cases i with
            | zero => simpa using hnb
            | succ i2 =>
              have := hidx i2 (by simp at hi; omega)
              omega
        · rw [herr]
          exact Or.inr rfl
      · rw [if_neg hnb]
        exact Or.inr rfl

/-- `enqueue` preserves the number of blocks. -/
theorem enqueue_length (d : SubdivisionDir) :
    ∀ (l : List ImageBlock) (nb : Nat), (enqueue nb d l).length = l.length := by
  intro l
  induction l with
  | nil => intro nb; rfl
  | cons c rest ih =>
    intro nb
    simp [enqueue, ih]

/-- Every entry of `enqueue nb d l` carries an index `nb + i` with
`i < l.length` and one of the blocks of `l` redirected to `d`. -/
theorem enqueue_mem (d : SubdivisionDir) :
    ∀ (l : List ImageBlock) (nb : Nat) (p : Nat × ImageBlock),
      p ∈ enqueue nb d l →
      (∃ i, i < l.length ∧ p.1 = nb + i) ∧
      ∃ c ∈ l, p.2 = { c with next_dir := d } := by
  intro l
  induction l with
  | nil =>
    intro nb p hp
    simp [enqueue] at hp
  | cons c rest ih =>
    intro nb p hp
    rcases List.mem_cons.mp hp with rfl | hp2
    · exact ⟨⟨0, by simp, by simp⟩, c, by simp, rfl⟩
    · obtain ⟨⟨i, hi, hpi⟩, cc, hcc, hpc⟩ := ih (nb + 1) p hp2
      exact ⟨⟨i + 1, by simp; omega, by omega⟩, cc, by simp [hcc], hpc⟩

/-- The weights of the re-queued blocks. -/
theorem enqueue_map_pow (d : SubdivisionDir) :
    ∀ (l : List ImageBlock) (nb : Nat),
      (enqueue nb d l).map (fun p => 5 ^ kappa p.2)
        = l.map (fun c => 5 ^ kappa { c with next_dir := d }) := by
  intro l
  induction l with
  | nil => intro nb; rfl
  | cons c rest ih =>
    intro nb
    simp [enqueue, ih]

/-- At most four powers of five with exponents below `K` sum to less than
`5 ^ K`. -/
theorem sum_pow_lt {L : List Nat} {K : Nat} (hlen : L.length ≤ 4)
    (hall : ∀ x ∈ L, x < K) :
    (L.map (fun x => 5 ^ x)).sum < 5 ^ K := by
  cases L with
  | nil =>
    simp only [List.map_nil, List.sum_nil]
    exact pow_pos (by norm_num) K
  | cons x rest =>
    have hK : 1 ≤ K := by
      have := hall x (by simp)
      omega
    have hsum : ∀ M : List Nat, (∀ y ∈ M, y < K) →
        (M.map (fun z => 5 ^ z)).sum ≤ M.length * 5 ^ (K - 1) := by
      intro M
      induction M with
      | nil => simp
      | cons z rest2 ih2 =>
        intro hM
        simp only [List.map_cons, List.sum_cons, List.length_cons]
        have h1 : 5 ^ z ≤ 5 ^ (K - 1) :=
          Nat.pow_le_pow_right (by norm_num) (by have := hM z (by simp); omega)
        have h2 := ih2 (fun y hy => hM y (by simp [hy]))
        have h3 : (rest2.length + 1) * 5 ^ (K - 1)
            = rest2.length * 5 ^ (K - 1) + 5 ^ (K - 1) := by ring
        omega
    have h1 := hsum (x :: rest) hall
    have h3 : (x :: rest).length * 5 ^ (K - 1) ≤ 4 * 5 ^ (K - 1) :=
      Nat.mul_le_mul_right _ hlen
    have h5 : 5 ^ K = 5 * 5 ^ (K - 1) := by
      rw [← pow_succ']
      congr 1
      omega
    have hc : 0 < 5 ^ (K - 1) := pow_pos (by norm_num) _
    omega

/-- Unfolding one iteration of the loop on a nonempty queue whose popped
index passes the `u32` check. -/
theorem step_cons (g : GraphEnv) (om : Nat → Bool) (bi : Nat) (b : ImageBlock)
    (rest : List (Nat × ImageBlock)) (nb ec : Nat)
    (cs : List (ImageBlock × Bool))
    (hcs : (match b.next_dir with
      | SubdivisionDir.NTheta => subdivide_on_n_theta b
      | SubdivisionDir.XY => subdivide_on_xy g b) = some cs)
    (hbi : ¬(cs.length ≠ 0 ∧ 2 ^ 32 ≤ bi)) :
    step g om ⟨(bi, b) :: rest, nb, ec⟩
      = (match collect_incomplete om ec nb 0 cs with
        | Except.error e => some (StepOut.done (Except.error e))
        | Except.ok l =>
          match choose_next_dir g b l.length cs.length with
          | Except.error e => some (StepOut.done (Except.error e))
          | Except.ok d =>
            some (StepOut.next
              ⟨rest ++ enqueue nb d l, nb + l.length, ec + cs.length⟩)) := by
  show (match (match b.next_dir with
      | SubdivisionDir.NTheta => subdivide_on_n_theta b
      | SubdivisionDir.XY => subdivide_on_xy g b) with
    | none => none
    | some cs2 =>
      if cs2.length ≠ 0 ∧ 2 ^ 32 ≤ bi then none
      else match collect_incomplete om ec nb 0 cs2 with
        | Except.error e => some (StepOut.done (Except.error e))
        | Except.ok l =>
          match choose_next_dir g b l.length cs2.length with
          | Except.error e => some (StepOut.done (Except.error e))
          | Except.ok d =>
            some (StepOut.next
              ⟨rest ++ enqueue nb d l, nb + l.length, ec + cs2.length⟩)) = _
  rw [hcs]
  show (if cs.length ≠ 0 ∧ 2 ^ 32 ≤ bi then none
      else match collect_incomplete om ec nb 0 cs with
        | Except.error e => some (StepOut.done (Except.error e))
        | Except.ok l =>
          match choose_next_dir g b l.length cs.length with
          | Except.error e => some (StepOut.done (Except.error e))
          | Except.ok d =>
            some (StepOut.next
              ⟨rest ++ enqueue nb d l, nb + l.length, ec + cs.length⟩)) = _
  rw [if_neg hbi]

/-- The children emitted for a popped well-formed block: subdivision never
panics, and once the children are redirected to any direction that
`choose_next_dir` could return for this block, each re-queued child has
strictly smaller rank and satisfies the data-model invariant. -/
theorem children_ok (g : GraphEnv) (b : ImageBlock)
    (hdir : b.next_dir = SubdivisionDir.XY → MIN_K ≤ b.kx ∧ MIN_K ≤ b.ky)
    (hsqr : b.is_superpixel = true → b.kx = b.ky)
    (hpolar : g.relation_type = RelationType.Polar → NThetaWF b.n_theta)
    (hnonpolar : g.relation_type ≠ RelationType.Polar →
      b.next_dir = SubdivisionDir.XY) :
    ∃ cs, (match b.next_dir with
        | SubdivisionDir.NTheta => subdivide_on_n_theta b
        | SubdivisionDir.XY => subdivide_on_xy g b) = some cs ∧
      cs ≠ [] ∧ cs.length ≤ 4 ∧
      ∀ c ∈ cs, ∀ d : SubdivisionDir,
        (d = SubdivisionDir.XY → b.is_subdivisible_on_xy = true) →
        (d = SubdivisionDir.NTheta → b.is_subdivisible_on_n_theta = true) →
        (g.relation_type ≠ RelationType.Polar → d = SubdivisionDir.XY) →
        kappa { c.1 with next_dir := d } < kappa b ∧
        BWF g { c.1 with next_dir := d } := by
  cases hnd : b.next_dir
  case XY =>
    obtain ⟨hkx, hky⟩ := hdir hnd
    obtain ⟨cs, hcs, hne, hlen, hall⟩ := subdivide_on_xy_wf g b hsqr hkx hky
    refine ⟨cs, hcs, hne, hlen, ?_⟩
    intro c hc d hdXY hdNT hdnp
    obtain ⟨hnth, hkx1, hkx2, hky1, hky2, hwlt, hsq2⟩ := hall c hc
    constructor
    · apply kappa_lt_of_W_lt
      show wx c.1 + wy c.1 + nW c.1.n_theta < wx b + wy b + nW b.n_theta
      rw [hnth]
      omega
    · refine ⟨fun hdx => ?_, fun hsup3 => ?_, fun hpol2 => ?_,
        fun hnpol2 => hdnp hnpol2⟩
      · have hxy := hdXY hdx
        have hlt : MIN_K < b.kx ∧ MIN_K < b.ky := by
          simp only [ImageBlock.is_subdivisible_on_xy, Bool.and_eq_true,
            decide_eq_true_eq] at hxy
          exact hxy
        exact ⟨show MIN_K ≤ c.1.kx by omega, show MIN_K ≤ c.1.ky by omega⟩
      · have hs3 : c.1.is_superpixel = true := hsup3
        exact hsq2 hs3
      · show NThetaWF c.1.n_theta
        rw [hnth]
        exact hpolar hpol2
  case NTheta =>
    have hpol : g.relation_type = RelationType.Polar := by
      by_contra hcon
      have h2 := hnonpolar hcon
      rw [hnd] at h2
      exact SubdivisionDir.noConfusion h2
    have hwfn := hpolar hpol
    obtain ⟨cs, hcs, hne, hlen, hall, hunb⟩ := subdivide_on_n_theta_wf b hwfn
    refine ⟨cs, hcs, hne, hlen, ?_⟩
    intro c hc d hdXY hdNT hdnp
    obtain ⟨nn, hc1, hWFnn, hle, hstrict⟩ := hall c hc
    by_cases hsN : subN b.n_theta = true
    · constructor
      · apply kappa_lt_of_W_lt
        show wx c.1 + wy c.1 + nW c.1.n_theta < wx b + wy b + nW b.n_theta
        rw [hc1]
        show wx b + wy b + nW nn < wx b + wy b + nW b.n_theta
        have := hstrict hsN
        omega
      · refine ⟨fun hdx => ?_, fun hsup3 => ?_, fun _ => ?_,
          fun hnpol2 => hdnp hnpol2⟩
        · have hxy := hdXY hdx
          have hlt : MIN_K < b.kx ∧ MIN_K < b.ky := by
            simp only [ImageBlock.is_subdivisible_on_xy, Bool.and_eq_true,
              decide_eq_true_eq] at hxy
            exact hxy
          constructor
          · show MIN_K ≤ c.1.kx
            rw [hc1]
            show MIN_K ≤ b.kx
            omega
          · show MIN_K ≤ c.1.ky
            rw [hc1]
            show MIN_K ≤ b.ky
            omega
        · have hs3 : c.1.is_superpixel = true := hsup3
          rw [hc1] at hs3
          have hbsup : b.is_superpixel = true := hs3
          show c.1.kx = c.1.ky
          rw [hc1]
          show b.kx = b.ky
          exact hsqr hbsup
        · show NThetaWF c.1.n_theta
          rw [hc1]
          show NThetaWF nn
          exact hWFnn
    · have hsN2 : subN b.n_theta = false := by
        cases hsb : subN b.n_theta
        · rfl
        · exact absurd hsb hsN
      have hcs2 := hunb hsN2
      rw [hcs2] at hc
      rw [List.mem_singleton] at hc
      subst hc
      have hdXY2 : d = SubdivisionDir.XY := by
        cases d
        · rfl
        · have h2 := hdNT rfl
          rw [subN_eq] at h2
          rw [h2] at hsN2
          exact Bool.noConfusion hsN2
      subst hdXY2
      have hxy := hdXY rfl
      have hlt : MIN_K < b.kx ∧ MIN_K < b.ky := by
        simp only [ImageBlock.is_subdivisible_on_xy, Bool.and_eq_true,
          decide_eq_true_eq] at hxy
        exact hxy
      constructor
      · have hpenb : pen b = 1 := by
          unfold pen
          rw [if_neg, if_pos]
          · exact ⟨hnd, by rw [subN_eq]; exact hsN2⟩
          · rintro ⟨hcon, -⟩
            rw [hnd] at hcon
            exact SubdivisionDir.noConfusion hcon
        have hC1 : ¬(({ b with next_dir := SubdivisionDir.XY }
              : ImageBlock).next_dir = SubdivisionDir.XY ∧
            ({ b with next_dir := SubdivisionDir.XY }
              : ImageBlock).is_subdivisible_on_xy = false) := by
          rintro ⟨-, hcon⟩
          have hxy2 : ({ b with next_dir := SubdivisionDir.XY }
              : ImageBlock).is_subdivisible_on_xy = true := hxy
          rw [hxy2] at hcon
          exact Bool.noConfusion hcon
        have hC2 : ¬(({ b with next_dir := SubdivisionDir.XY }
              : ImageBlock).next_dir = SubdivisionDir.NTheta ∧
            ({ b with next_dir := SubdivisionDir.XY }
              : ImageBlock).is_subdivisible_on_n_theta = false) := by
          rintro ⟨hcon, -⟩
          exact SubdivisionDir.noConfusion hcon
        have hpenc : pen { b with next_dir := SubdivisionDir.XY } = 0 := by
          unfold pen
          rw [if_neg hC1, if_neg hC2]
        show kappa { b with next_dir := SubdivisionDir.XY } < kappa b
        unfold kappa
        rw [hpenc, hpenb]
        rw [show wx { b with next_dir := SubdivisionDir.XY } = wx b from rfl,
          show wy { b with next_dir := SubdivisionDir.XY } = wy b from rfl,
          show nW ({ b with next_dir := SubdivisionDir.XY }
            : ImageBlock).n_theta = nW b.n_theta from rfl]
        omega
      · refine ⟨fun _ => ?_, fun hsup3 => ?_, fun _ => ?_, fun _ => rfl⟩
        · exact ⟨show MIN_K ≤ b.kx by omega, show MIN_K ≤ b.ky by omega⟩
        · have hbs : b.is_superpixel = true := hsup3
          show b.kx = b.ky
          exact hsqr hbs
        · show NThetaWF b.n_theta
          exact hwfn

/-- One loop iteration from a well-formed state with a nonempty queue either
returns `ReachedSubdivisionLimit` or `BlockIndexOverflow`, or continues in a
well-formed state of strictly smaller measure. -/
theorem step_spec (g : GraphEnv) (om : Nat → Bool) (bi : Nat) (b : ImageBlock)
    (rest : List (Nat × ImageBlock)) (nb ec : Nat)
    (hwf : LoopWF g ⟨(bi, b) :: rest, nb, ec⟩) :
    (∃ k, step g om ⟨(bi, b) :: rest, nb, ec⟩
        = some (StepOut.done (Except.error ⟨k⟩)) ∧
      (k = GraphingErrorKind.ReachedSubdivisionLimit ∨
       k = GraphingErrorKind.BlockIndexOverflow)) ∨
    (∃ s2, step g om ⟨(bi, b) :: rest, nb, ec⟩ = some (StepOut.next s2) ∧
      LoopWF g s2 ∧ mu s2 < mu ⟨(bi, b) :: rest, nb, ec⟩) := by
  obtain ⟨hbi, hdir, hsqr, hpolar, hnonpolar⟩ :=
    hwf (bi, b) (List.mem_cons_self _ _)
  obtain ⟨cs, hcs, hcne, hclen, hchild⟩ :=
    children_ok g b hdir hsqr hpolar hnonpolar
  have hguard : ¬(cs.length ≠ 0 ∧ 2 ^ 32 ≤ bi) := by
    rintro ⟨-, hcon⟩
    omega
  have hstep := step_cons g om bi b rest nb ec cs hcs hguard
  rcases collect_incomplete_spec om cs ec nb 0 with
    ⟨l, hcol, hllen, hlmem, hlidx⟩ | herr
  · rw [hcol] at hstep
    have hstep2 : step g om ⟨(bi, b) :: rest, nb, ec⟩
        = (match choose_next_dir g b l.length cs.length with
          | Except.error e => some (StepOut.done (Except.error e))
          | Except.ok d =>
            some (StepOut.next
              ⟨rest ++ enqueue nb d l, nb + l.length, ec + cs.length⟩)) :=
      hstep
    cases hchoose : choose_next_dir g b l.length cs.length with
    | error e =>
      rw [hchoose] at hstep2
      left
      have he := choose_next_dir_err hchoose
      refine ⟨GraphingErrorKind.ReachedSubdivisionLimit, ?_, Or.inl rfl⟩
      rw [hstep2, he]
    | ok d =>
      rw [hchoose] at hstep2
      right
      obtain ⟨hokXY, hokNT, hoknp⟩ := choose_next_dir_ok hchoose
      refine ⟨_, hstep2, ?_, ?_⟩
      · intro p hp
        rcases List.mem_append.mp hp with hp1 | hp2
        · exact hwf p (List.mem_cons_of_mem _ hp1)
        · obtain ⟨⟨i, hi, hpi⟩, c, hcl, hpc⟩ := enqueue_mem d l nb p hp2
          constructor
          · rw [hpi]
            have := hlidx i hi
            omega
          · obtain ⟨fl, hfl⟩ := hlmem c hcl
            have hB := (hchild (c, fl) hfl d hokXY hokNT hoknp).2
            rw [hpc]
            exact hB
      · have hmu2 : mu ⟨rest ++ enqueue nb d l, nb + l.length, ec + cs.length⟩
            = (rest.map fun p => 5 ^ kappa p.2).sum
              + ((enqueue nb d l).map fun p => 5 ^ kappa p.2).sum := by
          show ((rest ++ enqueue nb d l).map fun p => 5 ^ kappa p.2).sum = _
          rw [List.map_append, List.sum_append]
        have hmu1 : mu ⟨(bi, b) :: rest, nb, ec⟩
            = 5 ^ kappa b + (rest.map fun p => 5 ^ kappa p.2).sum := by
          show (((bi, b) :: rest).map fun p => 5 ^ kappa p.2).sum = _
          rw [List.map_cons, List.sum_cons]
        rw [hmu2, hmu1]
        have henq : ((enqueue nb d l).map fun p => 5 ^ kappa p.2).sum
            < 5 ^ kappa b := by
          rw [enqueue_map_pow]
          rw [show (l.map fun c => 5 ^ kappa { c with next_dir := d })
              = (l.map fun c => kappa { c with next_dir := d }).map
                (fun x => 5 ^ x) from by rw [List.map_map]; rfl]
          apply sum_pow_lt
          · rw [List.length_map]
            omega
          · intro x hx
            rcases List.mem_map.mp hx with ⟨c, hcl, rfl⟩
            obtain ⟨fl, hfl⟩ := hlmem c hcl
            exact (hchild (c, fl) hfl d hokXY hokNT hoknp).1
        omega
  · rw [herr] at hstep
    left
    exact ⟨GraphingErrorKind.BlockIndexOverflow, hstep, Or.inr rfl⟩

/-- With fuel exceeding the measure, the loop reaches a result, and the
result is `Ok(true)` or one of the two error kinds. -/
theorem run_loop_spec (g : GraphEnv) (om : Nat → Bool) :
    ∀ (fuel : Nat) (s : LoopState), LoopWF g s → mu s < fuel →
      ∃ r, run_loop g om fuel s = RunResult.res r ∧
        (r = Except.ok true ∨
         r = Except.error ⟨GraphingErrorKind.ReachedSubdivisionLimit⟩ ∨
         r = Except.error ⟨GraphingErrorKind.BlockIndexOverflow⟩) := by
  intro fuel
  induction fuel with
  | zero =>
    intro s _ hcon
    omega
  | succ fuel ih =>
    intro s hwf hmu
    obtain ⟨qu, nb, ec⟩ := s
    cases qu with
    | nil => exact ⟨Except.ok true, rfl, Or.inl rfl⟩
    | cons p rest =>
      obtain ⟨bi, b⟩ := p
      rcases step_spec g om bi b rest nb ec hwf with
        ⟨k, hstep, hk⟩ | ⟨s2, hstep, hwf2, hmu2⟩
      · refine ⟨Except.error ⟨k⟩, ?_, ?_⟩
        · show (match step g om ⟨(bi, b) :: rest, nb, ec⟩ with
            | none => RunResult.panic
            | some (StepOut.done r) => RunResult.res r
            | some (StepOut.next s3) => run_loop g om fuel s3) = _
          rw [hstep]
        · rcases hk with rfl | rfl
          · exact Or.inr (Or.inl rfl)
          · exact Or.inr (Or.inr rfl)
      · obtain ⟨r, hr, hrk⟩ := ih s2 hwf2 (by omega)
        refine ⟨r, ?_, hrk⟩
        show (match step g om ⟨(bi, b) :: rest, nb, ec⟩ with
          | none => RunResult.panic
          | some (StepOut.done r2) => RunResult.res r2
          | some (StepOut.next s3) => run_loop g om fuel s3) = _
        rw [hstep]
        exact hr

/-- C2 (amended).  From every loop state satisfying the data-model
invariant (in particular from the seed states of `Graph::new`) and for
every completeness oracle, the main loop of `refine_impl` — with the
timeout and the memory check elided, as the claim assumes both limits
sufficiently large — terminates within `mu s + 1` iterations without
panicking, returning `Ok(true)`, `Err(ReachedSubdivisionLimit)`, or
`Err(BlockIndexOverflow)`: each chain of XY subdivisions is bounded by the
level floor and each chain of `n_theta` bisections reaches a singleton or
a non-subdivisible interval, but overflow of the `u32` queued-block index
is a third possible outcome beyond the two the claim allows. -/
theorem refine_impl_terminates (g : GraphEnv) (om : Nat → Bool)
    (s : LoopState) (hwf : LoopWF g s) :
    ∃ r, run_loop g om (mu s + 1) s = RunResult.res r ∧
      (r = Except.ok true ∨
       r = Except.error ⟨GraphingErrorKind.ReachedSubdivisionLimit⟩ ∨
       r = Except.error ⟨GraphingErrorKind.BlockIndexOverflow⟩) :=
  run_loop_spec g om (mu s + 1) s hwf (Nat.lt_succ_self _)

/-- C2 (counterexample to the claim as stated): on a well-formed loop state
whose queue bookkeeping has reached `2^32` blocks, one iteration returns
`Err(BlockIndexOverflow)` — neither `Ok(true)` nor
`Err(ReachedSubdivisionLimit)` — even though the timeout and the memory
limit are out of the picture entirely. -/
theorem refine_impl_counterexample :
    LoopWF ⟨4, 4, RelationType.Implicit⟩
      ⟨[(0, ⟨0, 0, 0, 0, XInt.entire, SubdivisionDir.XY⟩)], 2 ^ 32, 0⟩ ∧
    run_loop ⟨4, 4, RelationType.Implicit⟩ (fun _ => false) 1
        ⟨[(0, ⟨0, 0, 0, 0, XInt.entire, SubdivisionDir.XY⟩)], 2 ^ 32, 0⟩
      = RunResult.res
          (Except.error ⟨GraphingErrorKind.BlockIndexOverflow⟩) := by
  constructor
  · intro p hp
    simp only [List.mem_singleton] at hp
    subst hp
    exact ⟨by norm_num, fun _ => ⟨by decide, by decide⟩, fun _ => rfl,
      fun hpol => absurd hpol (by decide), fun _ => rfl⟩
  · rfl

/-- Witness for C2 at a concrete input: the polar pixel state with a
singleton branch interval and an always-complete oracle is well-formed, so
the loop reaches one of the three allowed results. -/
theorem refine_impl_terminates_witness :
    LoopWF ⟨1, 1, RelationType.Polar⟩
      ⟨[(0, ⟨0, 0, 0, 0, ⟨XF.fin 0, XF.fin 0⟩, SubdivisionDir.XY⟩)], 1, 0⟩ ∧
    ∃ r, run_loop ⟨1, 1, RelationType.Polar⟩ (fun _ => true)
        (mu ⟨[(0, ⟨0, 0, 0, 0, ⟨XF.fin 0, XF.fin 0⟩,
            SubdivisionDir.XY⟩)], 1, 0⟩ + 1)
        ⟨[(0, ⟨0, 0, 0, 0, ⟨XF.fin 0, XF.fin 0⟩, SubdivisionDir.XY⟩)], 1, 0⟩
      = RunResult.res r ∧
      (r = Except.ok true ∨
       r = Except.error ⟨GraphingErrorKind.ReachedSubdivisionLimit⟩ ∨
       r = Except.error ⟨GraphingErrorKind.BlockIndexOverflow⟩) := by
  have hwf : LoopWF ⟨1, 1, RelationType.Polar⟩
      ⟨[(0, ⟨0, 0, 0, 0, ⟨XF.fin 0, XF.fin 0⟩, SubdivisionDir.XY⟩)], 1, 0⟩ := by
    intro p hp
    simp only [List.mem_singleton] at hp
    subst hp
    exact ⟨by norm_num, fun _ => ⟨by decide, by decide⟩, fun _ => rfl,
      fun _ => Or.inl ⟨0, by norm_num⟩, fun hnp => absurd rfl hnp⟩
  exact ⟨hwf, refine_impl_terminates _ _ _ hwf⟩

/-! ### Subpixel outer regions, `InexactRegion::subpixel_outer` (C8) -/

/-- A closed interval with rational endpoints: the model of the inari
`Interval` bounds (`l`, `r`, `b`, `t`) of an `InexactRegion`.  All the
values compared by `subpixel_outer` arise from identical `f64`
computations on both sides, so the exact rational model is faithful. -/
structure QI where
  lo : ℚ
  hi : ℚ
deriving DecidableEq, Repr

/-- `Interval::mid()`, the midpoint (exact here; the `f64` midpoint of an
interval is the same value whenever the same interval is passed, which is
all that the covering argument compares). -/
def QI.mid (i : QI) : ℚ := (i.lo + i.hi) / 2

/-- `point_interval(p).mul_add(s, t)`: multiply a point interval by `s` and
add `t` (exact model of the directed-rounding product; for the reachable
inputs both are applied to identical expressions wherever two results are
compared). -/
def point_mul_add (p : ℚ) (s t : QI) : QI :=
  ⟨min (p * s.lo) (p * s.hi) + t.lo, max (p * s.lo) (p * s.hi) + t.hi⟩

/-- The left bound used by `subpixel_outer` for a subpixel block with
horizontal coordinate `x` at level `-m`: the exact lower endpoint of the
block region's `l` interval when `x & (pixel_align_x - 1) == 0` (the block
touches the left pixel boundary), else its midpoint.  The `l` interval of
the block region is `point_interval(x * 2^-m).mul_add(sx, tx)` as in
`block_to_region`. -/
def subpixel_outer_l (s t : QI) (m x : Nat) : ℚ :=
  if x &&& (2 ^ m - 1) = 0 then (point_mul_add ((x : ℚ) / 2 ^ m) s t).lo
  else (point_mul_add ((x : ℚ) / 2 ^ m) s t).mid

/-- The right bound used by `subpixel_outer`: the exact upper endpoint of
the block region's `r` interval when `(x + 1) & (pixel_align_x - 1) == 0`,
else its midpoint. -/
def subpixel_outer_r (s t : QI) (m x : Nat) : ℚ :=
  if (x + 1) &&& (2 ^ m - 1) = 0 then
    (point_mul_add (((x : ℚ) + 1) / 2 ^ m) s t).hi
  else (point_mul_add (((x : ℚ) + 1) / 2 ^ m) s t).mid

/-- On a nonnegative point and an ordered scale the product interval is the
pointwise one. -/
theorem point_mul_add_nonneg {p : ℚ} (hp : 0 ≤ p) (s t : QI)
    (hs : s.lo ≤ s.hi) :
    point_mul_add p s t = ⟨p * s.lo + t.lo, p * s.hi + t.hi⟩ := by
  unfold point_mul_add
  rw [min_eq_left (by nlinarith), max_eq_right (by nlinarith)]

/-- Chain covering: intervals `[L i, R i]` linked end to end cover
`[L 0, R (n-1)]`. -/
theorem chain_cover :
    ∀ (n : Nat) (L R : Nat → ℚ), 0 < n →
      (∀ i, i + 1 < n → R i = L (i + 1)) →
      ∀ p : ℚ, L 0 ≤ p → p ≤ R (n - 1) →
      ∃ i, i < n ∧ L i ≤ p ∧ p ≤ R i := by
  intro n
  induction n with
  | zero =>
    intro L R hcon
    omega
  | succ k ih =>
    intro L R _ hlink p hp1 hp2
    cases Nat.eq_zero_or_pos k with
    | inl hk0 =>
      subst hk0
      exact ⟨0, by omega, hp1, hp2⟩
    | inr hkpos =>
      by_cases hp0 : p ≤ R 0
      · exact ⟨0, by omega, hp1, hp0⟩
      · have hlink0 : R 0 = L 1 := hlink 0 (by omega)
        obtain ⟨i, hi, hL, hR⟩ := ih (fun i => L (i + 1)) (fun i => R (i + 1))
          hkpos (fun i hik => hlink (i + 1) (by omega)) p
          (by show L 1 ≤ p; rw [← hlink0]; linarith)
          (by
            show p ≤ R (k - 1 + 1)
            rw [show k - 1 + 1 = k from by omega]
            exact hp2)
        exact ⟨i + 1, by omega, hL, hR⟩

/-- One axis of the covering: the union of the `subpixel_outer` bounds of
the `2 ^ m` same-level blocks tiling pixel `X` horizontally is exactly the
outer bound of the pixel, `[l.inf, r.sup]` of the pixel region. -/
theorem subpixel_outer_covers_1d (s t : QI) (m X : Nat)
    (hs0 : 0 ≤ s.lo) (hs : s.lo ≤ s.hi) (ht : t.lo ≤ t.hi) (p : ℚ) :
    (∃ i, i < 2 ^ m ∧ subpixel_outer_l s t m (X * 2 ^ m + i) ≤ p ∧
        p ≤ subpixel_outer_r s t m (X * 2 ^ m + i)) ↔
      ((point_mul_add (X : ℚ) s t).lo ≤ p ∧
        p ≤ (point_mul_add ((X : ℚ) + 1) s t).hi) := by
  have h2 : (0 : ℚ) < 2 ^ m := by positivity
  have h2n : (0 : ℕ) < 2 ^ m := by positivity
  have h1n : (1 : ℕ) ≤ 2 ^ m := h2n
  have hbound : ∀ cc : ℚ, (X : ℚ) ≤ cc → cc ≤ (X : ℚ) + 1 →
      (point_mul_add (X : ℚ) s t).lo ≤ (point_mul_add cc s t).lo ∧
      (point_mul_add cc s t).lo ≤ (point_mul_add cc s t).hi ∧
      (point_mul_add cc s t).hi ≤ (point_mul_add ((X : ℚ) + 1) s t).hi := by
    intro cc h1 h2c
    have hX0 : (0 : ℚ) ≤ (X : ℚ) := Nat.cast_nonneg X
    have hcc0 : (0 : ℚ) ≤ cc := le_trans hX0 h1
    rw [point_mul_add_nonneg hX0 s t hs, point_mul_add_nonneg hcc0 s t hs,
      point_mul_add_nonneg (by linarith) s t hs]
    refine ⟨?_, ?_, ?_⟩
    · show (X : ℚ) * s.lo + t.lo ≤ cc * s.lo + t.lo
      nlinarith
    · show cc * s.lo + t.lo ≤ cc * s.hi + t.hi
      nlinarith
    · show cc * s.hi + t.hi ≤ ((X : ℚ) + 1) * s.hi + t.hi
      nlinarith
  have hcoord : ∀ i : Nat, ((X * 2 ^ m + i : ℕ) : ℚ) / 2 ^ m
      = (X : ℚ) + (i : ℚ) / 2 ^ m := by
    intro i
    push_cast
    field_simp
  constructor
  · rintro ⟨i, hi, hL, hR⟩
    have hcb1 : (X : ℚ) ≤ ((X * 2 ^ m + i : ℕ) : ℚ) / 2 ^ m := by
      rw [hcoord i]
      have hz : (0 : ℚ) ≤ (i : ℚ) / 2 ^ m := by positivity
      linarith
    have hcb2 : ((X * 2 ^ m + i : ℕ) : ℚ) / 2 ^ m ≤ (X : ℚ) + 1 := by
      rw [hcoord i]
      have hle : (i : ℚ) / 2 ^ m ≤ 1 := by
        rw [div_le_one h2]
        exact_mod_cast Nat.le_of_lt hi
      linarith
    obtain ⟨hb1, hb2, hb3⟩ := hbound _ hcb1 hcb2
    have hshift : ((X * 2 ^ m + i : ℕ) : ℚ) + 1
        = ((X * 2 ^ m + (i + 1) : ℕ) : ℚ) := by push_cast; ring
    have hcb1x : (X : ℚ) ≤ (((X * 2 ^ m + i : ℕ) : ℚ) + 1) / 2 ^ m := by
      rw [hshift, hcoord (i + 1)]
      have hz : (0 : ℚ) ≤ ((i + 1 : ℕ) : ℚ) / 2 ^ m := by positivity
      linarith
    have hcb2x : (((X * 2 ^ m + i : ℕ) : ℚ) + 1) / 2 ^ m ≤ (X : ℚ) + 1 := by
      rw [hshift, hcoord (i + 1)]
      have hle : ((i + 1 : ℕ) : ℚ) / 2 ^ m ≤ 1 := by
        rw [div_le_one h2]
        exact_mod_cast hi
      linarith
    obtain ⟨hb1x, hb2x, hb3x⟩ := hbound _ hcb1x hcb2x
    constructor
    · unfold subpixel_outer_l at hL
      split at hL
      · exact le_trans hb1 hL
      · refine le_trans ?_ hL
        unfold QI.mid
        linarith [hb1, hb2]
    · unfold subpixel_outer_r at hR
      split at hR
      · exact le_trans hR hb3x
      · refine le_trans hR ?_
        unfold QI.mid
        linarith [hb2x, hb3x]
  · rintro ⟨hp1, hp2⟩
    have hlink : ∀ i, i + 1 < 2 ^ m →
        subpixel_outer_r s t m (X * 2 ^ m + i)
          = subpixel_outer_l s t m (X * 2 ^ m + (i + 1)) := by
      intro i hik
      unfold subpixel_outer_r subpixel_outer_l
      rw [if_neg, if_neg]
      · rw [show ((X * 2 ^ m + i : ℕ) : ℚ) + 1
            = ((X * 2 ^ m + (i + 1) : ℕ) : ℚ) from by push_cast; ring]
      · rw [Nat.and_pow_two_sub_one_eq_mod,
          Nat.add_comm (X * 2 ^ m) (i + 1), Nat.add_mul_mod_self_right,
          Nat.mod_eq_of_lt hik]
        omega
      · rw [show X * 2 ^ m + i + 1 = (i + 1) + X * 2 ^ m from by omega,
          Nat.and_pow_two_sub_one_eq_mod, Nat.add_mul_mod_self_right,
          Nat.mod_eq_of_lt hik]
        omega
    have hstart : subpixel_outer_l s t m (X * 2 ^ m + 0) ≤ p := by
      unfold subpixel_outer_l
      rw [if_pos]
      · rw [show ((X * 2 ^ m + 0 : ℕ) : ℚ) / 2 ^ m = (X : ℚ) from by
          push_cast
          field_simp]
        exact hp1
      · rw [Nat.and_pow_two_sub_one_eq_mod,
          Nat.add_comm (X * 2 ^ m) 0, Nat.add_mul_mod_self_right,
          Nat.zero_mod]
    have hN : X * 2 ^ m + (2 ^ m - 1) + 1 = (X + 1) * 2 ^ m := by
      rw [Nat.add_assoc, Nat.sub_add_cancel h1n]
      ring
    have hend : p ≤ subpixel_outer_r s t m (X * 2 ^ m + (2 ^ m - 1)) := by
      unfold subpixel_outer_r
      rw [if_pos]
      · rw [show (((X * 2 ^ m + (2 ^ m - 1) : ℕ) : ℚ) + 1) / 2 ^ m
            = (X : ℚ) + 1 from by
          rw [show ((X * 2 ^ m + (2 ^ m - 1) : ℕ) : ℚ) + 1
              = (((X + 1) * 2 ^ m : ℕ) : ℚ) from by
            rw [← hN]
            push_cast
            ring]
          push_cast
          field_simp]
        exact hp2
      · rw [hN, Nat.and_pow_two_sub_one_eq_mod, Nat.mul_mod_left]
    obtain ⟨i, hi, hL, hR⟩ := chain_cover (2 ^ m)
      (fun i => subpixel_outer_l s t m (X * 2 ^ m + i))
      (fun i => subpixel_outer_r s t m (X * 2 ^ m + i)) h2n
      hlink p hstart hend
    exact ⟨i, hi, hL, hR⟩

/-- C8.  For every pixel `(X, Y)` and the grid of same-level subpixel
blocks at level `(-mx, -my)` that tile it, the `subpixel_outer` regions of
those blocks together exactly cover the outer region of the pixel: a block
side aligned to the pixel boundary uses the exact outer endpoint
(`l.inf()` / `r.sup()`), an interior side uses the midpoint of the
corresponding bound interval, and the bounds of adjacent blocks coincide,
so a point `(p, q)` lies in some block's `subpixel_outer` region exactly
when it lies in the pixel's outer region. -/
theorem subpixel_outer_tiling (sx tx sy ty : QI) (mx my X Y : Nat)
    (hsx0 : 0 ≤ sx.lo) (hsx : sx.lo ≤ sx.hi) (htx : tx.lo ≤ tx.hi)
    (hsy0 : 0 ≤ sy.lo) (hsy : sy.lo ≤ sy.hi) (hty : ty.lo ≤ ty.hi)
    (p q : ℚ) :
    (∃ i, i < 2 ^ mx ∧ ∃ j, j < 2 ^ my ∧
        subpixel_outer_l sx tx mx (X * 2 ^ mx + i) ≤ p ∧
        p ≤ subpixel_outer_r sx tx mx (X * 2 ^ mx + i) ∧
        subpixel_outer_l sy ty my (Y * 2 ^ my + j) ≤ q ∧
        q ≤ subpixel_outer_r sy ty my (Y * 2 ^ my + j)) ↔
      ((point_mul_add (X : ℚ) sx tx).lo ≤ p ∧
        p ≤ (point_mul_add ((X : ℚ) + 1) sx tx).hi ∧
        (point_mul_add (Y : ℚ) sy ty).lo ≤ q ∧
        q ≤ (point_mul_add ((Y : ℚ) + 1) sy ty).hi) := by
  constructor
  · rintro ⟨i, hi, j, hj, h1, h2, h3, h4⟩
    have hx := (subpixel_outer_covers_1d sx tx mx X hsx0 hsx htx p).mp
      ⟨i, hi, h1, h2⟩
    have hy := (subpixel_outer_covers_1d sy ty my Y hsy0 hsy hty q).mp
      ⟨j, hj, h3, h4⟩
    exact ⟨hx.1, hx.2, hy.1, hy.2⟩
  · rintro ⟨h1, h2, h3, h4⟩
    obtain ⟨i, hi, hxa, hxb⟩ :=
      (subpixel_outer_covers_1d sx tx mx X hsx0 hsx htx p).mpr ⟨h1, h2⟩
    obtain ⟨j, hj, hya, hyb⟩ :=
      (subpixel_outer_covers_1d sy ty my Y hsy0 hsy hty q).mpr ⟨h3, h4⟩
    exact ⟨i, hi, j, hj, hxa, hxb, hya, hyb⟩

/-- Witness for C8 at a concrete input: unit scales, zero offsets, level
`-1` blocks tiling pixel `(0, 0)`, and the point `(1/2, 1/2)`. -/
theorem subpixel_outer_tiling_witness :
    (∃ i, i < 2 ^ 1 ∧ ∃ j, j < 2 ^ 1 ∧
        subpixel_outer_l ⟨1, 1⟩ ⟨0, 0⟩ 1 (0 * 2 ^ 1 + i) ≤ (1 / 2 : ℚ) ∧
        (1 / 2 : ℚ) ≤ subpixel_outer_r ⟨1, 1⟩ ⟨0, 0⟩ 1 (0 * 2 ^ 1 + i) ∧
        subpixel_outer_l ⟨1, 1⟩ ⟨0, 0⟩ 1 (0 * 2 ^ 1 + j) ≤ (1 / 2 : ℚ) ∧
        (1 / 2 : ℚ) ≤ subpixel_outer_r ⟨1, 1⟩ ⟨0, 0⟩ 1 (0 * 2 ^ 1 + j)) ↔
      ((point_mul_add ((0 : ℕ) : ℚ) ⟨1, 1⟩ ⟨0, 0⟩).lo ≤ (1 / 2 : ℚ) ∧
        (1 / 2 : ℚ) ≤ (point_mul_add (((0 : ℕ) : ℚ) + 1) ⟨1, 1⟩ ⟨0, 0⟩).hi ∧
        (point_mul_add ((0 : ℕ) : ℚ) ⟨1, 1⟩ ⟨0, 0⟩).lo ≤ (1 / 2 : ℚ) ∧
        (1 / 2 : ℚ) ≤ (point_mul_add (((0 : ℕ) : ℚ) + 1) ⟨1, 1⟩ ⟨0, 0⟩).hi) :=
  subpixel_outer_tiling ⟨1, 1⟩ ⟨0, 0⟩ ⟨1, 1⟩ ⟨0, 0⟩ 1 1 0 0
    (by norm_num) (by norm_num) (by norm_num)
    (by norm_num) (by norm_num) (by norm_num) (1 / 2) (1 / 2)

/-! ### IVT sample points, `Graph::simple_eval_point` (C9) -/

/-- The exponent field of an `f64` bit pattern (bits 52-62). -/
def fE (p : Nat) : Nat := p / 2 ^ 52 % 2 ^ 11

/-- The significand field of an `f64` bit pattern (bits 0-51). -/
def fF (p : Nat) : Nat := p % 2 ^ 52

/-- The integer significand of a float: the raw field for subnormals, with
the implicit leading bit added for normals. -/
def sig (e f : Nat) : ℚ := if e = 0 then (f : ℚ) else 2 ^ 52 + f

/-- The binary scale of a float with exponent field `e`. -/
def scale (e : Nat) : ℚ := (2 : ℚ) ^ (((max e 1 : ℕ) : ℤ) - 1075)

/-- The magnitude of the `f64` with bit pattern `p` (the sign bit is
ignored by the field extractors). -/
def mag (p : Nat) : ℚ := sig (fE p) (fF p) * scale (fE p)

/-- The value of a finite `f64` from its bit pattern (`f64::from_bits`);
patterns with the sign bit set are negative. -/
def fval (p : Nat) : ℚ := if 2 ^ 63 ≤ p then -(mag p) else mag p

/-- `u64::leading_zeros` for a value below `2 ^ 64`. -/
def leadingZeros64 (x : Nat) : Nat :=
  if x = 0 then 64 else 63 - Nat.log2 x

/-- The inner `f` of `Graph::simple_eval_point`, at the bit level: find the
first bit at which the patterns of the two endpoints differ, mask off all
bits below it, and take the masked lower endpoint when the lower endpoint
is `<= 0.0`, the masked upper endpoint otherwise.  Returns the bit pattern
of the chosen point. -/
def simple_f (a b : Nat) : Nat :=
  let diff := a ^^^ b
  let n := leadingZeros64 diff
  if n = 64 then a
  else
    let mask := 2 ^ 64 - 2 ^ (64 - n - 1)
    if fval a ≤ 0 then a &&& mask else b &&& mask

/-- `Graph::simple_eval_point` on the region `[a_x, b_x] x [a_y, b_y]`
given by endpoint bit patterns. -/
def simple_eval_point (ax bx ay byy : Nat) : Nat × Nat :=
  (simple_f ax bx, simple_f ay byy)

/-- The five sample points of the IVT sampling step of `refine_subpixel`
(bit patterns): the simple point and the four corners of the region. -/
def ivt_sample_points (ax bx ay byy : Nat) : List (Nat × Nat) :=
  [simple_eval_point ax bx ay byy,
   (ax, ay), (bx, ay), (ax, byy), (bx, byy)]

/-- The scale is positive. -/
theorem scale_pos (e : Nat) : 0 < scale e := zpow_pos (by norm_num) _

/-- The significand is nonnegative. -/
theorem sig_nonneg (e f : Nat) : 0 ≤ sig e f := by
  unfold sig
  split_ifs
  · positivity
  · positivity

/-- The significand of an in-range field is below `2 ^ 53`. -/
theorem sig_lt (e f : Nat) (hf : f < 2 ^ 52) : sig e f < 2 ^ 53 := by
  have hq : (f : ℚ) < 2 ^ 52 := by exact_mod_cast hf
  unfold sig
  split_ifs
  · nlinarith
  · nlinarith

/-- A normal significand is at least `2 ^ 52`. -/
theorem sig_ge (e f : Nat) (he : e ≠ 0) : (2 : ℚ) ^ 52 ≤ sig e f := by
  unfold sig
  rw [if_neg he]
  have hf : (0 : ℚ) ≤ (f : ℚ) := by positivity
  linarith

/-- The magnitude is nonnegative. -/
theorem mag_nonneg (p : Nat) : 0 ≤ mag p :=
  mul_nonneg (sig_nonneg _ _) (le_of_lt (scale_pos _))

/-- Strict lexicographic order on the fields gives a strictly smaller
magnitude. -/
theorem sigscale_lt {e1 f1 e2 f2 : Nat} (hf1 : f1 < 2 ^ 52)
    (h : e1 < e2 ∨ (e1 = e2 ∧ f1 < f2)) :
    sig e1 f1 * scale e1 < sig e2 f2 * scale e2 := by
  rcases h with h | ⟨he, hf⟩
  · have he2 : 1 ≤ e2 := by omega
    have hs2 : scale e2 = (2 : ℚ) ^ ((e2 : ℤ) - 1075) := by
      unfold scale
      rw [Nat.max_eq_left he2]
    by_cases hee : e2 = 1
    · have he1 : e1 = 0 := by omega
      subst he1
      subst hee
      have hsc : scale 0 = scale 1 := rfl
      rw [hsc]
      apply mul_lt_mul_of_pos_right _ (scale_pos 1)
      calc sig 0 f1 = (f1 : ℚ) := by unfold sig; rw [if_pos rfl]
      _ < 2 ^ 52 := by exact_mod_cast hf1
      _ ≤ sig 1 f2 := sig_ge 1 f2 (by omega)
    · have hm1 : max e1 1 + 1 ≤ e2 := by omega
      calc sig e1 f1 * scale e1 < 2 ^ 53 * scale e1 :=
        mul_lt_mul_of_pos_right (sig_lt e1 f1 hf1) (scale_pos e1)
      _ ≤ 2 ^ 52 * scale e2 := by
        unfold scale
        rw [Nat.max_eq_left he2]
        rw [show ((2 : ℚ) ^ 53 : ℚ) = 2 ^ 52 * 2 from by norm_num]
        rw [mul_assoc]
        apply mul_le_mul_of_nonneg_left _ (by positivity)
        rw [show (2 : ℚ) * 2 ^ (((max e1 1 : ℕ) : ℤ) - 1075)
            = 2 ^ (((max e1 1 : ℕ) : ℤ) - 1075 + 1) from by
          rw [zpow_add_one₀ (by norm_num)]
          ring]
        apply zpow_le_zpow_right₀ (by norm_num)
        omega
      _ ≤ sig e2 f2 * scale e2 :=
        mul_le_mul_of_nonneg_right (sig_ge e2 f2 (by omega))
          (le_of_lt (scale_pos e2))
  · subst he
    apply mul_lt_mul_of_pos_right _ (scale_pos e1)
    unfold sig
    split_ifs
    · exact_mod_cast hf
    · have : (f1 : ℚ) < f2 := by exact_mod_cast hf
      linarith

/-- A strictly smaller pattern of the same sign has lexicographically
smaller fields. -/
theorem lex_lt_of_pattern_lt {p q : Nat} (h : p < q) (hq : q < 2 ^ 64)
    (hs : 2 ^ 63 ≤ p ∨ q < 2 ^ 63) :
    fE p < fE q ∨ (fE p = fE q ∧ fF p < fF q) := by
  unfold fE fF
  omega

/-- Patterns of the same sign with equal fields are equal. -/
theorem pattern_eq_of_fields {p q : Nat} (hp : p < 2 ^ 64) (hq : q < 2 ^ 64)
    (hsign : (2 ^ 63 ≤ p ↔ 2 ^ 63 ≤ q)) (he : fE p = fE q)
    (hf : fF p = fF q) : p = q := by
  unfold fE at he
  unfold fF at hf
  omega

/-- Lexicographically smaller fields give a smaller magnitude. -/
theorem mag_lt {p q : Nat}
    (h : fE p < fE q ∨ (fE p = fE q ∧ fF p < fF q)) : mag p < mag q :=
  sigscale_lt (Nat.mod_lt _ (by norm_num)) h

/-- Magnitude is monotone in the pattern within one sign half. -/
theorem mag_le_of_le {p q : Nat} (hpq : p ≤ q) (hq : q < 2 ^ 64)
    (hs : 2 ^ 63 ≤ p ∨ q < 2 ^ 63) : mag p ≤ mag q := by
  rcases Nat.eq_or_lt_of_le hpq with rfl | hlt
  · exact le_refl _
  · exact le_of_lt (mag_lt (lex_lt_of_pattern_lt hlt hq hs))

/-- The float value is monotone in the pattern on the nonnegative half. -/
theorem fval_mono {p q : Nat} (hpq : p ≤ q) (hq : q < 2 ^ 63) :
    fval p ≤ fval q := by
  unfold fval
  rw [if_neg (by omega), if_neg (by omega)]
  exact mag_le_of_le hpq (by omega) (Or.inr hq)

/-- The float value is antitone in the pattern on the negative half. -/
theorem fval_anti {p q : Nat} (hp : 2 ^ 63 ≤ p) (hpq : p ≤ q)
    (hq : q < 2 ^ 64) : fval q ≤ fval p := by
  unfold fval
  rw [if_pos (by omega), if_pos hp]
  exact neg_le_neg (mag_le_of_le hpq hq (Or.inl hp))

/-- Sign-0 patterns have nonnegative values. -/
theorem fval_nonneg {p : Nat} (hp : p < 2 ^ 63) : 0 ≤ fval p := by
  unfold fval
  rw [if_neg (by omega)]
  exact mag_nonneg p

/-- Sign-1 patterns have nonpositive values. -/
theorem fval_nonpos {p : Nat} (hp : 2 ^ 63 ≤ p) : fval p ≤ 0 := by
  unfold fval
  rw [if_pos hp]
  exact neg_nonpos.mpr (mag_nonneg p)

/-- A zero magnitude forces both fields to zero. -/
theorem mag_zero_eq {p : Nat} (h : mag p = 0) : fE p = 0 ∧ fF p = 0 := by
  unfold mag at h
  rcases mul_eq_zero.mp h with h1 | h1
  · unfold sig at h1
    split_ifs at h1 with he
    · refine ⟨he, ?_⟩
      exact_mod_cast h1
    · exfalso
      have h2 : (0 : ℚ) ≤ (fF p : ℚ) := by positivity
      nlinarith
  · exact absurd h1 (ne_of_gt (scale_pos _))

/-- Patterns of the same sign with equal values are equal. -/
theorem pattern_eq_of_fval_eq {p q : Nat} (hp : p < 2 ^ 64) (hq : q < 2 ^ 64)
    (hsign : (2 ^ 63 ≤ p ↔ 2 ^ 63 ≤ q)) (h : fval p = fval q) : p = q := by
  have hmag : mag p = mag q := by
    unfold fval at h
    by_cases h1 : 2 ^ 63 ≤ p
    · rw [if_pos h1, if_pos (hsign.mp h1)] at h
      linarith
    · rw [if_neg h1, if_neg (fun hc => h1 (hsign.mpr hc))] at h
      exact h
  by_contra hne
  rcases Nat.lt_or_ge p q with hlt | hge
  · have hss : 2 ^ 63 ≤ p ∨ q < 2 ^ 63 := by
      by_cases h2 : 2 ^ 63 ≤ p
      · exact Or.inl h2
      · right
        by_contra h3
        exact h2 (hsign.mpr (by omega))
    have := mag_lt (lex_lt_of_pattern_lt hlt hq hss)
    linarith
  · have hlt2 : q < p := by omega
    have hss : 2 ^ 63 ≤ q ∨ p < 2 ^ 63 := by
      by_cases h2 : 2 ^ 63 ≤ q
      · exact Or.inl h2
      · right
        by_contra h3
        exact h2 (hsign.mp (by omega))
    have := mag_lt (lex_lt_of_pattern_lt hlt2 hp hss)
    linarith

/-- Patterns whose xor is below `2 ^ (t + 1)` agree above bit `t`. -/
theorem div_eq_of_xor_lt {a b t : Nat} (h : a ^^^ b < 2 ^ (t + 1)) :
    a / 2 ^ (t + 1) = b / 2 ^ (t + 1) := by
  have hsh : a >>> (t + 1) = b >>> (t + 1) := by
    apply Nat.eq_of_testBit_eq
    intro i
    rw [Nat.testBit_shiftRight, Nat.testBit_shiftRight]
    have hx : (a ^^^ b).testBit (t + 1 + i) = false :=
      Nat.testBit_lt_two_pow (lt_of_lt_of_le h
        (Nat.pow_le_pow_right (by norm_num) (by omega)))
    rw [Nat.testBit_xor] at hx
    cases hta : a.testBit (t + 1 + i) <;> cases htb : b.testBit (t + 1 + i) <;>
      simp [hta, htb] at hx ⊢
  rw [Nat.shiftRight_eq_div_pow, Nat.shiftRight_eq_div_pow] at hsh
  exact hsh

/-- Patterns differ at their top differing bit. -/
theorem bit_ne_of_xor {a b t : Nat} (h1 : 2 ^ t ≤ a ^^^ b)
    (h2 : a ^^^ b < 2 ^ (t + 1)) : a / 2 ^ t % 2 ≠ b / 2 ^ t % 2 := by
  have hdiv : (a ^^^ b) / 2 ^ t = 1 := by
    apply Nat.div_eq_of_lt_le
    · simpa using h1
    · rw [show Nat.succ 1 * 2 ^ t = 2 ^ (t + 1) from by rw [pow_succ]; ring]
      exact h2
  have hbit : (a ^^^ b).testBit t = true := by
    rw [Nat.testBit_to_div_mod, hdiv]
    rfl
  rw [Nat.testBit_xor, Nat.testBit_to_div_mod, Nat.testBit_to_div_mod] at hbit
  intro heq
  rw [heq] at hbit
  simp at hbit

/-- Masking with the high mask `!0 << t` keeps the bits from `t` up:
arithmetically, it rounds down to a multiple of `2 ^ t`. -/
theorem and_high_mask {x t : Nat} (hx : x < 2 ^ 64) (ht : t ≤ 64) :
    x &&& (2 ^ 64 - 2 ^ t) = x / 2 ^ t * 2 ^ t := by
  have hmask : (2 : Nat) ^ 64 - 2 ^ t = (2 ^ (64 - t) - 1) * 2 ^ t := by
    rw [Nat.sub_mul, one_mul, ← pow_add]
    congr 2
    omega
  rw [hmask]
  apply Nat.eq_of_testBit_eq
  intro i
  rw [Nat.testBit_and]
  rw [show ((2 : ℕ) ^ (64 - t) - 1) * 2 ^ t = 2 ^ t * (2 ^ (64 - t) - 1) from
    Nat.mul_comm _ _]
  rw [Nat.testBit_mul_pow_two, Nat.testBit_two_pow_sub_one]
  rw [show x / 2 ^ t * 2 ^ t = 2 ^ t * (x >>> t) from by
    rw [Nat.shiftRight_eq_div_pow]
    ring]
  rw [Nat.testBit_mul_pow_two, Nat.testBit_shiftRight]
  by_cases hti : t ≤ i
  · rw [show t + (i - t) = i from by omega]
    by_cases hi64 : i < 64
    · simp [hti, show i - t < 64 - t from by omega]
    · have hxf : x.testBit i = false :=
        Nat.testBit_lt_two_pow (lt_of_lt_of_le hx
          (Nat.pow_le_pow_right (by norm_num) (by omega)))
      simp [hxf, hti]
  · simp [hti]

/-- The simple-bit point lies within the interval: masking the endpoint
pattern at the first differing bit produces a value between the two
endpoint values. -/
theorem simple_f_in {a b : Nat} (ha : a < 2 ^ 64) (hb : b < 2 ^ 64)
    (hab : fval a ≤ fval b) :
    fval a ≤ fval (simple_f a b) ∧ fval (simple_f a b) ≤ fval b := by
  by_cases hd : a ^^^ b = 0
  · have heq : a = b := Nat.xor_eq_zero.mp hd
    subst heq
    have hsf : simple_f a a = a := by
      simp [simple_f, leadingZeros64]
    rw [hsf]
    exact ⟨le_refl _, le_refl _⟩
  · obtain ⟨t, htdef⟩ : ∃ t, t = Nat.log2 (a ^^^ b) := ⟨_, rfl⟩
    have ht1 : 2 ^ t ≤ a ^^^ b := by
      rw [htdef]
      exact Nat.log2_self_le hd
    have ht2 : a ^^^ b < 2 ^ (t + 1) := by
      rw [htdef]
      exact Nat.lt_log2_self
    have hd64 : a ^^^ b < 2 ^ 64 := Nat.xor_lt_two_pow ha hb
    have ht63 : t ≤ 63 := by
      by_contra hc
      push_neg at hc
      have hcc : (2 : ℕ) ^ 64 ≤ 2 ^ t := Nat.pow_le_pow_right (by norm_num) hc
      omega
    have hn : leadingZeros64 (a ^^^ b) = 63 - t := by
      unfold leadingZeros64
      rw [if_neg hd, htdef]
    have hsf : simple_f a b
        = if fval a ≤ 0 then a &&& (2 ^ 64 - 2 ^ t)
          else b &&& (2 ^ 64 - 2 ^ t) := by
      simp only [simple_f]
      rw [hn, if_neg (by omega : ¬(63 - t = 64)),
        show 64 - (63 - t) - 1 = t from by omega]
    have hma : a &&& (2 ^ 64 - 2 ^ t) = a / 2 ^ t * 2 ^ t :=
      and_high_mask ha (by omega)
    have hmb : b &&& (2 ^ 64 - 2 ^ t) = b / 2 ^ t * 2 ^ t :=
      and_high_mask hb (by omega)
    have hhigh : a / 2 ^ (t + 1) = b / 2 ^ (t + 1) := div_eq_of_xor_lt ht2
    have hbitne : a / 2 ^ t % 2 ≠ b / 2 ^ t % 2 := bit_ne_of_xor ht1 ht2
    have hdiva : a / 2 ^ t = 2 * (a / 2 ^ (t + 1)) + a / 2 ^ t % 2 := by
      have h1 : a / 2 ^ (t + 1) = a / 2 ^ t / 2 := by
        rw [Nat.div_div_eq_div_mul, ← pow_succ]
      rw [h1]
      omega
    have hdivb : b / 2 ^ t = 2 * (b / 2 ^ (t + 1)) + b / 2 ^ t % 2 := by
      have h1 : b / 2 ^ (t + 1) = b / 2 ^ t / 2 := by
        rw [Nat.div_div_eq_div_mul, ← pow_succ]
      rw [h1]
      omega
    have habit : a / 2 ^ t % 2 = 0 ∧ b / 2 ^ t % 2 = 1 ∨
        a / 2 ^ t % 2 = 1 ∧ b / 2 ^ t % 2 = 0 := by omega
    have hasplit : a / 2 ^ t * 2 ^ t + a % 2 ^ t = a := by
      rw [Nat.mul_comm]
      exact Nat.div_add_mod a (2 ^ t)
    have hbsplit : b / 2 ^ t * 2 ^ t + b % 2 ^ t = b := by
      rw [Nat.mul_comm]
      exact Nat.div_add_mod b (2 ^ t)
    have hamod : a % 2 ^ t < 2 ^ t := Nat.mod_lt _ (by positivity)
    have hbmod : b % 2 ^ t < 2 ^ t := Nat.mod_lt _ (by positivity)
    have hMalea : a / 2 ^ t * 2 ^ t ≤ a := Nat.div_mul_le_self _ _
    have hMbleb : b / 2 ^ t * 2 ^ t ≤ b := Nat.div_mul_le_self _ _
    rcases habit with ⟨ha0, hb1⟩ | ⟨ha1, hb0⟩
    · -- the upper endpoint owns the differing bit: `a < masked b <= b`
      have hMa : a / 2 ^ t * 2 ^ t = a / 2 ^ (t + 1) * 2 ^ (t + 1) := by
        rw [hdiva, ha0, pow_succ]
        ring
      have hMb : b / 2 ^ t * 2 ^ t
          = a / 2 ^ (t + 1) * 2 ^ (t + 1) + 2 ^ t := by
        rw [hdivb, hb1, ← hhigh, pow_succ]
        ring
      have haltMb : a < b / 2 ^ t * 2 ^ t := by
        rw [hMb, ← hMa]
        omega
      have hltab : a < b := lt_of_lt_of_le haltMb hMbleb
      by_cases hs : fval a ≤ 0
      · rw [hsf, if_pos hs, hma]
        by_cases hsa : 2 ^ 63 ≤ a
        · exfalso
          have h1 := fval_anti hsa (le_of_lt hltab) hb
          have heqv : fval a = fval b := le_antisymm hab h1
          have := pattern_eq_of_fval_eq ha hb
            (by constructor <;> intro <;> omega) heqv
          omega
        · have hva0 : fval a = 0 := le_antisymm hs (fval_nonneg (by omega))
          have hmag0 : mag a = 0 := by
            unfold fval at hva0
            rw [if_neg (by omega)] at hva0
            exact hva0
          obtain ⟨he0, hf0⟩ := mag_zero_eq hmag0
          have haz : a = 0 := by
            unfold fE at he0
            unfold fF at hf0
            omega
          subst haz
          simp only [Nat.zero_div, Nat.zero_mul, zero_mul]
          exact ⟨le_refl _, hab⟩
      · rw [hsf, if_neg hs, hmb]
        have hsa : a < 2 ^ 63 := by
          by_contra hc
          push_neg at hc
          exact hs (fval_nonpos hc)
        have hsb : b < 2 ^ 63 := by
          by_contra hc
          push_neg at hc
          have h1 := fval_nonpos hc
          push_neg at hs
          linarith
        exact ⟨fval_mono (le_of_lt haltMb) (by omega),
          fval_mono hMbleb hsb⟩
    · -- the lower endpoint owns the differing bit: `b < masked a <= a`
      have hMb : b / 2 ^ t * 2 ^ t = a / 2 ^ (t + 1) * 2 ^ (t + 1) := by
        rw [hdivb, hb0, ← hhigh, pow_succ]
        ring
      have hMa : a / 2 ^ t * 2 ^ t
          = a / 2 ^ (t + 1) * 2 ^ (t + 1) + 2 ^ t := by
        rw [hdiva, ha1, pow_succ]
        ring
      have hbltMa : b < a / 2 ^ t * 2 ^ t := by
        rw [hMa, ← hMb]
        omega
      have hltba : b < a := lt_of_lt_of_le hbltMa hMalea
      by_cases hsa : 2 ^ 63 ≤ a
      · have hs : fval a ≤ 0 := fval_nonpos hsa
        rw [hsf, if_pos hs, hma]
        by_cases hsb : 2 ^ 63 ≤ b
        · constructor
          · exact fval_anti (by omega) hMalea ha
          · exact fval_anti hsb (le_of_lt hbltMa) (by omega)
        · -- signs differ, so the differing bit is the sign bit and the
          -- masked value is `-0.0`
          have ht63e : t = 63 := by
            by_contra hc
            have htlt : t + 1 ≤ 63 := by omega
            have hdd : a / 2 ^ 63 = b / 2 ^ 63 := by
              have h1 : a / 2 ^ 63 = a / 2 ^ (t + 1) / 2 ^ (63 - (t + 1)) := by
                rw [Nat.div_div_eq_div_mul, ← pow_add]
                congr 2
                omega
              have h2 : b / 2 ^ 63 = b / 2 ^ (t + 1) / 2 ^ (63 - (t + 1)) := by
                rw [Nat.div_div_eq_div_mul, ← pow_add]
                congr 2
                omega
              rw [h1, h2, hhigh]
            omega
          subst ht63e
          have hH0 : a / 2 ^ (63 + 1) = 0 := Nat.div_eq_of_lt (by omega)
          have hm63 : a / 2 ^ 63 * 2 ^ 63 = 2 ^ 63 := by
            rw [hMa, hH0]
            omega
          rw [hm63]
          have hv63 : fval (2 ^ 63) = 0 := by
            have hmag63 : mag (2 ^ 63) = 0 := by
              unfold mag sig
              rw [show fE (2 ^ 63) = 0 from by unfold fE; omega]
              rw [show fF (2 ^ 63) = 0 from by unfold fF; omega]
              simp
            unfold fval
            rw [if_pos (le_refl _), hmag63]
            norm_num
          rw [hv63]
          exact ⟨hs, fval_nonneg (by omega)⟩
      · exfalso
        have h1 := fval_mono (le_of_lt hltba) (by omega)
        have heqv : fval a = fval b := le_antisymm hab h1
        have := pattern_eq_of_fval_eq ha hb
          (by constructor <;> intro <;> omega) heqv
        omega

/-- C9.  The IVT sampling step of `refine_subpixel` uses exactly five
sample points — the simple-bit point and the four corners of the region
`I` — and every one of them lies inside `I` (given by finite endpoint bit
patterns bounding a nonempty interval on each axis).  The simple point is
computed per coordinate by masking off all bits below the first bit at
which the two endpoints' bit patterns differ, taking the lower endpoint's
pattern when the lower endpoint is `<= 0.0` and the upper endpoint's
pattern otherwise. -/
theorem ivt_sample_points_spec (ax bx ay byy : Nat)
    (hax : ax < 2 ^ 64) (hbx : bx < 2 ^ 64)
    (hay : ay < 2 ^ 64) (hby : byy < 2 ^ 64)
    (hx : fval ax ≤ fval bx) (hy : fval ay ≤ fval byy) :
    (ivt_sample_points ax bx ay byy).length = 5 ∧
    ∀ pt ∈ ivt_sample_points ax bx ay byy,
      fval ax ≤ fval pt.1 ∧ fval pt.1 ≤ fval bx ∧
      fval ay ≤ fval pt.2 ∧ fval pt.2 ≤ fval byy := by
  refine ⟨rfl, ?_⟩
  intro pt hpt
  simp only [ivt_sample_points, simple_eval_point, List.mem_cons,
    List.not_mem_nil, or_false] at hpt
  obtain ⟨hx1, hx2⟩ := simple_f_in hax hbx hx
  obtain ⟨hy1, hy2⟩ := simple_f_in hay hby hy
  rcases hpt with rfl | rfl | rfl | rfl | rfl
  · exact ⟨hx1, hx2, hy1, hy2⟩
  · exact ⟨le_refl _, hx, le_refl _, hy⟩
  · exact ⟨hx, le_refl _, le_refl _, hy⟩
  · exact ⟨le_refl _, hx, hy, le_refl _⟩
  · exact ⟨hx, le_refl _, hy, le_refl _⟩

/-- Witness for C9 at a concrete input: the region with x-endpoints `0.0`
and the smallest subnormal (patterns `0` and `1`) and the degenerate
y-interval `[0.0, 0.0]`. -/
theorem ivt_sample_points_spec_witness :
    (ivt_sample_points 0 1 0 0).length = 5 ∧
    ∀ pt ∈ ivt_sample_points 0 1 0 0,
      fval 0 ≤ fval pt.1 ∧ fval pt.1 ≤ fval 1 ∧
      fval 0 ≤ fval pt.2 ∧ fval pt.2 ≤ fval 0 := by
  have h01 : fval (0 : ℕ) ≤ fval 1 := by
    unfold fval
    rw [if_neg (by norm_num), if_neg (by norm_num)]
    have h0 : mag 0 = 0 := by
      unfold mag sig fE fF
      norm_num
    rw [h0]
    exact mag_nonneg 1
  exact ivt_sample_points_spec 0 1 0 0 (by norm_num) (by norm_num)
    (by norm_num) (by norm_num) h01 (le_refl _)

/-! ### The full refinement loop over queue and image (C10) -/

/-- Membership in the covered-pixel list, as coordinate bounds. -/
theorem mem_cov_pixels {im : Image} {b : ImageBlock} {p : PixelIndex} :
    p ∈ cov_pixels im b ↔
      b.pixel_index.x ≤ p.x ∧ p.x < min (b.pixel_index.x + b.width) im.width ∧
      b.pixel_index.y ≤ p.y ∧ p.y < min (b.pixel_index.y + b.height) im.height := by
  obtain ⟨pxv, pyv⟩ := p
  simp only [cov_pixels, List.mem_flatMap, List.mem_map, List.mem_range,
    PixelIndex.mk.injEq]
  constructor
  · rintro ⟨dy, hdy, dx, hdx, hx, hy⟩
    omega
  · rintro ⟨h1, h2, h3, h4⟩
    exact ⟨pyv - b.pixel_index.y, by omega, pxv - b.pixel_index.x,
      by omega, by omega, by omega⟩

/-- Covered pixels lie inside the image. -/
theorem cov_pixels_valid {im : Image} {b : ImageBlock} {p : PixelIndex}
    (h : p ∈ cov_pixels im b) : p.x < im.width ∧ p.y < im.height := by
  have h2 := mem_cov_pixels.1 h
  omega

/-- The covered-pixel list only depends on the image through its size. -/
theorem cov_pixels_congr {im im2 : Image} (hw : im2.width = im.width)
    (hh : im2.height = im.height) (b : ImageBlock) :
    cov_pixels im2 b = cov_pixels im b := by
  simp only [cov_pixels, hw, hh]

/-- The flattened index is injective on pixels inside the image width. -/
theorem index_inj {im : Image} {p q : PixelIndex} (hp : p.x < im.width)
    (hq : q.x < im.width) (h : im.index p = im.index q) : p = q := by
  obtain ⟨pxv, pyv⟩ := p
  obtain ⟨qxv, qyv⟩ := q
  have hp2 : pxv < im.width := hp
  have hq2 : qxv < im.width := hq
  simp only [Image.index] at h
  have hyy : pyv = qyv := by
    rcases Nat.lt_trichotomy pyv qyv with hlt | heq | hgt
    · exfalso
      have h2 : (pyv + 1) * im.width ≤ qyv * im.width :=
        Nat.mul_le_mul_right _ (Nat.succ_le_of_lt hlt)
      have h3 : pyv * im.width + im.width = (pyv + 1) * im.width := by ring
      omega
    · exact heq
    · exfalso
      have h2 : (qyv + 1) * im.width ≤ pyv * im.width :=
        Nat.mul_le_mul_right _ (Nat.succ_le_of_lt hgt)
      have h3 : qyv * im.width + im.width = (qyv + 1) * im.width := by ring
      omega
  subst hyy
  simp only [PixelIndex.mk.injEq, and_true]
  omega

/-- Distinct covered pixels of one block have distinct flattened indices
(the source loops visit each in-image pixel of the rectangle once). -/
theorem cov_pixels_index_pairwise (im : Image) (b : ImageBlock) :
    List.Pairwise (fun p q => im.index p ≠ im.index q) (cov_pixels im b) := by
  have hnd : (cov_pixels im b).Nodup := by
    simp only [cov_pixels]
    rw [List.nodup_flatMap]
    constructor
    · intro dy _
      refine List.Nodup.map ?_ (List.nodup_range _)
      intro a c hac
      simp only [PixelIndex.mk.injEq] at hac
      omega
    · refine List.Pairwise.imp ?_
        (List.nodup_range _ : List.Pairwise (fun a c => a ≠ c) _)
      intro a c hac
      rw [Function.onFun_apply, List.disjoint_left]
      intro q hq hq2
      simp only [List.mem_map, List.mem_range] at hq hq2
      obtain ⟨dx, _, hdx⟩ := hq
      obtain ⟨dx2, _, hdx2⟩ := hq2
      rw [← hdx2] at hdx
      simp only [PixelIndex.mk.injEq] at hdx
      omega
  refine List.Pairwise.imp_of_mem ?_ hnd
  intro p q hp hq hne hcon
  exact hne (index_inj (cov_pixels_valid hp).1 (cov_pixels_valid hq).1 hcon)

/-- A pixel or subpixel block covers exactly its containing pixel, when
that pixel lies inside the image (its width and height are one pixel). -/
theorem cov_nonsuper_mem {im : Image} {b : ImageBlock}
    (hns : b.is_superpixel = false) {p : PixelIndex} :
    p ∈ cov_pixels im b ↔
      p = b.pixel_index ∧ p.x < im.width ∧ p.y < im.height := by
  have hks : b.kx ≤ 0 ∧ b.ky ≤ 0 := by
    simp only [ImageBlock.is_superpixel, Bool.or_eq_false_iff,
      decide_eq_false_iff_not, not_lt] at hns
    exact hns
  have hw : b.width = 1 := by
    unfold ImageBlock.width
    rw [Int.toNat_of_nonpos hks.1, pow_zero]
  have hh : b.height = 1 := by
    unfold ImageBlock.height
    rw [Int.toNat_of_nonpos hks.2, pow_zero]
  rw [mem_cov_pixels, hw, hh]
  constructor
  · rintro ⟨h1, h2, h3, h4⟩
    have hx : p.x = b.pixel_index.x := by omega
    have hy : p.y = b.pixel_index.y := by omega
    refine ⟨?_, by omega, by omega⟩
    obtain ⟨pxv, pyv⟩ := p
    rw [show (b.pixel_index : PixelIndex)
        = ⟨b.pixel_index.x, b.pixel_index.y⟩ from rfl]
    simp only [PixelIndex.mk.injEq]
    exact ⟨hx, hy⟩
  · rintro ⟨rfl, h2, h3⟩
    omega

/-- A single-pixel last-queued write only changes the targeted flat index. -/
theorem lq_set_lq (im : Image) (p q : PixelIndex) (v : Nat) :
    (im.set_last_queued_block q v).last_queued_block p
      = if im.index p = im.index q then v else im.last_queued_block p := by
  unfold Image.set_last_queued_block Image.last_queued_block Image.index
  simp [Function.update]

/-- Last-queued writes do not change pixel states. -/
theorem state_set_lq (im : Image) (p q : PixelIndex) (v : Nat) :
    (im.set_last_queued_block q v).state p = im.state p := rfl

/-- State writes do not change last-queued indices. -/
theorem lq_set_state (im : Image) (p q : PixelIndex) (s : PixelState) :
    (im.set_state q s).last_queued_block p = im.last_queued_block p := rfl

/-- Folding last-queued writes over a pixel list sets the index to `v`
exactly on the flat indices hit. -/
theorem lq_foldl_set (v : Nat) :
    ∀ (l : List PixelIndex) (im : Image) (p : PixelIndex),
      (l.foldl (fun im2 q => im2.set_last_queued_block q v) im).last_queued_block p
        = if ∃ q ∈ l, im.index q = im.index p then v
          else im.last_queued_block p := by
  intro l
  induction l with
  | nil =>
    intro im p
    rw [List.foldl_nil,
      if_neg (show ¬∃ q ∈ ([] : List PixelIndex), im.index q = im.index p by
        rintro ⟨r, hr, h2⟩
        exact absurd hr (List.not_mem_nil r))]
  | cons q rest ih =>
    intro im p
    rw [List.foldl_cons, ih]
    have hidx : ∀ r : PixelIndex,
        (im.set_last_queued_block q v).index r = im.index r := fun _ => rfl
    simp only [hidx, lq_set_lq]
    by_cases hex : ∃ r ∈ rest, im.index r = im.index p
    · rw [if_pos hex,
        if_pos (show ∃ r ∈ q :: rest, im.index r = im.index p by
          obtain ⟨r, hr, hre⟩ := hex
          exact ⟨r, by simp [hr], hre⟩)]
    · rw [if_neg hex]
      by_cases hqp : im.index q = im.index p
      · rw [if_pos hqp.symm,
          if_pos (show ∃ r ∈ q :: rest, im.index r = im.index p
            from ⟨q, by simp, hqp⟩)]
      · rw [if_neg (show ¬im.index p = im.index q from fun hc => hqp hc.symm),
          if_neg (show ¬∃ r ∈ q :: rest, im.index r = im.index p by
            rintro ⟨r, hr, hre⟩
            rcases List.mem_cons.mp hr with rfl | hr2
            · exact hqp hre
            · exact hex ⟨r, hr2, hre⟩)]

/-- The last-queued fold does not change the image size. -/
theorem dims_foldl_set_lq (v : Nat) :
    ∀ (l : List PixelIndex) (im : Image),
      (l.foldl (fun im2 q => im2.set_last_queued_block q v) im).width = im.width ∧
      (l.foldl (fun im2 q => im2.set_last_queued_block q v) im).height
        = im.height := by
  intro l
  induction l with
  | nil => intro im; exact ⟨rfl, rfl⟩
  | cons q rest ih =>
    intro im
    rw [List.foldl_cons]
    exact ih (im.set_last_queued_block q v)

/-- `Graph::set_last_queued_block`: either the index overflows a `u32`, or
the write succeeds, changes no state and no size, and raises the
last-queued index to `block_index` on every covered pixel, touching no
other value. -/
theorem set_last_spec (im : Image) (c : ImageBlock) (v : Nat) :
    (2 ^ 32 ≤ v ∧ set_last_queued_block im c v
        = Except.error ⟨GraphingErrorKind.BlockIndexOverflow⟩) ∨
    ∃ im2, v < 2 ^ 32 ∧ set_last_queued_block im c v = Except.ok im2 ∧
      im2.width = im.width ∧ im2.height = im.height ∧
      (∀ p, im2.state p = im.state p) ∧
      (∀ p, im2.last_queued_block p = im.last_queued_block p ∨
        im2.last_queued_block p = v) ∧
      (∀ p ∈ cov_pixels im c, im2.last_queued_block p = v) := by
  unfold set_last_queued_block
  by_cases hv : v < 2 ^ 32
  · rw [if_pos hv]
    by_cases hsup : c.is_superpixel = true
    · rw [if_pos hsup]
      refine Or.inr ⟨_, hv, rfl, (dims_foldl_set_lq v _ im).1,
        (dims_foldl_set_lq v _ im).2,
        fun p => state_foldl_set_last_queued v _ im p, ?_, ?_⟩
      · intro p
        rw [lq_foldl_set]
        split_ifs
        · exact Or.inr rfl
        · exact Or.inl rfl
      · intro p hp
        rw [lq_foldl_set, if_pos ⟨p, hp, rfl⟩]
    · rw [if_neg hsup]
      have hns : c.is_superpixel = false := by
        cases h : c.is_superpixel
        · rfl
        · exact absurd h hsup
      refine Or.inr ⟨_, hv, rfl, rfl, rfl, fun p => rfl, ?_, ?_⟩
      · intro p
        rw [lq_set_lq]
        split_ifs
        · exact Or.inr rfl
        · exact Or.inl rfl
      · intro p hp
        obtain ⟨rfl, hx, hy⟩ := (cov_nonsuper_mem hns).1 hp
        rw [lq_set_lq, if_pos rfl]
  · rw [if_neg hv]
    exact Or.inl ⟨by omega, rfl⟩

/-- The relation-evaluation oracle of the refinement calls: the booleans
that relation.rs computes for each `refine_pixel` / `refine_subpixel` call,
indexed by the running call counter.  The theorems below hold for every
oracle. -/
structure Oracle where
  is_true : Nat → Bool
  is_false : Nat → Bool
  locally_zero : Nat → Bool
  inter_nonempty : Nat → Bool
  certainly_false : Nat → Bool
  sample_found : Nat → Bool

/-- One refinement call of the children loop of `refine_impl` (graph.rs
lines 295-310): `refine_pixel` for a pixel or superpixel child,
`refine_subpixel` for a subpixel child; `none` is a panic. -/
def refine_child (om : Oracle) (im : Image) (c : ImageBlock) (fl : Bool)
    (bi ec : Nat) : Option (Image × Bool) :=
  if !c.is_subpixel then
    refine_pixel im c fl bi (om.is_true ec) (om.is_false ec)
  else
    refine_subpixel im c fl bi (om.locally_zero ec) (om.inter_nonempty ec)
      (om.certainly_false ec) (om.sample_found ec)

/-- The inner `for` loop of `refine_impl` over the freshly subdivided
children (graph.rs lines 295-321), acting on the image: each child is
refined, and each incomplete child is recorded after
`set_last_queued_block` succeeds on its future queue index `nb + acc`.
Returns the image, the advanced call counter, and the incomplete children
in order; `none` propagates a panic (the failed assertion). -/
def process_children (om : Oracle) (bi nb : Nat) :
    List (ImageBlock × Bool) → Image → Nat → Nat →
    Option (Except GraphingError (Image × Nat × List ImageBlock))
  | [], im, ec, _ => some (Except.ok (im, ec, []))
  | (c, fl) :: rest, im, ec, acc =>
    match refine_child om im c fl bi ec with
    | none => none
    | some (im2, complete) =>
      if complete then process_children om bi nb rest im2 (ec + 1) acc
      else
        match set_last_queued_block im2 c (nb + acc) with
        | Except.error e => some (Except.error e)
        | Except.ok im3 =>
          match process_children om bi nb rest im3 (ec + 1) (acc + 1) with
          | none => none
          | some (Except.error e) => some (Except.error e)
          | some (Except.ok (im4, ec4, l)) =>
            some (Except.ok (im4, ec4, c :: l))

/-- The full state of `refine_impl` between loop iterations: the image, the
queued blocks with their indices (front first), the next back index of the
queue, and the refinement-call counter indexing the oracle. -/
structure FullState where
  im : Image
  queue : List (Nat × ImageBlock)
  next_back : Nat
  ec : Nat

/-- The outcome of one full loop iteration. -/
inductive FullOut where
  | done (r : Except GraphingError Bool) : FullOut
  | next (s : FullState) : FullOut

/-- One iteration of the `while let` loop of `refine_impl` acting on both
the queue and the image, with the memory check and the timeout elided (they
never touch the image or the queue).  `none` models a panic: a failed
assertion inside the subdivision routines, the
`QueuedBlockIndex::try_from(bi).unwrap()` on a popped index that does not
fit in a `u32`, or the failed `assert_ne!(state, PixelState::False)` inside
`refine_pixel` / `refine_subpixel`. -/
def full_step (g : GraphEnv) (om : Oracle) (s : FullState) : Option FullOut :=
  match s.queue with
  | [] => some (FullOut.done (Except.ok true))
  | (bi, b) :: rest =>
    match (match b.next_dir with
      | SubdivisionDir.NTheta => subdivide_on_n_theta b
      | SubdivisionDir.XY => subdivide_on_xy g b) with
    | none => none
    | some cs =>
      if cs.length ≠ 0 ∧ 2 ^ 32 ≤ bi then none
      else
        match process_children om bi s.next_back cs s.im s.ec 0 with
        | none => none
        | some (Except.error e) => some (FullOut.done (Except.error e))
        | some (Except.ok (im2, ec2, l)) =>
          match choose_next_dir g b l.length cs.length with
          | Except.error e => some (FullOut.done (Except.error e))
          | Except.ok d =>
            some (FullOut.next
              ⟨im2, rest ++ enqueue s.next_back d l,
               s.next_back + l.length, ec2⟩)

/-- Running the full loop for at most `fuel` iterations. -/
def run_full (g : GraphEnv) (om : Oracle) : Nat → FullState → RunResult
  | 0, _ => RunResult.fuelOut
  | fuel + 1, s =>
    match full_step g om s with
    | none => RunResult.panic
    | some (FullOut.done r) => RunResult.res r
    | some (FullOut.next s2) => run_full g om fuel s2

/-- The safety invariant of the full loop state: queued indices fit in a
`u32`, stay below the next back index, and strictly increase from front to
back; queued blocks satisfy the data-model invariant, and non-superpixel
ones sit inside the image; no queued block covers a `False` pixel, and
every queued block covering a pixel is recorded in (or superseded by) the
pixel's last-queued index; all last-queued indices stay below the next
back index. -/
def FullWF (g : GraphEnv) (s : FullState) : Prop :=
  (∀ q ∈ s.queue, q.1 < 2 ^ 32 ∧ q.1 < s.next_back ∧ BWF g q.2 ∧
    (q.2.is_superpixel = false →
      q.2.pixel_index.x < s.im.width ∧ q.2.pixel_index.y < s.im.height)) ∧
  List.Pairwise (fun a c => a.1 < c.1) s.queue ∧
  (∀ q ∈ s.queue, ∀ p ∈ cov_pixels s.im q.2,
    s.im.state p ≠ PixelState.False ∧ q.1 ≤ s.im.last_queued_block p) ∧
  (∀ p : PixelIndex, s.im.last_queued_block p < s.next_back)

/-- Sibling discipline of a subdivided child list: when a child flagged
`is_last_sibling = true` is followed by further children, those later
children cover disjoint pixels (for a superpixel parent all children are
flagged but pairwise disjoint; otherwise exactly the final child is
flagged). -/
def sibOK (im : Image) : List (ImageBlock × Bool) → Prop
  | [] => True
  | cf :: rest =>
    (cf.2 = true → ∀ cc ∈ rest, ∀ p ∈ cov_pixels im cf.1,
      p ∉ cov_pixels im cc.1) ∧
    sibOK im rest

/-- The facts recorded for the incomplete children awaiting re-queueing:
the `k`-th one (future queue index `nb + k`) covers no `False` pixel, its
covered pixels carry a last-queued index of at least `nb + k`, and when it
is not a superpixel its pixel sits inside the image. -/
def postL (im : Image) (nb : Nat) : Nat → List ImageBlock → Prop
  | _, [] => True
  | k, c :: l =>
    (∀ p ∈ cov_pixels im c, im.state p ≠ PixelState.False ∧
      nb + k ≤ im.last_queued_block p) ∧
    (c.is_superpixel = false →
      c.pixel_index.x < im.width ∧ c.pixel_index.y < im.height) ∧
    postL im nb (k + 1) l

/-- The sibling discipline only depends on the image through its size. -/
theorem sibOK_congr {im im2 : Image} (hw : im2.width = im.width)
    (hh : im2.height = im.height) :
    ∀ cs, sibOK im cs → sibOK im2 cs := by
  intro cs
  induction cs with
  | nil => intro h; exact trivial
  | cons cf rest ih =>
    intro h
    refine ⟨?_, ih h.2⟩
    intro hfl cc hcc p hp
    rw [cov_pixels_congr hw hh] at hp ⊢
    exact h.1 hfl cc hcc p hp

/-- A child list whose only `true` flag is the final one satisfies the
sibling discipline. -/
theorem sibOK_of_flags (im : Image) :
    ∀ cs : List (ImageBlock × Bool),
      cs.map Prod.snd = List.replicate (cs.length - 1) false ++ [true] →
      sibOK im cs := by
  intro cs
  induction cs with
  | nil => intro _; exact trivial
  | cons cf rest ih =>
    intro hmap
    cases rest with
    | nil =>
      exact ⟨fun _ cc hcc => absurd hcc (List.not_mem_nil cc), trivial⟩
    | cons cg rest2 =>
      simp only [List.map_cons, List.length_cons] at hmap
      rw [show rest2.length + 1 + 1 - 1 = rest2.length + 1 from rfl,
        List.replicate_succ, List.cons_append] at hmap
      simp only [List.cons.injEq] at hmap
      obtain ⟨hfl, hrest⟩ := hmap
      refine ⟨?_, ih ?_⟩
      · intro hcon
        rw [hfl] at hcon
        exact Bool.noConfusion hcon
      · simp only [List.map_cons, List.length_cons]
        rw [show rest2.length + 1 - 1 = rest2.length from rfl]
        exact hrest

/-- The write loop of `refine_pixel` on a list of distinct in-image pixels
none of which is `False`: it never panics, does not change the image size
or the last-queued indices, and introduces `False` only at covered flat
indices whose last-queued block is the popped parent, and only when the
block is the last sibling. -/
theorem refine_pixel_write_spec (t f fl : Bool) (parent : Nat) :
    ∀ (pixels : List PixelIndex) (im : Image),
      (∀ p ∈ pixels, im.state p ≠ PixelState.False) →
      List.Pairwise (fun p q => im.index p ≠ im.index q) pixels →
      ∃ im2, refine_pixel_write t f fl parent pixels im = some im2 ∧
        im2.width = im.width ∧ im2.height = im.height ∧
        (∀ p, im2.last_queued_block p = im.last_queued_block p) ∧
        (∀ p, im2.state p = PixelState.False → im.state p = PixelState.False ∨
          (fl = true ∧ ∃ q ∈ pixels, im.index p = im.index q ∧
            im.last_queued_block q = parent)) := by
  intro pixels
  induction pixels with
  | nil =>
    intro im _ _
    exact ⟨im, rfl, rfl, rfl, fun p => rfl, fun p h => Or.inl h⟩
  | cons q rest ih =>
    intro im hnf hpw
    have hq : ¬im.state q = PixelState.False := hnf q (by simp)
    rw [List.pairwise_cons] at hpw
    obtain ⟨hqrest, hpw2⟩ := hpw
    by_cases hT : im.state q = PixelState.True
    · have hstep : refine_pixel_write t f fl parent (q :: rest) im
          = refine_pixel_write t f fl parent rest im := by
        simp only [refine_pixel_write]
        rw [if_neg hq, if_pos hT]
      obtain ⟨im2, hrun, hw, hh, hlq, hF⟩ :=
        ih im (fun p hp => hnf p (by simp [hp])) hpw2
      rw [hstep]
      exact ⟨im2, hrun, hw, hh, hlq, fun p h =>
        (hF p h).imp id (fun hr =>
          ⟨hr.1, hr.2.choose, by
            obtain ⟨hm, h3, h4⟩ := hr.2.choose_spec
            exact ⟨by simp [hm], h3, h4⟩⟩)⟩
    · by_cases ht : t = true
      · have hstep : refine_pixel_write t f fl parent (q :: rest) im
            = refine_pixel_write t f fl parent rest
                (im.set_state q PixelState.True) := by
          simp only [refine_pixel_write]
          rw [if_neg hq, if_neg hT, if_pos ht]
        have hnf1 : ∀ p ∈ rest,
            (im.set_state q PixelState.True).state p ≠ PixelState.False := by
          intro p hp
          rw [state_set_state]
          split_ifs
          · exact fun hcon => PixelState.noConfusion hcon
          · exact hnf p (by simp [hp])
        obtain ⟨im2, hrun, hw, hh, hlq, hF⟩ :=
          ih (im.set_state q PixelState.True) hnf1 hpw2
        rw [hstep]
        refine ⟨im2, hrun, hw, hh, fun p => hlq p, ?_⟩
        intro p h
        rcases hF p h with h1 | ⟨h1, r, hr, h3, h4⟩
        · rw [state_set_state] at h1
          split_ifs at h1
          exact Or.inl h1
        · exact Or.inr ⟨h1, r, by simp [hr], h3, h4⟩
      · by_cases hfc : (f && fl && (im.last_queued_block q == parent)) = true
        · have hstep : refine_pixel_write t f fl parent (q :: rest) im
              = refine_pixel_write t f fl parent rest
                  (im.set_state q PixelState.False) := by
            simp only [refine_pixel_write]
            rw [if_neg hq, if_neg hT, if_neg ht, if_pos hfc]
          have hlqq : im.last_queued_block q = parent := by
            simp only [Bool.and_eq_true, beq_iff_eq] at hfc
            exact hfc.2
          have hflt : fl = true := by
            simp only [Bool.and_eq_true] at hfc
            exact hfc.1.2
          have hnf1 : ∀ p ∈ rest,
              (im.set_state q PixelState.False).state p ≠ PixelState.False := by
            intro p hp
            rw [state_set_state,
              if_neg (fun hcon => hqrest p hp hcon.symm)]
            exact hnf p (by simp [hp])
          obtain ⟨im2, hrun, hw, hh, hlq, hF⟩ :=
            ih (im.set_state q PixelState.False) hnf1 hpw2
          rw [hstep]
          refine ⟨im2, hrun, hw, hh, fun p => hlq p, ?_⟩
          intro p h
          rcases hF p h with h1 | ⟨h1, r, hr, h3, h4⟩
          · rw [state_set_state] at h1
            split_ifs at h1 with hpq
            · exact Or.inr ⟨hflt, q, by simp, hpq, hlqq⟩
            · exact Or.inl h1
          · exact Or.inr ⟨h1, r, by simp [hr], h3, h4⟩
        · have hstep : refine_pixel_write t f fl parent (q :: rest) im
              = refine_pixel_write t f fl parent rest im := by
            simp only [refine_pixel_write]
            rw [if_neg hq, if_neg hT, if_neg ht, if_neg hfc]
          obtain ⟨im2, hrun, hw, hh, hlq, hF⟩ :=
            ih im (fun p hp => hnf p (by simp [hp])) hpw2
          rw [hstep]
          exact ⟨im2, hrun, hw, hh, hlq, fun p h =>
            (hF p h).imp id (fun hr =>
              ⟨hr.1, hr.2.choose, by
                obtain ⟨hm, h3, h4⟩ := hr.2.choose_spec
                exact ⟨by simp [hm], h3, h4⟩⟩)⟩

/-- `Graph::refine_pixel` on a block covering no `False` pixel: it never
panics, preserves the image size and last-queued indices, introduces
`False` only at covered flat indices whose last-queued block is the popped
parent when the block is the last sibling, and leaves the image unchanged
(with a nonempty cover) when it reports the block incomplete. -/
theorem refine_pixel_full_spec (im : Image) (c : ImageBlock) (fl : Bool)
    (bi : Nat) (t f : Bool)
    (hnf : ∀ p ∈ cov_pixels im c, im.state p ≠ PixelState.False) :
    ∃ im2 complete, refine_pixel im c fl bi t f = some (im2, complete) ∧
      im2.width = im.width ∧ im2.height = im.height ∧
      (∀ p, im2.last_queued_block p = im.last_queued_block p) ∧
      (∀ p, im2.state p = PixelState.False → im.state p = PixelState.False ∨
        (fl = true ∧ ∃ q ∈ cov_pixels im c, im.index p = im.index q ∧
          im.last_queued_block q = bi)) ∧
      (complete = false → im2 = im ∧ cov_pixels im c ≠ []) := by
  unfold refine_pixel
  by_cases hall : ((cov_pixels im c).all fun p => im.state p == PixelState.True)
      = true
  · rw [if_pos hall]
    exact ⟨im, true, rfl, rfl, rfl, fun p => rfl, fun p h => Or.inl h,
      fun hcon => Bool.noConfusion hcon⟩
  · rw [if_neg hall]
    by_cases hinc : (!(t || f)) = true
    · rw [if_pos hinc]
      refine ⟨im, false, rfl, rfl, rfl, fun p => rfl, fun p h => Or.inl h,
        fun _ => ⟨rfl, ?_⟩⟩
      intro hcov
      rw [hcov] at hall
      exact hall rfl
    · rw [if_neg hinc]
      obtain ⟨im2, hrun, hw, hh, hlq, hF⟩ := refine_pixel_write_spec t f fl bi
        (cov_pixels im c) im hnf (cov_pixels_index_pairwise im c)
      refine ⟨im2, true, by rw [hrun]; rfl, hw, hh, hlq, hF,
        fun hcon => Bool.noConfusion hcon⟩

/-- `Graph::refine_subpixel` on a block whose pixel is not `False`: it
never panics, preserves the image size and last-queued indices, introduces
`False` only at the flat index of its pixel when that pixel's last-queued
block is the popped parent and the block is the last sibling, and leaves
the image unchanged when it reports the block incomplete. -/
theorem refine_subpixel_full_spec (im : Image) (c : ImageBlock) (fl : Bool)
    (bi : Nat) (lz ine cfo sf : Bool)
    (hnf : ¬im.state c.pixel_index = PixelState.False) :
    ∃ im2 complete,
      refine_subpixel im c fl bi lz ine cfo sf = some (im2, complete) ∧
      im2.width = im.width ∧ im2.height = im.height ∧
      (∀ p, im2.last_queued_block p = im.last_queued_block p) ∧
      (∀ p, im2.state p = PixelState.False → im.state p = PixelState.False ∨
        (fl = true ∧ im.index p = im.index c.pixel_index ∧
          im.last_queued_block c.pixel_index = bi)) ∧
      (complete = false → im2 = im) := by
  unfold refine_subpixel
  rw [if_neg hnf]
  by_cases hT : im.state c.pixel_index = PixelState.True
  · rw [if_pos hT]
    exact ⟨im, true, rfl, rfl, rfl, fun p => rfl, fun p h => Or.inl h,
      fun hcon => Bool.noConfusion hcon⟩
  · rw [if_neg hT]
    by_cases h1 : (lz && ine) = true
    · rw [if_pos h1]
      refine ⟨_, true, rfl, rfl, rfl, fun p => rfl, ?_,
        fun hcon => Bool.noConfusion hcon⟩
      intro p h
      rw [state_set_state] at h
      split_ifs at h
      exact Or.inl h
    · rw [if_neg h1]
      by_cases h2 : cfo = true
      · rw [if_pos h2]
        by_cases h3 : (fl && (im.last_queued_block c.pixel_index == bi)) = true
        · rw [if_pos h3]
          simp only [Bool.and_eq_true, beq_iff_eq] at h3
          refine ⟨_, true, rfl, rfl, rfl, fun p => rfl, ?_,
            fun hcon => Bool.noConfusion hcon⟩
          intro p h
          rw [state_set_state] at h
          split_ifs at h with hpq
          · exact Or.inr ⟨h3.1, hpq, h3.2⟩
          · exact Or.inl h
        · rw [if_neg h3]
          exact ⟨im, true, rfl, rfl, rfl, fun p => rfl, fun p h => Or.inl h,
            fun hcon => Bool.noConfusion hcon⟩
      · rw [if_neg h2]
        by_cases h4 : (!ine) = true
        · rw [if_pos h4]
          exact ⟨im, false, rfl, rfl, rfl, fun p => rfl, fun p h => Or.inl h,
            fun _ => rfl⟩
        · rw [if_neg h4]
          by_cases h5 : sf = true
          · rw [if_pos h5]
            refine ⟨_, true, rfl, rfl, rfl, fun p => rfl, ?_,
              fun hcon => Bool.noConfusion hcon⟩
            intro p h
            rw [state_set_state] at h
            split_ifs at h
            exact Or.inl h
          · rw [if_neg h5]
            exact ⟨im, false, rfl, rfl, rfl, fun p => rfl,
              fun p h => Or.inl h, fun _ => rfl⟩

/-- One refinement call of the children loop, on a child covering no
`False` pixel (a subpixel child additionally sitting inside the image):
it never panics — the assertions cannot fire — and its `False` writes are
confined to covered flat indices recorded for the popped parent. -/
theorem refine_child_spec (om : Oracle) (im : Image) (c : ImageBlock)
    (fl : Bool) (bi ec : Nat)
    (hnf : ∀ p ∈ cov_pixels im c, im.state p ≠ PixelState.False)
    (hsubin : c.is_subpixel = true → c.is_superpixel = false ∧
      c.pixel_index.x < im.width ∧ c.pixel_index.y < im.height) :
    ∃ im2 complete, refine_child om im c fl bi ec = some (im2, complete) ∧
      im2.width = im.width ∧ im2.height = im.height ∧
      (∀ p, im2.last_queued_block p = im.last_queued_block p) ∧
      (∀ p, im2.state p = PixelState.False → im.state p = PixelState.False ∨
        (fl = true ∧ ∃ q ∈ cov_pixels im c, im.index p = im.index q ∧
          im.last_queued_block q = bi)) ∧
      (complete = false → im2 = im) ∧
      (complete = false → c.is_superpixel = false →
        c.pixel_index.x < im.width ∧ c.pixel_index.y < im.height) := by
  unfold refine_child
  by_cases hsp : c.is_subpixel = true
  · rw [if_neg (by simp [hsp])]
    obtain ⟨hsup, hin⟩ := hsubin hsp
    have hmem : c.pixel_index ∈ cov_pixels im c :=
      (cov_nonsuper_mem hsup).2 ⟨rfl, hin.1, hin.2⟩
    obtain ⟨im2, complete, hrun, hw, hh, hlq, hF, hinceq⟩ :=
      refine_subpixel_full_spec im c fl bi _ _ _ _ (hnf _ hmem)
    refine ⟨im2, complete, hrun, hw, hh, hlq, ?_, hinceq, fun _ _ => hin⟩
    intro p h
    rcases hF p h with h1 | ⟨h1, h2, h3⟩
    · exact Or.inl h1
    · exact Or.inr ⟨h1, c.pixel_index, hmem, h2, h3⟩
  · have hsp2 : c.is_subpixel = false := by
      cases h : c.is_subpixel
      · rfl
      · exact absurd h hsp
    rw [if_pos (by simp [hsp2])]
    obtain ⟨im2, complete, hrun, hw, hh, hlq, hF, hinc⟩ :=
      refine_pixel_full_spec im c fl bi _ _ hnf
    refine ⟨im2, complete, hrun, hw, hh, hlq, hF,
      fun hc => (hinc hc).1, ?_⟩
    intro hc hns
    obtain ⟨p, hp⟩ := List.exists_mem_of_ne_nil _ ((hinc hc).2)
    obtain ⟨rfl, hx, hy⟩ := (cov_nonsuper_mem hns).1 hp
    exact ⟨hx, hy⟩

/-- Pixel indices are determined by their components. -/
theorem pixelIndex_eq {p q : PixelIndex} (h1 : p.x = q.x) (h2 : p.y = q.y) :
    p = q := by
  obtain ⟨a, c⟩ := p
  obtain ⟨d, e⟩ := q
  simp only [PixelIndex.mk.injEq]
  exact ⟨h1, h2⟩

/-- Two blocks separated on the x axis cover disjoint pixels. -/
theorem cov_disj_of_x {im : Image} {c1 c2 : ImageBlock}
    (h : c1.pixel_index.x + c1.width ≤ c2.pixel_index.x) :
    ∀ p ∈ cov_pixels im c1, p ∉ cov_pixels im c2 := by
  intro p hp hp2
  have m1 := mem_cov_pixels.1 hp
  have m2 := mem_cov_pixels.1 hp2
  omega

/-- Two blocks separated on the y axis cover disjoint pixels. -/
theorem cov_disj_of_y {im : Image} {c1 c2 : ImageBlock}
    (h : c1.pixel_index.y + c1.height ≤ c2.pixel_index.y) :
    ∀ p ∈ cov_pixels im c1, p ∉ cov_pixels im c2 := by
  intro p hp hp2
  have m1 := mem_cov_pixels.1 hp
  have m2 := mem_cov_pixels.1 hp2
  omega

/-- The pixel index of a freshly made block at nonnegative levels. -/
theorem pixel_index_new_nonneg (x y : Nat) {kx ky : Int} (hkx : 0 ≤ kx)
    (hky : 0 ≤ ky) (n : XInt) :
    (ImageBlock.new x y kx ky n).pixel_index
      = ⟨x * 2 ^ kx.toNat, y * 2 ^ ky.toNat⟩ := by
  unfold ImageBlock.new ImageBlock.pixel_index
  rw [if_pos hkx, if_pos hky]

/-- Coverage of a freshly made block at nonnegative levels, in coordinates. -/
theorem mem_cov_new {im : Image} {p : PixelIndex} (x y : Nat) {kx ky : Int}
    (hkx : 0 ≤ kx) (hky : 0 ≤ ky) (n : XInt) :
    p ∈ cov_pixels im (ImageBlock.new x y kx ky n) ↔
      x * 2 ^ kx.toNat ≤ p.x ∧
      p.x < min (x * 2 ^ kx.toNat + 2 ^ kx.toNat) im.width ∧
      y * 2 ^ ky.toNat ≤ p.y ∧
      p.y < min (y * 2 ^ ky.toNat + 2 ^ ky.toNat) im.height := by
  rw [mem_cov_pixels, pixel_index_new_nonneg x y hkx hky n]
  exact Iff.rfl

/-- Coverage of a pixel or superpixel block, in coordinates. -/
theorem mem_cov_super {im : Image} {p : PixelIndex} {b : ImageBlock}
    (hkx : 0 ≤ b.kx) (hky : 0 ≤ b.ky) :
    p ∈ cov_pixels im b ↔
      b.x * 2 ^ b.kx.toNat ≤ p.x ∧
      p.x < min (b.x * 2 ^ b.kx.toNat + 2 ^ b.kx.toNat) im.width ∧
      b.y * 2 ^ b.ky.toNat ≤ p.y ∧
      p.y < min (b.y * 2 ^ b.ky.toNat + 2 ^ b.ky.toNat) im.height := by
  rw [mem_cov_pixels]
  rw [show b.pixel_index
      = (⟨b.x * 2 ^ b.kx.toNat, b.y * 2 ^ b.ky.toNat⟩ : PixelIndex) from by
    unfold ImageBlock.pixel_index
    rw [if_pos hkx, if_pos hky]]
  exact Iff.rfl

/-- A freshly made block at nonpositive levels is not a superpixel. -/
theorem is_superpixel_new {x y : Nat} {kx ky : Int} (hkx : kx ≤ 0)
    (hky : ky ≤ 0) (n : XInt) :
    (ImageBlock.new x y kx ky n).is_superpixel = false := by
  simp only [ImageBlock.new, ImageBlock.is_superpixel, Bool.or_eq_false_iff,
    decide_eq_false_iff_not, not_lt]
  exact ⟨hkx, hky⟩

/-- A freshly made block at nonnegative levels is not a subpixel. -/
theorem is_subpixel_new_false {x y : Nat} {kx ky : Int} (hkx : 0 ≤ kx)
    (hky : 0 ≤ ky) (n : XInt) :
    (ImageBlock.new x y kx ky n).is_subpixel = false := by
  simp only [ImageBlock.new, ImageBlock.is_subpixel, Bool.or_eq_false_iff,
    decide_eq_false_iff_not, not_lt]
  exact ⟨hkx, hky⟩

/-- Halving a coordinate of a block at a nonpositive level does not move its
containing pixel. -/
theorem half_pixel_coord (x dx : Nat) (hdx : dx ≤ 1) {k : Int} (hk : k ≤ 0) :
    (2 * x + dx) / 2 ^ (-(k - 1)).toNat
      = if 0 ≤ k then x * 2 ^ k.toNat else x / 2 ^ (-k).toNat := by
  have h1 : (-(k - 1)).toNat = (-k).toNat + 1 := by omega
  rw [h1, pow_succ]
  by_cases hk0 : 0 ≤ k
  · have hz : k = 0 := le_antisymm hk hk0
    subst hz
    rw [if_pos le_rfl]
    simp only [neg_zero, Int.toNat_zero, pow_zero, one_mul, mul_one]
    omega
  · rw [if_neg hk0, Nat.mul_comm (2 ^ (-k).toNat) 2, ← Nat.div_div_eq_div_mul]
    congr 1
    omega

/-- The x coordinate of the containing pixel after an x halving. -/
theorem child_pixel_x_eq {b : ImageBlock} (hkx : b.kx ≤ 0) {xp : Nat}
    (hxp : xp = 2 * b.x ∨ xp = 2 * b.x + 1) :
    (if 0 ≤ b.kx - 1 then xp * 2 ^ (b.kx - 1).toNat
      else xp / 2 ^ (-(b.kx - 1)).toNat)
      = if 0 ≤ b.kx then b.x * 2 ^ b.kx.toNat else b.x / 2 ^ (-b.kx).toNat := by
  rw [if_neg (by omega)]
  rcases hxp with rfl | rfl
  · exact half_pixel_coord b.x 0 (by omega) hkx
  · exact half_pixel_coord b.x 1 (by omega) hkx

/-- The y coordinate of the containing pixel after a y halving. -/
theorem child_pixel_y_eq {b : ImageBlock} (hky : b.ky ≤ 0) {yp : Nat}
    (hyp : yp = 2 * b.y ∨ yp = 2 * b.y + 1) :
    (if 0 ≤ b.ky - 1 then yp * 2 ^ (b.ky - 1).toNat
      else yp / 2 ^ (-(b.ky - 1)).toNat)
      = if 0 ≤ b.ky then b.y * 2 ^ b.ky.toNat else b.y / 2 ^ (-b.ky).toNat := by
  rw [if_neg (by omega)]
  rcases hyp with rfl | rfl
  · exact half_pixel_coord b.y 0 (by omega) hky
  · exact half_pixel_coord b.y 1 (by omega) hky

/-- A coordinate range of a half-level child sits inside the parent range. -/
theorem super_child_cov_sub {W imw x xp pxv : Nat}
    (hxp : xp = 2 * x ∨ xp = 2 * x + 1)
    (h1 : xp * W ≤ pxv) (h2 : pxv < min (xp * W + W) imw) :
    x * (2 * W) ≤ pxv ∧ pxv < min (x * (2 * W) + 2 * W) imw := by
  have e : x * (2 * W) = 2 * x * W := by ring
  have e2 : (2 * x + 1) * W = 2 * x * W + W := by ring
  rcases hxp with rfl | rfl
  · omega
  · omega

/-- Disjoint coverage of two fresh blocks separated in x. -/
theorem super_disj_x (im : Image) (x1v x2v y1v y2v : Nat) {kx ky : Int}
    (hkx : 0 ≤ kx) (hky : 0 ≤ ky) (n1 n2 : XInt) (hx : x1v + 1 ≤ x2v) :
    ∀ p ∈ cov_pixels im (ImageBlock.new x1v y1v kx ky n1),
      p ∉ cov_pixels im (ImageBlock.new x2v y2v kx ky n2) := by
  apply cov_disj_of_x
  rw [pixel_index_new_nonneg x1v y1v hkx hky n1,
    pixel_index_new_nonneg x2v y2v hkx hky n2]
  show x1v * 2 ^ kx.toNat + (ImageBlock.new x1v y1v kx ky n1).width
    ≤ x2v * 2 ^ kx.toNat
  rw [show (ImageBlock.new x1v y1v kx ky n1).width = 2 ^ kx.toNat from rfl]
  calc x1v * 2 ^ kx.toNat + 2 ^ kx.toNat = (x1v + 1) * 2 ^ kx.toNat := by ring
    _ ≤ x2v * 2 ^ kx.toNat := Nat.mul_le_mul_right _ hx

/-- Disjoint coverage of two fresh blocks separated in y. -/
theorem super_disj_y (im : Image) (x1v x2v y1v y2v : Nat) {kx ky : Int}
    (hkx : 0 ≤ kx) (hky : 0 ≤ ky) (n1 n2 : XInt) (hy : y1v + 1 ≤ y2v) :
    ∀ p ∈ cov_pixels im (ImageBlock.new x1v y1v kx ky n1),
      p ∉ cov_pixels im (ImageBlock.new x2v y2v kx ky n2) := by
  apply cov_disj_of_y
  rw [pixel_index_new_nonneg x1v y1v hkx hky n1,
    pixel_index_new_nonneg x2v y2v hkx hky n2]
  show y1v * 2 ^ ky.toNat + (ImageBlock.new x1v y1v kx ky n1).height
    ≤ y2v * 2 ^ ky.toNat
  rw [show (ImageBlock.new x1v y1v kx ky n1).height = 2 ^ ky.toNat from rfl]
  calc y1v * 2 ^ ky.toNat + 2 ^ ky.toNat = (y1v + 1) * 2 ^ ky.toNat := by ring
    _ ≤ y2v * 2 ^ ky.toNat := Nat.mul_le_mul_right _ hy

/-- Coverage of a superpixel child is inside the parent coverage. -/
theorem super_child_sub (im : Image) {b : ImageBlock}
    (hkx : 0 ≤ b.kx - 1) (hky : 0 ≤ b.ky - 1) {xp yp : Nat}
    (hxp : xp = 2 * b.x ∨ xp = 2 * b.x + 1)
    (hyp : yp = 2 * b.y ∨ yp = 2 * b.y + 1) (n : XInt) :
    ∀ p ∈ cov_pixels im (ImageBlock.new xp yp (b.kx - 1) (b.ky - 1) n),
      p ∈ cov_pixels im b := by
  intro p hp
  have hm := (mem_cov_new xp yp hkx hky n).1 hp
  rw [mem_cov_super (show (0:Int) ≤ b.kx by omega) (show (0:Int) ≤ b.ky by omega)]
  have hpowx : (2:Nat) ^ b.kx.toNat = 2 * 2 ^ (b.kx - 1).toNat := by
    rw [show b.kx.toNat = (b.kx - 1).toNat + 1 from by omega, pow_succ]
    ring
  have hpowy : (2:Nat) ^ b.ky.toNat = 2 * 2 ^ (b.ky - 1).toNat := by
    rw [show b.ky.toNat = (b.ky - 1).toNat + 1 from by omega, pow_succ]
    ring
  rw [hpowx, hpowy]
  obtain ⟨ha, hb2, hc, hd⟩ := hm
  have hxs := super_child_cov_sub hxp ha hb2
  have hys := super_child_cov_sub hyp hc hd
  exact ⟨hxs.1, hxs.2, hys.1, hys.2⟩

/-- A pairwise-disjoint child list satisfies the sibling discipline. -/
theorem sibOK_of_disj (im : Image) :
    ∀ cs : List (ImageBlock × Bool),
      List.Pairwise (fun a c => ∀ p ∈ cov_pixels im a.1,
        p ∉ cov_pixels im c.1) cs →
      sibOK im cs := by
  intro cs
  induction cs with
  | nil => intro _; exact trivial
  | cons cf rest ih =>
    intro h
    rw [List.pairwise_cons] at h
    exact ⟨fun _ cc hcc p hp => h.1 cc hcc p hp, ih h.2⟩

/-- Geometry of the subdivided children: each child covers a subset of the
parent's pixels, the sibling discipline holds, and a subpixel child comes
from a non-superpixel parent and shares its containing pixel. -/
theorem children_cov (g : GraphEnv) (b : ImageBlock) (im : Image)
    (hsqr : b.is_superpixel = true → b.kx = b.ky)
    {cs : List (ImageBlock × Bool)}
    (hcs : (match b.next_dir with
      | SubdivisionDir.NTheta => subdivide_on_n_theta b
      | SubdivisionDir.XY => subdivide_on_xy g b) = some cs) :
    (∀ cf ∈ cs, ∀ p ∈ cov_pixels im cf.1, p ∈ cov_pixels im b) ∧
    sibOK im cs ∧
    (∀ cf ∈ cs, cf.1.is_subpixel = true → cf.1.is_superpixel = false ∧
      cf.1.pixel_index = b.pixel_index ∧ b.is_superpixel = false) := by
  cases hnd : b.next_dir
  case NTheta =>
    rw [hnd] at hcs
    have hnth : subdivide_on_n_theta b = some cs := hcs
    unfold subdivide_on_n_theta at hnth
    cases hb : bisect b.n_theta with
    | none =>
      rw [hb] at hnth
      exact absurd hnth (by simp)
    | some ns =>
      rw [hb] at hnth
      have hnth2 : (match bisect_each ns with
          | none => none
          | some pieces => some (markLast (pieces.map fun n =>
              (({ b with n_theta := n } : ImageBlock), false)))) = some cs := hnth
      cases hbe : bisect_each ns with
      | none =>
        rw [hbe] at hnth2
        exact absurd hnth2 (by simp)
      | some pieces =>
        rw [hbe] at hnth2
        have hcseq : markLast (pieces.map fun n =>
            (({ b with n_theta := n } : ImageBlock), false)) = cs :=
          Option.some.inj hnth2
        subst hcseq
        have hmemf : ∀ cf ∈ markLast (pieces.map fun n =>
            (({ b with n_theta := n } : ImageBlock), false)),
            ∃ nn, cf.1 = { b with n_theta := nn } := by
          intro cf hcf
          have h2 := markLast_mem_fst hcf
          rw [List.map_map, List.mem_map] at h2
          obtain ⟨nn, hnn, he⟩ := h2
          exact ⟨nn, he.symm⟩
        refine ⟨?_, ?_, ?_⟩
        · intro cf hcf p hp
          obtain ⟨nn, hnn⟩ := hmemf cf hcf
          rw [hnn] at hp
          exact hp
        · by_cases hpieces : pieces = []
          · subst hpieces
            exact trivial
          · apply sibOK_of_flags
            have hsnd := markLast_snd (pieces.map fun n =>
                (({ b with n_theta := n } : ImageBlock), false))
              (by
                intro pp hpp
                rw [List.mem_map] at hpp
                obtain ⟨nn, hnn2, he⟩ := hpp
                rw [← he])
              (by
                cases pieces with
                | nil => exact absurd rfl hpieces
                | cons a r => simp)
            rw [markLast_length, List.length_map, hsnd, List.length_map]
        · intro cf hcf hsubp
          obtain ⟨nn, hnn⟩ := hmemf cf hcf
          have hbsub : b.is_subpixel = true := by
            rw [hnn] at hsubp
            exact hsubp
          have hbns : b.is_superpixel = false := by
            cases hbs : b.is_superpixel
            · rfl
            · exfalso
              have hkk := hsqr hbs
              simp only [ImageBlock.is_subpixel, Bool.or_eq_true,
                decide_eq_true_eq] at hbsub
              simp only [ImageBlock.is_superpixel, Bool.or_eq_true,
                decide_eq_true_eq] at hbs
              omega
          rw [hnn]
          exact ⟨hbns, rfl, hbns⟩
  case XY =>
    rw [hnd] at hcs
    have hxy : subdivide_on_xy g b = some cs := hcs
    simp only [subdivide_on_xy] at hxy
    by_cases hsup : b.is_superpixel = true
    · rw [if_pos hsup] at hxy
      by_cases hneg : b.kx - 1 < 0 ∨ b.ky - 1 < 0
      · rw [if_pos hneg] at hxy
        exact absurd hxy (by simp)
      · rw [if_neg hneg] at hxy
        have hkx1 : 0 ≤ b.kx - 1 := by omega
        have hky1 : 0 ≤ b.ky - 1 := by omega
        have hcseq := Option.some.inj hxy
        subst hcseq
        refine ⟨?_, ?_, ?_⟩
        · intro cf hcf p hp
          simp only [List.mem_append, List.mem_singleton] at hcf
          rcases hcf with ((hc1 | hc2) | hc3) | hc4
          · subst hc1
            exact super_child_sub im hkx1 hky1 (Or.inl rfl) (Or.inl rfl)
              b.n_theta p hp
          · split at hc2
            · rw [List.mem_singleton] at hc2
              subst hc2
              exact super_child_sub im hkx1 hky1 (Or.inl rfl) (Or.inr rfl)
                b.n_theta p hp
            · exact absurd hc2 (List.not_mem_nil cf)
          · split at hc3
            · rw [List.mem_singleton] at hc3
              subst hc3
              exact super_child_sub im hkx1 hky1 (Or.inr rfl) (Or.inl rfl)
                b.n_theta p hp
            · exact absurd hc3 (List.not_mem_nil cf)
          · split at hc4
            · rw [List.mem_singleton] at hc4
              subst hc4
              exact super_child_sub im hkx1 hky1 (Or.inr rfl) (Or.inr rfl)
                b.n_theta p hp
            · exact absurd hc4 (List.not_mem_nil cf)
        · apply sibOK_of_disj
          refine List.pairwise_append.mpr ⟨?_, ?_, ?_⟩
          · refine List.pairwise_append.mpr ⟨?_, ?_, ?_⟩
            · refine List.pairwise_append.mpr ⟨?_, ?_, ?_⟩
              · simp
              · split <;> simp
              · intro a1 ha1 c1 hc1
                rw [List.mem_singleton] at ha1
                subst ha1
                split at hc1
                · rw [List.mem_singleton] at hc1
                  subst hc1
                  exact super_disj_y im _ _ _ _ hkx1 hky1 _ _ (by omega)
                · exact absurd hc1 (List.not_mem_nil c1)
            · split <;> simp
            · intro a1 ha1 c1 hc1
              split at hc1
              · rw [List.mem_singleton] at hc1
                subst hc1
                simp only [List.mem_append, List.mem_singleton] at ha1
                rcases ha1 with rfl | ha2
                · exact super_disj_x im _ _ _ _ hkx1 hky1 _ _ (by omega)
                · split at ha2
                  · rw [List.mem_singleton] at ha2
                    subst ha2
                    exact super_disj_x im _ _ _ _ hkx1 hky1 _ _ (by omega)
                  · exact absurd ha2 (List.not_mem_nil a1)
              · exact absurd hc1 (List.not_mem_nil c1)
          · split <;> simp
          · intro a1 ha1 c1 hc1
            split at hc1
            · rw [List.mem_singleton] at hc1
              subst hc1
              simp only [List.mem_append, List.mem_singleton] at ha1
              rcases ha1 with (rfl | ha2) | ha3
              · exact super_disj_x im _ _ _ _ hkx1 hky1 _ _ (by omega)
              · split at ha2
                · rw [List.mem_singleton] at ha2
                  subst ha2
                  exact super_disj_x im _ _ _ _ hkx1 hky1 _ _ (by omega)
                · exact absurd ha2 (List.not_mem_nil a1)
              · split at ha3
                · rw [List.mem_singleton] at ha3
                  subst ha3
                  exact super_disj_y im _ _ _ _ hkx1 hky1 _ _ (by omega)
                · exact absurd ha3 (List.not_mem_nil a1)
            · exact absurd hc1 (List.not_mem_nil c1)
        · intro cf hcf hsubp
          exfalso
          simp only [List.mem_append, List.mem_singleton] at hcf
          rcases hcf with ((hc1 | hc2) | hc3) | hc4
          · subst hc1
            rw [is_subpixel_new_false hkx1 hky1] at hsubp
            exact Bool.noConfusion hsubp
          · split at hc2
            · rw [List.mem_singleton] at hc2
              subst hc2
              rw [is_subpixel_new_false hkx1 hky1] at hsubp
              exact Bool.noConfusion hsubp
            · exact absurd hc2 (List.not_mem_nil cf)
          · split at hc3
            · rw [List.mem_singleton] at hc3
              subst hc3
              rw [is_subpixel_new_false hkx1 hky1] at hsubp
              exact Bool.noConfusion hsubp
            · exact absurd hc3 (List.not_mem_nil cf)
          · split at hc4
            · rw [List.mem_singleton] at hc4
              subst hc4
              rw [is_subpixel_new_false hkx1 hky1] at hsubp
              exact Bool.noConfusion hsubp
            · exact absurd hc4 (List.not_mem_nil cf)
    · rw [if_neg hsup] at hxy
      have hbns : b.is_superpixel = false := by
        cases h : b.is_superpixel
        · rfl
        · exact absurd h hsup
      have hkks : b.kx ≤ 0 ∧ b.ky ≤ 0 := by
        have h2 := hbns
        simp only [ImageBlock.is_superpixel, Bool.or_eq_false_iff,
          decide_eq_false_iff_not, not_lt] at h2
        exact h2
      have hsubc : ∀ cfb : ImageBlock, cfb.is_superpixel = false →
          cfb.pixel_index = b.pixel_index →
          ∀ p ∈ cov_pixels im cfb, p ∈ cov_pixels im b := by
        intro cfb h1 h2 p hp
        obtain ⟨hpe, hx2, hy2⟩ := (cov_nonsuper_mem h1).1 hp
        rw [cov_nonsuper_mem hbns]
        exact ⟨by rw [hpe, h2], hx2, hy2⟩
      cases hrel : g.relation_type
      · -- Implicit
        rw [hrel] at hxy
        have hxy2 : some
            [(ImageBlock.new (2 * b.x) (2 * b.y) (b.kx - 1) (b.ky - 1)
                b.n_theta, false),
             (ImageBlock.new (2 * b.x + 1) (2 * b.y) (b.kx - 1) (b.ky - 1)
                b.n_theta, false),
             (ImageBlock.new (2 * b.x) (2 * b.y + 1) (b.kx - 1) (b.ky - 1)
                b.n_theta, false),
             (ImageBlock.new (2 * b.x + 1) (2 * b.y + 1) (b.kx - 1) (b.ky - 1)
                b.n_theta, true)] = some cs := hxy
        have hcseq := Option.some.inj hxy2
        subst hcseq
        have hchild : ∀ xp yp : Nat, xp = 2 * b.x ∨ xp = 2 * b.x + 1 →
            yp = 2 * b.y ∨ yp = 2 * b.y + 1 →
            (ImageBlock.new xp yp (b.kx - 1) (b.ky - 1)
                b.n_theta).is_superpixel = false ∧
            (ImageBlock.new xp yp (b.kx - 1) (b.ky - 1)
                b.n_theta).pixel_index = b.pixel_index := by
          intro xp yp hxp hyp
          refine ⟨is_superpixel_new (by omega) (by omega) b.n_theta, ?_⟩
          apply pixelIndex_eq
          · exact child_pixel_x_eq hkks.1 hxp
          · exact child_pixel_y_eq hkks.2 hyp
        refine ⟨?_, ?_, ?_⟩
        · intro cf hcf p hp
          simp only [List.mem_cons, List.not_mem_nil, or_false] at hcf
          rcases hcf with rfl | rfl | rfl | rfl
          · exact hsubc _ (hchild _ _ (Or.inl rfl) (Or.inl rfl)).1
              (hchild _ _ (Or.inl rfl) (Or.inl rfl)).2 p hp
          · exact hsubc _ (hchild _ _ (Or.inr rfl) (Or.inl rfl)).1
              (hchild _ _ (Or.inr rfl) (Or.inl rfl)).2 p hp
          · exact hsubc _ (hchild _ _ (Or.inl rfl) (Or.inr rfl)).1
              (hchild _ _ (Or.inl rfl) (Or.inr rfl)).2 p hp
          · exact hsubc _ (hchild _ _ (Or.inr rfl) (Or.inr rfl)).1
              (hchild _ _ (Or.inr rfl) (Or.inr rfl)).2 p hp
        · exact ⟨fun hcon => Bool.noConfusion hcon,
            fun hcon => Bool.noConfusion hcon,
            fun hcon => Bool.noConfusion hcon,
            fun _ cc hcc => absurd hcc (List.not_mem_nil cc), trivial⟩
        · intro cf hcf _
          simp only [List.mem_cons, List.not_mem_nil, or_false] at hcf
          rcases hcf with rfl | rfl | rfl | rfl
          · exact ⟨(hchild _ _ (Or.inl rfl) (Or.inl rfl)).1,
              (hchild _ _ (Or.inl rfl) (Or.inl rfl)).2, hbns⟩
          · exact ⟨(hchild _ _ (Or.inr rfl) (Or.inl rfl)).1,
              (hchild _ _ (Or.inr rfl) (Or.inl rfl)).2, hbns⟩
          · exact ⟨(hchild _ _ (Or.inl rfl) (Or.inr rfl)).1,
              (hchild _ _ (Or.inl rfl) (Or.inr rfl)).2, hbns⟩
          · exact ⟨(hchild _ _ (Or.inr rfl) (Or.inr rfl)).1,
              (hchild _ _ (Or.inr rfl) (Or.inr rfl)).2, hbns⟩
      · -- FunctionOfX
        rw [hrel] at hxy
        have hxy2 : some
            [(ImageBlock.new (2 * b.x) b.y (b.kx - 1) b.ky b.n_theta, false),
             (ImageBlock.new (2 * b.x + 1) b.y (b.kx - 1) b.ky
                b.n_theta, true)] = some cs := hxy
        have hcseq := Option.some.inj hxy2
        subst hcseq
        have hchild : ∀ xp : Nat, xp = 2 * b.x ∨ xp = 2 * b.x + 1 →
            (ImageBlock.new xp b.y (b.kx - 1) b.ky
                b.n_theta).is_superpixel = false ∧
            (ImageBlock.new xp b.y (b.kx - 1) b.ky
                b.n_theta).pixel_index = b.pixel_index := by
          intro xp hxp
          refine ⟨is_superpixel_new (by omega) (by omega) b.n_theta, ?_⟩
          apply pixelIndex_eq
          · exact child_pixel_x_eq hkks.1 hxp
          · rfl
        refine ⟨?_, ?_, ?_⟩
        · intro cf hcf p hp
          simp only [List.mem_cons, List.not_mem_nil, or_false] at hcf
          rcases hcf with rfl | rfl
          · exact hsubc _ (hchild _ (Or.inl rfl)).1 (hchild _ (Or.inl rfl)).2 p hp
          · exact hsubc _ (hchild _ (Or.inr rfl)).1 (hchild _ (Or.inr rfl)).2 p hp
        · exact ⟨fun hcon => Bool.noConfusion hcon,
            fun _ cc hcc => absurd hcc (List.not_mem_nil cc), trivial⟩
        · intro cf hcf _
          simp only [List.mem_cons, List.not_mem_nil, or_false] at hcf
          rcases hcf with rfl | rfl
          · exact ⟨(hchild _ (Or.inl rfl)).1, (hchild _ (Or.inl rfl)).2, hbns⟩
          · exact ⟨(hchild _ (Or.inr rfl)).1, (hchild _ (Or.inr rfl)).2, hbns⟩
      · -- FunctionOfY
        rw [hrel] at hxy
        have hxy2 : some
            [(ImageBlock.new b.x (2 * b.y) b.kx (b.ky - 1) b.n_theta, false),
             (ImageBlock.new b.x (2 * b.y + 1) b.kx (b.ky - 1)
                b.n_theta, true)] = some cs := hxy
        have hcseq := Option.some.inj hxy2
        subst hcseq
        have hchild : ∀ yp : Nat, yp = 2 * b.y ∨ yp = 2 * b.y + 1 →
            (ImageBlock.new b.x yp b.kx (b.ky - 1)
                b.n_theta).is_superpixel = false ∧
            (ImageBlock.new b.x yp b.kx (b.ky - 1)
                b.n_theta).pixel_index = b.pixel_index := by
          intro yp hyp
          refine ⟨is_superpixel_new (by omega) (by omega) b.n_theta, ?_⟩
          apply pixelIndex_eq
          · rfl
          · exact child_pixel_y_eq hkks.2 hyp
        refine ⟨?_, ?_, ?_⟩
        · intro cf hcf p hp
          simp only [List.mem_cons, List.not_mem_nil, or_false] at hcf
          rcases hcf with rfl | rfl
          · exact hsubc _ (hchild _ (Or.inl rfl)).1 (hchild _ (Or.inl rfl)).2 p hp
          · exact hsubc _ (hchild _ (Or.inr rfl)).1 (hchild _ (Or.inr rfl)).2 p hp
        · exact ⟨fun hcon => Bool.noConfusion hcon,
            fun _ cc hcc => absurd hcc (List.not_mem_nil cc), trivial⟩
        · intro cf hcf _
          simp only [List.mem_cons, List.not_mem_nil, or_false] at hcf
          rcases hcf with rfl | rfl
          · exact ⟨(hchild _ (Or.inl rfl)).1, (hchild _ (Or.inl rfl)).2, hbns⟩
          · exact ⟨(hchild _ (Or.inr rfl)).1, (hchild _ (Or.inr rfl)).2, hbns⟩
      · -- Polar
        rw [hrel] at hxy
        have hxy2 : some
            [(ImageBlock.new (2 * b.x) (2 * b.y) (b.kx - 1) (b.ky - 1)
                b.n_theta, false),
             (ImageBlock.new (2 * b.x + 1) (2 * b.y) (b.kx - 1) (b.ky - 1)
                b.n_theta, false),
             (ImageBlock.new (2 * b.x) (2 * b.y + 1) (b.kx - 1) (b.ky - 1)
                b.n_theta, false),
             (ImageBlock.new (2 * b.x + 1) (2 * b.y + 1) (b.kx - 1) (b.ky - 1)
                b.n_theta, true)] = some cs := hxy
        have hcseq := Option.some.inj hxy2
        subst hcseq
        have hchild : ∀ xp yp : Nat, xp = 2 * b.x ∨ xp = 2 * b.x + 1 →
            yp = 2 * b.y ∨ yp = 2 * b.y + 1 →
            (ImageBlock.new xp yp (b.kx - 1) (b.ky - 1)
                b.n_theta).is_superpixel = false ∧
            (ImageBlock.new xp yp (b.kx - 1) (b.ky - 1)
                b.n_theta).pixel_index = b.pixel_index := by
          intro xp yp hxp hyp
          refine ⟨is_superpixel_new (by omega) (by omega) b.n_theta, ?_⟩
          apply pixelIndex_eq
          · exact child_pixel_x_eq hkks.1 hxp
          · exact child_pixel_y_eq hkks.2 hyp
        refine ⟨?_, ?_, ?_⟩
        · intro cf hcf p hp
          simp only [List.mem_cons, List.not_mem_nil, or_false] at hcf
          rcases hcf with rfl | rfl | rfl | rfl
          · exact hsubc _ (hchild _ _ (Or.inl rfl) (Or.inl rfl)).1
              (hchild _ _ (Or.inl rfl) (Or.inl rfl)).2 p hp
          · exact hsubc _ (hchild _ _ (Or.inr rfl) (Or.inl rfl)).1
              (hchild _ _ (Or.inr rfl) (Or.inl rfl)).2 p hp
          · exact hsubc _ (hchild _ _ (Or.inl rfl) (Or.inr rfl)).1
              (hchild _ _ (Or.inl rfl) (Or.inr rfl)).2 p hp
          · exact hsubc _ (hchild _ _ (Or.inr rfl) (Or.inr rfl)).1
              (hchild _ _ (Or.inr rfl) (Or.inr rfl)).2 p hp
        · exact ⟨fun hcon => Bool.noConfusion hcon,
            fun hcon => Bool.noConfusion hcon,
            fun hcon => Bool.noConfusion hcon,
            fun _ cc hcc => absurd hcc (List.not_mem_nil cc), trivial⟩
        · intro cf hcf _
          simp only [List.mem_cons, List.not_mem_nil, or_false] at hcf
          rcases hcf with rfl | rfl | rfl | rfl
          · exact ⟨(hchild _ _ (Or.inl rfl) (Or.inl rfl)).1,
              (hchild _ _ (Or.inl rfl) (Or.inl rfl)).2, hbns⟩
          · exact ⟨(hchild _ _ (Or.inr rfl) (Or.inl rfl)).1,
              (hchild _ _ (Or.inr rfl) (Or.inl rfl)).2, hbns⟩
          · exact ⟨(hchild _ _ (Or.inl rfl) (Or.inr rfl)).1,
              (hchild _ _ (Or.inl rfl) (Or.inr rfl)).2, hbns⟩
          · exact ⟨(hchild _ _ (Or.inr rfl) (Or.inr rfl)).1,
              (hchild _ _ (Or.inr rfl) (Or.inr rfl)).2, hbns⟩

/-- Unfolding the children loop on a completed child. -/
theorem process_children_cons_complete (om : Oracle) (bi nb : Nat)
    (c : ImageBlock) (fl : Bool) (rest : List (ImageBlock × Bool))
    (im im1 : Image) (ec acc : Nat)
    (h : refine_child om im c fl bi ec = some (im1, true)) :
    process_children om bi nb ((c, fl) :: rest) im ec acc
      = process_children om bi nb rest im1 (ec + 1) acc := by
  simp only [process_children, h, if_true]

/-- Unfolding the children loop on an incomplete child. -/
theorem process_children_cons_incomplete (om : Oracle) (bi nb : Nat)
    (c : ImageBlock) (fl : Bool) (rest : List (ImageBlock × Bool))
    (im im1 : Image) (ec acc : Nat)
    (h : refine_child om im c fl bi ec = some (im1, false)) :
    process_children om bi nb ((c, fl) :: rest) im ec acc
      = match set_last_queued_block im1 c (nb + acc) with
        | Except.error e => some (Except.error e)
        | Except.ok im3 =>
          match process_children om bi nb rest im3 (ec + 1) (acc + 1) with
          | none => none
          | some (Except.error e) => some (Except.error e)
          | some (Except.ok (im4, ec4, l)) =>
            some (Except.ok (im4, ec4, c :: l)) := by
  simp only [process_children, h, Bool.false_eq_true, if_false]

/-- Introduction form for `postL` on a head child. -/
theorem postL_cons {im : Image} {nb k : Nat} {c : ImageBlock}
    {l : List ImageBlock}
    (h1 : ∀ p ∈ cov_pixels im c, im.state p ≠ PixelState.False ∧
      nb + k ≤ im.last_queued_block p)
    (h2 : c.is_superpixel = false →
      c.pixel_index.x < im.width ∧ c.pixel_index.y < im.height)
    (h3 : postL im nb (k + 1) l) : postL im nb k (c :: l) := by
  simp only [postL]
  exact ⟨h1, h2, h3⟩

/-- The children loop of `refine_impl`, run on children covering no `False`
pixel that obey the sibling discipline, never panics: it either aborts with
`BlockIndexOverflow` (an overflowing future queue index) or returns the
incomplete children.  `S` is any set of pixels protected by a last-queued
index above the popped index `bi` (with per-pixel lower bounds `T`): such
pixels never become `False`, and their last-queued indices never drop.  The
returned children satisfy `postL`: no `False` on their pixels, and
last-queued indices at least their future queue indices. -/
theorem process_children_spec (om : Oracle) (bi nb : Nat) (hbinb : bi < nb) :
    ∀ (cs : List (ImageBlock × Bool)) (S : PixelIndex → Prop)
      (T : PixelIndex → Nat) (im : Image) (ec acc : Nat),
      (∀ cf ∈ cs, ∀ p ∈ cov_pixels im cf.1, im.state p ≠ PixelState.False) →
      sibOK im cs →
      (∀ cf ∈ cs, cf.1.is_subpixel = true → cf.1.is_superpixel = false ∧
        cf.1.pixel_index.x < im.width ∧ cf.1.pixel_index.y < im.height) →
      (∀ p, S p → im.state p ≠ PixelState.False ∧
        T p ≤ im.last_queued_block p ∧ bi < im.last_queued_block p ∧
        T p ≤ nb + acc) →
      (∀ p, im.last_queued_block p < nb + acc) →
      (process_children om bi nb cs im ec acc
          = some (Except.error ⟨GraphingErrorKind.BlockIndexOverflow⟩)) ∨
      ∃ im2 ec2 l, process_children om bi nb cs im ec acc
          = some (Except.ok (im2, ec2, l)) ∧
        l.length ≤ cs.length ∧
        (∀ c ∈ l, ∃ fl, (c, fl) ∈ cs) ∧
        (∀ i, i < l.length → nb + acc + i < 2 ^ 32) ∧
        im2.width = im.width ∧ im2.height = im.height ∧
        (∀ p, S p → im2.state p ≠ PixelState.False ∧
          T p ≤ im2.last_queued_block p ∧ bi < im2.last_queued_block p) ∧
        (∀ p, im2.last_queued_block p < nb + acc + l.length) ∧
        postL im2 nb acc l := by
  intro cs
  induction cs with
  | nil =>
    intro S T im ec acc hC hSib hIn hS hlq
    refine Or.inr ⟨im, ec, [], rfl, by simp, ?_, ?_, rfl, rfl, ?_, ?_, trivial⟩
    · intro c hc
      exact absurd hc (List.not_mem_nil c)
    · intro i hi
      exact absurd hi (by simp)
    · intro p hp
      obtain ⟨h1, h2, h3, _⟩ := hS p hp
      exact ⟨h1, h2, h3⟩
    · intro p
      simp only [List.length_nil, Nat.add_zero]
      exact hlq p
  | cons cf rest ih =>
    intro S T im ec acc hC hSib hIn hS hlq
    obtain ⟨c, fl⟩ := cf
    have hCc : ∀ p ∈ cov_pixels im c, im.state p ≠ PixelState.False :=
      hC (c, fl) (by simp)
    have hInc : c.is_subpixel = true → c.is_superpixel = false ∧
        c.pixel_index.x < im.width ∧ c.pixel_index.y < im.height :=
      hIn (c, fl) (by simp)
    obtain ⟨im1, complete, hrc, hw1, hh1, hlq1, hF1, hinc_eq, hinc_in⟩ :=
      refine_child_spec om im c fl bi ec hCc hInc
    by_cases hcomp : complete = true
    · subst hcomp
      have hstep := process_children_cons_complete om bi nb c fl rest
        im im1 ec acc hrc
      have hC2 : ∀ cf2 ∈ rest, ∀ p ∈ cov_pixels im1 cf2.1,
          im1.state p ≠ PixelState.False := by
        intro cf2 hcf2 p hp hcon
        rw [cov_pixels_congr hw1 hh1] at hp
        rcases hF1 p hcon with h1 | ⟨hflt, q, hqc, hqe, hqlq⟩
        · exact hC cf2 (by simp [hcf2]) p hp h1
        · have hpv := cov_pixels_valid hp
          have hqv := cov_pixels_valid hqc
          have hpq : p = q := index_inj hpv.1 hqv.1 hqe
          subst hpq
          exact (hSib.1 hflt cf2 hcf2 p hqc) hp
      have hSib2 : sibOK im1 rest := sibOK_congr hw1 hh1 rest hSib.2
      have hIn2 : ∀ cf2 ∈ rest, cf2.1.is_subpixel = true →
          cf2.1.is_superpixel = false ∧ cf2.1.pixel_index.x < im1.width ∧
          cf2.1.pixel_index.y < im1.height := by
        intro cf2 hcf2 hs
        obtain ⟨h1, h2, h3⟩ := hIn cf2 (by simp [hcf2]) hs
        rw [hw1, hh1]
        exact ⟨h1, h2, h3⟩
      have hS2 : ∀ p, S p → im1.state p ≠ PixelState.False ∧
          T p ≤ im1.last_queued_block p ∧ bi < im1.last_queued_block p ∧
          T p ≤ nb + acc := by
        intro p hp
        obtain ⟨h1, h2, h3, h4⟩ := hS p hp
        refine ⟨?_, by rw [hlq1]; exact h2, by rw [hlq1]; exact h3, h4⟩
        intro hcon
        rcases hF1 p hcon with h5 | ⟨hflt, q, hqc, hqe, hqlq⟩
        · exact h1 h5
        · have hpq : im.last_queued_block p = im.last_queued_block q := by
            unfold Image.last_queued_block
            rw [hqe]
          rw [hpq, hqlq] at h3
          exact lt_irrefl bi h3
      have hlq2 : ∀ p, im1.last_queued_block p < nb + acc := by
        intro p
        rw [hlq1]
        exact hlq p
      rcases ih S T im1 (ec + 1) acc hC2 hSib2 hIn2 hS2 hlq2 with herr | hok
      · rw [hstep]
        exact Or.inl herr
      · obtain ⟨im2, ec2, l, hrun, hlen, hmem, hidx, hwl, hhl, hSl, hlql,
          hpost⟩ := hok
        rw [hstep]
        refine Or.inr ⟨im2, ec2, l, hrun,
          by simp only [List.length_cons]; omega, ?_, hidx,
          by rw [hwl, hw1], by rw [hhl, hh1], hSl, hlql, hpost⟩
        intro c2 hc2
        obtain ⟨fl2, hfl2⟩ := hmem c2 hc2
        exact ⟨fl2, by simp [hfl2]⟩
    · have hcompf : complete = false := by
        cases complete
        · rfl
        · exact absurd rfl hcomp
      subst hcompf
      obtain rfl : im = im1 := (hinc_eq rfl).symm
      rcases set_last_spec im c (nb + acc) with ⟨hvge, herr⟩ |
        ⟨im3, hvlt, hok3, hw3, hh3, hst3, hlqor, hlqcov⟩
      · have hstep := process_children_cons_incomplete om bi nb c fl rest
          im im ec acc hrc
        rw [herr] at hstep
        rw [hstep]
        exact Or.inl rfl
      · have hstep0 := process_children_cons_incomplete om bi nb c fl rest
          im im ec acc hrc
        rw [hok3] at hstep0
        have hstep : process_children om bi nb ((c, fl) :: rest) im ec acc
            = match process_children om bi nb rest im3 (ec + 1) (acc + 1) with
              | none => none
              | some (Except.error e) => some (Except.error e)
              | some (Except.ok (im4, ec4, l)) =>
                some (Except.ok (im4, ec4, c :: l)) := hstep0
        have hC2 : ∀ cf2 ∈ rest, ∀ p ∈ cov_pixels im3 cf2.1,
            im3.state p ≠ PixelState.False := by
          intro cf2 hcf2 p hp
          rw [hst3]
          rw [cov_pixels_congr hw3 hh3] at hp
          exact hC cf2 (by simp [hcf2]) p hp
        have hSib2 : sibOK im3 rest := sibOK_congr hw3 hh3 rest hSib.2
        have hIn2 : ∀ cf2 ∈ rest, cf2.1.is_subpixel = true →
            cf2.1.is_superpixel = false ∧ cf2.1.pixel_index.x < im3.width ∧
            cf2.1.pixel_index.y < im3.height := by
          intro cf2 hcf2 hs
          obtain ⟨h1, h2, h3⟩ := hIn cf2 (by simp [hcf2]) hs
          rw [hw3, hh3]
          exact ⟨h1, h2, h3⟩
        have hS2 : ∀ p, (S p ∨ p ∈ cov_pixels im c) →
            im3.state p ≠ PixelState.False ∧
            (if p ∈ cov_pixels im c then nb + acc else T p)
              ≤ im3.last_queued_block p ∧
            bi < im3.last_queued_block p ∧
            (if p ∈ cov_pixels im c then nb + acc else T p)
              ≤ nb + (acc + 1) := by
          intro p hp
          by_cases hpc : p ∈ cov_pixels im c
          · rw [if_pos hpc]
            have hlqv := hlqcov p hpc
            refine ⟨?_, by rw [hlqv], by rw [hlqv]; omega, by omega⟩
            rw [hst3]
            exact hCc p hpc
          · rw [if_neg hpc]
            rcases hp with hp | hp
            · obtain ⟨h1, h2, h3, h4⟩ := hS p hp
              refine ⟨by rw [hst3]; exact h1, ?_, ?_, by omega⟩
              · rcases hlqor p with he | he
                · rw [he]
                  exact h2
                · rw [he]
                  omega
              · rcases hlqor p with he | he
                · rw [he]
                  exact h3
                · rw [he]
                  omega
            · exact absurd hp hpc
        have hlq2 : ∀ p, im3.last_queued_block p < nb + (acc + 1) := by
          intro p
          rcases hlqor p with he | he
          · rw [he]
            have := hlq p
            omega
          · rw [he]
            omega
        rcases ih (fun p => S p ∨ p ∈ cov_pixels im c)
            (fun p => if p ∈ cov_pixels im c then nb + acc else T p)
            im3 (ec + 1) (acc + 1) hC2 hSib2 hIn2 hS2 hlq2 with herr2 | hok2
        · rw [hstep, herr2]
          exact Or.inl rfl
        · obtain ⟨im2, ec2, l, hrun, hlen, hmem, hidx, hwl, hhl, hSl, hlql,
            hpost⟩ := hok2
          rw [hstep, hrun]
          refine Or.inr ⟨im2, ec2, c :: l, rfl,
            by simp only [List.length_cons]; omega, ?_, ?_,
            by rw [hwl, hw3], by rw [hhl, hh3], ?_, ?_, ?_⟩
          · intro c2 hc2
            rcases List.mem_cons.mp hc2 with rfl | hc3
            · exact ⟨fl, by simp⟩
            · obtain ⟨fl2, hfl2⟩ := hmem c2 hc3
              exact ⟨fl2, by simp [hfl2]⟩
          · intro i hi
            cases i with
            | zero => simpa using hvlt
            | succ j =>
              have := hidx j (by simp only [List.length_cons] at hi; omega)
              omega
          · intro p hp
            obtain ⟨h1, h2, h3⟩ := hSl p (Or.inl hp)
            refine ⟨h1, ?_, h3⟩
            by_cases hpc : p ∈ cov_pixels im c
            · have h4 := (hS p hp).2.2.2
              rw [if_pos hpc] at h2
              omega
            · rw [if_neg hpc] at h2
              exact h2
          · intro p
            have := hlql p
            simp only [List.length_cons]
            omega
          · -- postL for c :: l
            refine postL_cons ?_ ?_ hpost
            · intro p hp
              have hcc : cov_pixels im2 c = cov_pixels im c :=
                cov_pixels_congr (by rw [hwl, hw3]) (by rw [hhl, hh3]) c
              rw [hcc] at hp
              obtain ⟨h1, h2, h3⟩ := hSl p (Or.inr hp)
              rw [if_pos hp] at h2
              exact ⟨h1, h2⟩
            · intro hns
              have hb2 := hinc_in rfl hns
              rw [hwl, hw3, hhl, hh3]
              exact hb2

/-- Unfolding one full iteration on a popped block whose subdivision
succeeds and whose index fits in a `u32`. -/
theorem full_step_cons (g : GraphEnv) (om : Oracle) (im : Image) (bi : Nat)
    (b : ImageBlock) (rest : List (Nat × ImageBlock)) (nb ec : Nat)
    (cs : List (ImageBlock × Bool))
    (hcs : (match b.next_dir with
      | SubdivisionDir.NTheta => subdivide_on_n_theta b
      | SubdivisionDir.XY => subdivide_on_xy g b) = some cs)
    (hbi : ¬(cs.length ≠ 0 ∧ 2 ^ 32 ≤ bi)) :
    full_step g om ⟨im, (bi, b) :: rest, nb, ec⟩
      = match process_children om bi nb cs im ec 0 with
        | none => none
        | some (Except.error e) => some (FullOut.done (Except.error e))
        | some (Except.ok (im2, ec2, l)) =>
          match choose_next_dir g b l.length cs.length with
          | Except.error e => some (FullOut.done (Except.error e))
          | Except.ok d =>
            some (FullOut.next
              ⟨im2, rest ++ enqueue nb d l, nb + l.length, ec2⟩) := by
  show (match (match b.next_dir with
      | SubdivisionDir.NTheta => subdivide_on_n_theta b
      | SubdivisionDir.XY => subdivide_on_xy g b) with
    | none => none
    | some cs2 =>
      if cs2.length ≠ 0 ∧ 2 ^ 32 ≤ bi then none
      else match process_children om bi nb cs2 im ec 0 with
        | none => none
        | some (Except.error e) => some (FullOut.done (Except.error e))
        | some (Except.ok (im2, ec2, l)) =>
          match choose_next_dir g b l.length cs2.length with
          | Except.error e => some (FullOut.done (Except.error e))
          | Except.ok d =>
            some (FullOut.next
              ⟨im2, rest ++ enqueue nb d l, nb + l.length, ec2⟩)) = _
  rw [hcs]
  show (if cs.length ≠ 0 ∧ 2 ^ 32 ≤ bi then none
      else match process_children om bi nb cs im ec 0 with
        | none => none
        | some (Except.error e) => some (FullOut.done (Except.error e))
        | some (Except.ok (im2, ec2, l)) =>
          match choose_next_dir g b l.length cs.length with
          | Except.error e => some (FullOut.done (Except.error e))
          | Except.ok d =>
            some (FullOut.next
              ⟨im2, rest ++ enqueue nb d l, nb + l.length, ec2⟩)) = _
  rw [if_neg hbi]

/-- Every re-queued index is at least the starting back index. -/
theorem enqueue_ge (d : SubdivisionDir) :
    ∀ (l : List ImageBlock) (nb : Nat) (q : Nat × ImageBlock),
      q ∈ enqueue nb d l → nb ≤ q.1 := by
  intro l nb q hq
  obtain ⟨⟨i, hi, hqi⟩, -⟩ := enqueue_mem d l nb q hq
  omega

/-- The re-queued indices strictly increase. -/
theorem enqueue_pairwise (d : SubdivisionDir) :
    ∀ (l : List ImageBlock) (nb : Nat),
      List.Pairwise (fun a c => a.1 < c.1) (enqueue nb d l) := by
  intro l
  induction l with
  | nil => intro nb; exact List.Pairwise.nil
  | cons c rest ih =>
    intro nb
    simp only [enqueue]
    refine List.pairwise_cons.mpr ⟨?_, ih (nb + 1)⟩
    intro q hq
    have := enqueue_ge d rest (nb + 1) q hq
    show nb < q.1
    omega

/-- `postL` gives the image bounds of every non-superpixel returned child. -/
theorem postL_mem {im : Image} {nb : Nat} :
    ∀ (l : List ImageBlock) (k : Nat), postL im nb k l →
      ∀ c ∈ l, c.is_superpixel = false →
        c.pixel_index.x < im.width ∧ c.pixel_index.y < im.height := by
  intro l
  induction l with
  | nil =>
    intro k _ c hc
    exact absurd hc (List.not_mem_nil c)
  | cons a rest ih =>
    intro k hpost c hc
    simp only [postL] at hpost
    rcases List.mem_cons.mp hc with rfl | hc2
    · exact hpost.2.1
    · exact ih (k + 1) hpost.2.2 c hc2

/-- `postL` transfers to the re-queue: every re-queued block covers no
`False` pixel and its index is recorded in the covered last-queued
indices. -/
theorem enqueue_safety (d : SubdivisionDir) (im : Image) (nb : Nat) :
    ∀ (l : List ImageBlock) (k : Nat), postL im nb k l →
      ∀ q ∈ enqueue (nb + k) d l, ∀ p ∈ cov_pixels im q.2,
        im.state p ≠ PixelState.False ∧ q.1 ≤ im.last_queued_block p := by
  intro l
  induction l with
  | nil =>
    intro k _ q hq
    simp [enqueue] at hq
  | cons c rest ih =>
    intro k hpost q hq
    simp only [postL] at hpost
    obtain ⟨h1, h2, h3⟩ := hpost
    simp only [enqueue] at hq
    rcases List.mem_cons.mp hq with rfl | hq2
    · intro p hp
      have hp2 : p ∈ cov_pixels im c := hp
      obtain ⟨ha, hb2⟩ := h1 p hp2
      exact ⟨ha, hb2⟩
    · intro p hp
      exact ih (k + 1) h3 q hq2 p hp

/-- One full iteration from a well-formed state with a nonempty queue never
panics: it returns `ReachedSubdivisionLimit` or `BlockIndexOverflow`, or
continues in a well-formed state. -/
theorem full_step_spec (g : GraphEnv) (om : Oracle) (im : Image) (bi : Nat)
    (b : ImageBlock) (rest : List (Nat × ImageBlock)) (nb ec : Nat)
    (hwf : FullWF g ⟨im, (bi, b) :: rest, nb, ec⟩) :
    (∃ k, full_step g om ⟨im, (bi, b) :: rest, nb, ec⟩
        = some (FullOut.done (Except.error ⟨k⟩)) ∧
      (k = GraphingErrorKind.ReachedSubdivisionLimit ∨
       k = GraphingErrorKind.BlockIndexOverflow)) ∨
    (∃ s2, full_step g om ⟨im, (bi, b) :: rest, nb, ec⟩
        = some (FullOut.next s2) ∧ FullWF g s2) := by
  obtain ⟨hW1r, hW2r, hW3r, hW4r⟩ := hwf
  have hW1 : ∀ q ∈ (bi, b) :: rest, q.1 < 2 ^ 32 ∧ q.1 < nb ∧ BWF g q.2 ∧
      (q.2.is_superpixel = false → q.2.pixel_index.x < im.width ∧
        q.2.pixel_index.y < im.height) := hW1r
  have hW2 : List.Pairwise (fun a c => a.1 < c.1) ((bi, b) :: rest) := hW2r
  have hW3 : ∀ q ∈ (bi, b) :: rest, ∀ p ∈ cov_pixels im q.2,
      im.state p ≠ PixelState.False ∧ q.1 ≤ im.last_queued_block p := hW3r
  have hW4 : ∀ p : PixelIndex, im.last_queued_block p < nb := hW4r
  obtain ⟨hbi32, hbinb, hBWF, hInB⟩ := hW1 (bi, b) (by simp)
  obtain ⟨hdir, hsqr, hpolar, hnonpolar⟩ := hBWF
  obtain ⟨cs, hcs, hne, hlen4, hall⟩ :=
    children_ok g b hdir hsqr hpolar hnonpolar
  obtain ⟨hcsub, hsib, hsubp3⟩ := children_cov g b im hsqr hcs
  have hstep := full_step_cons g om im bi b rest nb ec cs hcs
    (by rintro ⟨-, hge⟩; omega)
  have hC : ∀ cf ∈ cs, ∀ p ∈ cov_pixels im cf.1,
      im.state p ≠ PixelState.False := by
    intro cf hcf p hp
    exact (hW3 (bi, b) (by simp) p (hcsub cf hcf p hp)).1
  have hIn : ∀ cf ∈ cs, cf.1.is_subpixel = true →
      cf.1.is_superpixel = false ∧ cf.1.pixel_index.x < im.width ∧
      cf.1.pixel_index.y < im.height := by
    intro cf hcf hs
    obtain ⟨h1, h2, h3⟩ := hsubp3 cf hcf hs
    have hbin := hInB h3
    rw [h2]
    exact ⟨h1, hbin.1, hbin.2⟩
  have hS : ∀ p : PixelIndex, (∃ q ∈ rest, p ∈ cov_pixels im q.2) →
      im.state p ≠ PixelState.False ∧
      im.last_queued_block p ≤ im.last_queued_block p ∧
      bi < im.last_queued_block p ∧ im.last_queued_block p ≤ nb + 0 := by
    intro p hp
    obtain ⟨q, hq, hpc⟩ := hp
    have h3 := hW3 q (by simp [hq]) p hpc
    have hjbi : bi < q.1 := (List.pairwise_cons.mp hW2).1 q hq
    have h4 := hW4 p
    exact ⟨h3.1, le_refl _, by omega, by omega⟩
  have hlq0 : ∀ p : PixelIndex, im.last_queued_block p < nb + 0 := by
    intro p
    have := hW4 p
    omega
  rcases process_children_spec om bi nb hbinb cs
      (fun p => ∃ q ∈ rest, p ∈ cov_pixels im q.2)
      (fun p => im.last_queued_block p) im ec 0 hC hsib hIn hS hlq0 with
    herr | hok
  · rw [herr] at hstep
    exact Or.inl ⟨GraphingErrorKind.BlockIndexOverflow, hstep, Or.inr rfl⟩
  · obtain ⟨im2, ec2, l, hrun, hlen, hmem, hidx, hw2, hh2, hS2, hlq2,
      hpost⟩ := hok
    rw [hrun] at hstep
    have hstep2 : full_step g om ⟨im, (bi, b) :: rest, nb, ec⟩
        = match choose_next_dir g b l.length cs.length with
          | Except.error e => some (FullOut.done (Except.error e))
          | Except.ok d =>
            some (FullOut.next
              ⟨im2, rest ++ enqueue nb d l, nb + l.length, ec2⟩) := hstep
    cases hcd : choose_next_dir g b l.length cs.length with
    | error e =>
      rw [hcd] at hstep2
      have he := choose_next_dir_err hcd
      rw [he] at hstep2
      exact Or.inl ⟨GraphingErrorKind.ReachedSubdivisionLimit, hstep2,
        Or.inl rfl⟩
    | ok d =>
      rw [hcd] at hstep2
      refine Or.inr ⟨⟨im2, rest ++ enqueue nb d l, nb + l.length, ec2⟩,
        hstep2, ?_⟩
      obtain ⟨hdXY, hdNT, hdnp⟩ := choose_next_dir_ok hcd
      have hlw : ∀ c ∈ l, BWF g { c with next_dir := d } := by
        intro c hc
        obtain ⟨fl2, hfl2⟩ := hmem c hc
        exact (hall (c, fl2) hfl2 d hdXY hdNT hdnp).2
      refine ⟨?_, ?_, ?_, ?_⟩
      · intro q hq
        rcases List.mem_append.mp hq with hq1 | hq2
        · obtain ⟨h32, hlt, hb2, hin2⟩ := hW1 q (by simp [hq1])
          refine ⟨h32, by show q.1 < nb + l.length; omega, hb2, ?_⟩
          intro hns
          have hb3 := hin2 hns
          show q.2.pixel_index.x < im2.width ∧ q.2.pixel_index.y < im2.height
          rw [hw2, hh2]
          exact hb3
        · obtain ⟨⟨i, hi, hqi⟩, c, hcl, hqc⟩ := enqueue_mem d l nb q hq2
          refine ⟨?_, ?_, ?_, ?_⟩
          · have := hidx i hi
            omega
          · show q.1 < nb + l.length
            omega
          · rw [hqc]
            exact hlw c hcl
          · intro hns
            rw [hqc] at hns
            have hns2 : c.is_superpixel = false := hns
            have hb3 := postL_mem l 0 hpost c hcl hns2
            show q.2.pixel_index.x < im2.width ∧ q.2.pixel_index.y < im2.height
            rw [hqc]
            exact hb3
      · rw [List.pairwise_append]
        refine ⟨(List.pairwise_cons.mp hW2).2, enqueue_pairwise d l nb, ?_⟩
        intro a2 ha2 c2 hc2
        obtain ⟨-, hlt, -, -⟩ := hW1 a2 (by simp [ha2])
        have := enqueue_ge d l nb c2 hc2
        show a2.1 < c2.1
        omega
      · intro q hq p hp
        have hcov2 : cov_pixels im2 q.2 = cov_pixels im q.2 :=
          cov_pixels_congr hw2 hh2 q.2
        rcases List.mem_append.mp hq with hq1 | hq2
        · rw [hcov2] at hp
          obtain ⟨h1, h2, h3⟩ := hS2 p ⟨q, hq1, hp⟩
          have hj := (hW3 q (by simp [hq1]) p hp).2
          exact ⟨h1, by show q.1 ≤ im2.last_queued_block p; omega⟩
        · exact enqueue_safety d im2 nb l 0 hpost q hq2 p hp
      · intro p
        have := hlq2 p
        show im2.last_queued_block p < nb + l.length
        omega

/-- Running the full loop from a well-formed state never panics, for any
amount of fuel. -/
theorem run_full_no_panic (g : GraphEnv) (om : Oracle) :
    ∀ (fuel : Nat) (s : FullState), FullWF g s →
      run_full g om fuel s ≠ RunResult.panic := by
  intro fuel
  induction fuel with
  | zero =>
    intro s _ hcon
    exact RunResult.noConfusion hcon
  | succ fuel ih =>
    intro s hwf
    obtain ⟨im, queue, nb, ec⟩ := s
    cases queue with
    | nil =>
      intro hcon
      exact RunResult.noConfusion hcon
    | cons q rest =>
      obtain ⟨bi, b⟩ := q
      rcases full_step_spec g om im bi b rest nb ec hwf with
        ⟨k, hstep, -⟩ | ⟨s2, hstep, hwf2⟩
      · intro hcon
        rw [show run_full g om (fuel + 1) ⟨im, (bi, b) :: rest, nb, ec⟩
            = (match full_step g om ⟨im, (bi, b) :: rest, nb, ec⟩ with
              | none => RunResult.panic
              | some (FullOut.done r) => RunResult.res r
              | some (FullOut.next s3) => run_full g om fuel s3) from rfl,
          hstep] at hcon
        exact RunResult.noConfusion hcon
      · intro hcon
        rw [show run_full g om (fuel + 1) ⟨im, (bi, b) :: rest, nb, ec⟩
            = (match full_step g om ⟨im, (bi, b) :: rest, nb, ec⟩ with
              | none => RunResult.panic
              | some (FullOut.done r) => RunResult.res r
              | some (FullOut.next s3) => run_full g om fuel s3) from rfl,
          hstep] at hcon
        exact ih s2 hwf2 hcon

/-- The initial state built by `Graph::new` (graph.rs lines 185-232):
`k = ceil(log2(max(im_width, im_height)))` (exact for `u32` sizes, so
`Nat.clog`); for a polar relation the three seed blocks carry the branch
intervals `(-inf, -1]`, `[0, 0]`, `[1, +inf)`, the last-queued index of the
third seed is recorded as `2` before the three are pushed with indices
`0`, `1`, `2`; otherwise a single block with the entire interval is pushed.
The `.unwrap()` on the seed `set_last_queued_block` call always succeeds
(`2 < 2^32`); the impossible error branch keeps the fresh image. -/
def graph_new_state (g : GraphEnv) (w h : Nat) : FullState :=
  let k : Int := (Nat.clog 2 (max w h) : Int)
  let im := Image.new w h
  if g.relation_type = RelationType.Polar then
    let b2 := ImageBlock.new 0 0 k k ⟨XF.fin 1, XF.posInf⟩
    ⟨(match set_last_queued_block im b2 2 with
      | Except.ok im2 => im2
      | Except.error _ => im),
     [(0, ImageBlock.new 0 0 k k ⟨XF.negInf, XF.fin (-1)⟩),
      (1, ImageBlock.new 0 0 k k ⟨XF.fin 0, XF.fin 0⟩),
      (2, b2)], 3, 0⟩
  else
    ⟨im, [(0, ImageBlock.new 0 0 k k XInt.entire)], 1, 0⟩

/-- The seed pixel of `Graph::new` sits at the origin. -/
theorem pixel_index_seed (k : Int) (n : XInt) :
    (ImageBlock.new 0 0 k k n).pixel_index = ⟨0, 0⟩ := by
  unfold ImageBlock.new ImageBlock.pixel_index
  split_ifs <;> simp

/-- The state of `Graph::new` satisfies the safety invariant (the source
image constructor asserts positive width and height). -/
theorem graph_new_wf (g : GraphEnv) (w h : Nat) (hw : 0 < w) (hh : 0 < h) :
    FullWF g (graph_new_state g w h) := by
  have hk0 : (0:Int) ≤ (Nat.clog 2 (max w h) : Int) := Int.natCast_nonneg _
  have hBWFseed : ∀ n : XInt, (g.relation_type = RelationType.Polar →
        NThetaWF n) →
      BWF g (ImageBlock.new 0 0 (Nat.clog 2 (max w h) : Int)
        (Nat.clog 2 (max w h) : Int) n) := by
    intro n hn
    refine ⟨fun _ => ⟨?_, ?_⟩, fun _ => rfl, hn, fun _ => rfl⟩
    · show MIN_K ≤ (Nat.clog 2 (max w h) : Int)
      rw [show MIN_K = -15 from rfl]
      omega
    · show MIN_K ≤ (Nat.clog 2 (max w h) : Int)
      rw [show MIN_K = -15 from rfl]
      omega
  simp only [graph_new_state]
  by_cases hpol : g.relation_type = RelationType.Polar
  · rw [if_pos hpol]
    rcases set_last_spec (Image.new w h)
        (ImageBlock.new 0 0 (Nat.clog 2 (max w h) : Int)
          (Nat.clog 2 (max w h) : Int) ⟨XF.fin 1, XF.posInf⟩) 2 with
      ⟨hge, -⟩ | ⟨im2, _, hok, hw2, hh2, hst2, hlqor, hlqcov⟩
    · exact absurd hge (by norm_num)
    · rw [hok]
      have hwid : im2.width = w := by
        rw [hw2]
        rfl
      have hhei : im2.height = h := by
        rw [hh2]
        rfl
      refine ⟨?_, ?_, ?_, ?_⟩
      · intro q hq
        simp only [List.mem_cons, List.not_mem_nil, or_false] at hq
        have hInB : ∀ n : XInt,
            (ImageBlock.new 0 0 (Nat.clog 2 (max w h) : Int)
              (Nat.clog 2 (max w h) : Int) n).is_superpixel = false →
            (ImageBlock.new 0 0 (Nat.clog 2 (max w h) : Int)
              (Nat.clog 2 (max w h) : Int) n).pixel_index.x < im2.width ∧
            (ImageBlock.new 0 0 (Nat.clog 2 (max w h) : Int)
              (Nat.clog 2 (max w h) : Int) n).pixel_index.y < im2.height := by
          intro n _
          rw [pixel_index_seed, hwid, hhei]
          exact ⟨hw, hh⟩
        rcases hq with rfl | rfl | rfl
        · exact ⟨by norm_num, by norm_num,
            hBWFseed _ (fun _ => Or.inr (Or.inr (Or.inl ⟨0, by norm_num⟩))),
            hInB _⟩
        · exact ⟨by norm_num, by norm_num,
            hBWFseed _ (fun _ => Or.inl ⟨0, by norm_num⟩), hInB _⟩
        · exact ⟨by norm_num, by norm_num,
            hBWFseed _ (fun _ => Or.inr (Or.inr (Or.inr ⟨0, by norm_num⟩))),
            hInB _⟩
      · refine List.pairwise_cons.mpr ⟨?_, List.pairwise_cons.mpr
          ⟨?_, List.pairwise_cons.mpr ⟨?_, List.Pairwise.nil⟩⟩⟩
        · intro q hq
          simp only [List.mem_cons, List.not_mem_nil, or_false] at hq
          rcases hq with rfl | rfl
          · exact Nat.zero_lt_one
          · exact Nat.zero_lt_two
        · intro q hq
          simp only [List.mem_cons, List.not_mem_nil, or_false] at hq
          subst hq
          exact Nat.one_lt_two
        · intro q hq
          exact absurd hq (List.not_mem_nil q)
      · intro q hq p hp
        have hst : im2.state p = PixelState.Uncertain := by
          rw [hst2]
          rfl
        refine ⟨by rw [hst]; exact fun hcon => PixelState.noConfusion hcon, ?_⟩
        have hcc : cov_pixels im2 q.2 = cov_pixels (Image.new w h) q.2 :=
          cov_pixels_congr hw2 hh2 q.2
        rw [hcc] at hp
        simp only [List.mem_cons, List.not_mem_nil, or_false] at hq
        have hl2 : im2.last_queued_block p = 2 := by
          rcases hq with rfl | rfl | rfl
          · exact hlqcov p hp
          · exact hlqcov p hp
          · exact hlqcov p hp
        rcases hq with rfl | rfl | rfl
        · rw [hl2]
          norm_num
        · rw [hl2]
          norm_num
        · rw [hl2]
      · intro p
        rcases hlqor p with he | he
        · rw [he]
          show (Image.new w h).last_queued_blocks _ < 3
          norm_num [Image.new]
        · rw [he]
          norm_num
  · rw [if_neg hpol]
    refine ⟨?_, ?_, ?_, ?_⟩
    · intro q hq
      simp only [List.mem_cons, List.not_mem_nil, or_false] at hq
      subst hq
      refine ⟨by norm_num, by norm_num, hBWFseed _ (fun hc => absurd hc hpol),
        ?_⟩
      intro _
      rw [pixel_index_seed]
      exact ⟨hw, hh⟩
    · exact List.pairwise_cons.mpr
        ⟨fun q hq => absurd hq (List.not_mem_nil q), List.Pairwise.nil⟩
    · intro q hq p hp
      refine ⟨fun hcon => PixelState.noConfusion hcon, ?_⟩
      simp only [List.mem_cons, List.not_mem_nil, or_false] at hq
      subst hq
      exact Nat.zero_le _
    · intro p
      exact Nat.zero_lt_one

/-- C10.  In every state reachable by `Graph::new` followed by any sequence
of refinement iterations — any image size, relation type, and
relation-evaluation oracle — no popped block ever covers a `False` pixel:
the assertions `assert_ne!(state, PixelState::False)` in `refine_pixel` and
`refine_subpixel` never fire, and the loop never panics at all.  The
sibling and last-queued-block discipline guarantees a pixel is finalized
`False` only when no queued block still covers it: a `False` write requires
the pixel's last-queued index to equal the popped index, while every queued
block covering the pixel keeps that index strictly larger. -/
theorem refine_assertions_never_fire (g : GraphEnv) (w h : Nat)
    (hw : 0 < w) (hh : 0 < h) (om : Oracle) (fuel : Nat) :
    run_full g om fuel (graph_new_state g w h) ≠ RunResult.panic :=
  run_full_no_panic g om fuel _ (graph_new_wf g w h hw hh)

/-- Witness for C10 at a concrete input: a polar relation on a one-pixel
image, an all-false oracle, three iterations. -/
theorem refine_assertions_never_fire_witness :
    (0:Nat) < 1 ∧ run_full ⟨1, 1, RelationType.Polar⟩
        ⟨fun _ => false, fun _ => false, fun _ => false, fun _ => false,
         fun _ => false, fun _ => false⟩ 3
        (graph_new_state ⟨1, 1, RelationType.Polar⟩ 1 1)
      ≠ RunResult.panic :=
  ⟨Nat.zero_lt_one, refine_assertions_never_fire ⟨1, 1, RelationType.Polar⟩
    1 1 Nat.zero_lt_one Nat.zero_lt_one _ 3⟩

end InariGraph
